import Mathlib

/-!
Bali Document Notation: the expression and range productions of the parser and
the formatter, the catalog and set collections, the inversion expression, the
moments and the versions.

A shallow embedding of `bali/expressions.go` (the expression productions of the
recursive-descent parser, the operator tables of parser and formatter), of the
range productions of `bali/ranges.go`, of `collections/catalog.go` and
`collections/set.go`, of `expressions/inversion.go` and of the moment library of
`v2/elements/moment.go` (Go `int` as the integers modulo `2^64`), together with
the collaborators they call.  The scanner
cursor is explicit state, a Go `panic` is the `fatal` outcome (`none` for the
collections), and the mutual recursion of the productions is bounded by a fuel
argument of `parseExpression`.  A method of a collection is a function from the
state of its receiver to the state it leaves; objects held by reference
(associations, and the catalogs and sets the library functions work on) are
addressed by their position in a list of objects.  Declarations of the
repository that are not among the sources (the scanner, the operator constants,
the component and literal productions, the list, the natural ranking) are
parameters or are modelled from the specification, as their comments say.
-/

namespace Bali

/-! ## Tokens and the scanner cursor -/

/-- Modelled from the spec: the token categories of the scanner (delimiter,
identifier, keyword, numeric literal, the string and element literal shapes of
the lexicon, note and comment, end of line, end of input).  The sources name
`TokenDelimiter`, `TokenIdentifier` and `TokenNumber`; the declaration itself is
not among them. -/
inductive TokenType where
  | TokenAngle
  | TokenBinary
  | TokenBoolean
  | TokenComment
  | TokenDelimiter
  | TokenDuration
  | TokenEOF
  | TokenEOL
  | TokenIdentifier
  | TokenKeyword
  | TokenMoment
  | TokenMoniker
  | TokenNarrative
  | TokenNote
  | TokenNumber
  | TokenPattern
  | TokenPercentage
  | TokenProbability
  | TokenQuote
  | TokenResource
  | TokenSymbol
  | TokenTag
  | TokenVersion
deriving DecidableEq, Repr

open TokenType

/-- Modelled from the spec: a token is a category and its raw text (`Type` and
`Value` in the sources).  The source position of the spec is only read by the
error formatter, which is not among the sources, and is left out. -/
structure Token where
  type : TokenType
  value : String
deriving DecidableEq, Repr

/-- The token delivered once the input is exhausted. -/
def endOfInput : Token := ⟨TokenEOF, ""⟩

/-- Modelled from the spec: the parser owns a scanner cursor over the token
stream (`type parser struct` is not among the sources): the tokens of the input
and the index of the next token to deliver. -/
structure Parser where
  tokens : List Token
  position : Nat
deriving DecidableEq, Repr

/-- Modelled from the spec: `nextToken()` delivers one token per call and
advances the cursor; past the end of the input it delivers the end-of-input
token. -/
def nextToken (v : Parser) : Token × Parser :=
  (v.tokens.getD v.position endOfInput, { v with position := v.position + 1 })

/-- Modelled from the spec: `backupOne()` pushes the last delivered token back,
so that the next `nextToken()` delivers it again. -/
def backupOne (v : Parser) : Parser :=
  { v with position := v.position - 1 }

/-- A fatal diagnostic (a Go `panic`): the message, the offending token when the
message is built by `formatError`, and the grammar production names passed to
`generateGrammar`, in the order of the call. -/
structure Diagnostic where
  message : String
  token : Option Token
  grammar : List String
deriving DecidableEq, Repr

/-- The result of a production.  `ok value token v` is the Go return
`(value, token, true)` with the cursor left at `v`; `noMatch token v` is
`(_, token, false)`; `fatal` is a `panic`; `outOfFuel` says that the recursion
budget of the model was used up before the production returned. -/
inductive Outcome (α : Type) where
  | ok (value : α) (token : Token) (v : Parser)
  | noMatch (token : Token) (v : Parser)
  | fatal (diagnostic : Diagnostic)
  | outOfFuel
deriving DecidableEq, Repr

/-- Modelled from the spec: `parseDelimiter(delimiter)` is a speculative probe
for one delimiter token with the given text; on any other token it pushes the
token back and reports no match (the shape of `parseVariable` in the
sources). -/
def parseDelimiter (delimiter : String) (v : Parser) : Outcome String :=
  let (token, v1) := nextToken v
  if token.type ≠ TokenDelimiter ∨ token.value ≠ delimiter then
    Outcome.noMatch token (backupOne v1)
  else
    Outcome.ok token.value token v1

/-- Modelled from the spec: `parseKeyword(keyword)` is a speculative probe for
one keyword token with the given text; on any other token it pushes the token
back and reports no match. -/
def parseKeyword (keyword : String) (v : Parser) : Outcome String :=
  let (token, v1) := nextToken v
  if token.type ≠ TokenKeyword ∨ token.value ≠ keyword then
    Outcome.noMatch token (backupOne v1)
  else
    Outcome.ok token.value token v1

/-- Modelled from the spec: `parseIdentifier()` is a speculative probe for one
identifier token; on any other token it pushes the token back and reports no
match. -/
def parseIdentifier (v : Parser) : Outcome String :=
  let (token, v1) := nextToken v
  if token.type ≠ TokenIdentifier then
    Outcome.noMatch token (backupOne v1)
  else
    Outcome.ok token.value token v1

/-! ## Operators -/

/-- The constants of `abs.Operator` that the sources name: the 28 operators of
`parseOperator` and `formatOperator`, and the two bounds `INVERSE` and
`CONJUGATE` of the inversion constructor.  The `switch` of `formatOperator`
lists the 28 as distinct cases, so they are distinct values.  Their numeric
values are declared outside the sources and are a parameter of the productions
(`Collaborators.code`). -/
inductive Operator where
  | AMPERSAND | ARROW | ASSIGN | AT | BAR | CARET | DEFAULT | DIFFERENCE | DOT
  | EQUAL | IS | LESS | MATCHES | MINUS | MODULO | MORE | NOT | OR | PLUS
  | PRODUCT | QUOTIENT | SANS | SLASH | STAR | SUM | TILDA | UNEQUAL | XOR
  | INVERSE | CONJUGATE
deriving DecidableEq, Repr

open Operator

/-- The `switch token.Value` of `parseOperator`: the operator of a delimiter
text, `none` for the `default` branch. -/
def operatorOf (value : String) : Option Operator :=
  match value with
  | "&" => some AMPERSAND
  | "<-" => some ARROW
  | ":=" => some ASSIGN
  | "@" => some AT
  | "|" => some BAR
  | "^" => some CARET
  | "?=" => some DEFAULT
  | "-=" => some DIFFERENCE
  | "." => some DOT
  | "=" => some EQUAL
  | "IS" => some IS
  | "<" => some LESS
  | "MATCHES" => some MATCHES
  | "-" => some MINUS
  | "//" => some MODULO
  | ">" => some MORE
  | "NOT" => some NOT
  | "OR" => some OR
  | "+" => some PLUS
  | "*=" => some PRODUCT
  | "/=" => some QUOTIENT
  | "SANS" => some SANS
  | "/" => some SLASH
  | "*" => some STAR
  | "+=" => some SUM
  | "~" => some TILDA
  | "≠" => some UNEQUAL
  | "XOR" => some XOR
  | _ => none

/-- The method `parseOperator`: the next token is read; a token that is not a
delimiter is pushed back with `ok = false`; a delimiter in the table is
consumed and its operator returned; any other delimiter is a `panic`. -/
def parseOperator (v : Parser) : Outcome Operator :=
  let (token, v1) := nextToken v
  if token.type ≠ TokenDelimiter then
    Outcome.noMatch token (backupOne v1)
  else
    match operatorOf token.value with
    | some operator => Outcome.ok operator token v1
    | none =>
      Outcome.fatal
        ⟨"An unexpected operator token was received by the parser:", some token,
          ["operator", "$expression"]⟩

/-- The text that the `switch operator` of `formatOperator` appends, `none` for
the `default` branch (a `panic`). -/
def operatorText (operator : Operator) : Option String :=
  match operator with
  | AMPERSAND => some "&"
  | ARROW => some "<-"
  | ASSIGN => some ":="
  | AT => some "@"
  | BAR => some "|"
  | CARET => some "^"
  | DEFAULT => some "?="
  | DIFFERENCE => some "-="
  | DOT => some "."
  | EQUAL => some "="
  | IS => some "IS"
  | LESS => some "<"
  | MATCHES => some "MATCHES"
  | MINUS => some "-"
  | MODULO => some "//"
  | MORE => some ">"
  | NOT => some "NOT"
  | OR => some "OR"
  | PLUS => some "+"
  | PRODUCT => some "*="
  | QUOTIENT => some "/="
  | SANS => some "SANS"
  | SLASH => some "/"
  | STAR => some "*"
  | SUM => some "+="
  | TILDA => some "~"
  | UNEQUAL => some "≠"
  | XOR => some "XOR"
  | _ => none

/-- The method `formatOperator` on the formatter state (the text emitted so
far): the operator text is appended, an operator outside the table is a
`panic`. -/
def formatOperator (operator : Operator) (state : String) : Except String String :=
  match operatorText operator with
  | some text => Except.ok (state ++ text)
  | none => Except.error "An unexpected operator token was received by the formatter"

/-! ## Expressions -/

/-- The expression variants built by the constructors of package `expressions`
(`exp.Arithmetic`, `exp.Chaining`, ...), generic in the component model, which
is not among the sources.  `item` is the node built by `exp.Value`. -/
inductive Expression (Component : Type) where
  | component (component : Component)
  | intrinsic (function : String) (arguments : List (Expression Component))
  | variable (identifier : String)
  | precedence (inner : Expression Component)
  | dereference (reference : Expression Component)
  | invocation (target : Expression Component) (operator : Operator)
      (message : String) (arguments : List (Expression Component))
  | item (composite : Expression Component) (indices : List (Expression Component))
  | chaining (first second : Expression Component)
  | exponential (base exponent : Expression Component)
  | arithmetic (first : Expression Component) (operator : Operator)
      (second : Expression Component)
  | comparison (first : Expression Component) (operator : Operator)
      (second : Expression Component)
  | logical (first : Expression Component) (operator : Operator)
      (second : Expression Component)
  | inversion (operator : Operator) (expression : Expression Component)
  | magnitude (numeric : Expression Component)
  | complement (logical : Expression Component)

/-- The parts of the parser that the expression productions call and that are
declared outside the sources: the numeric values of the `abs.Operator`
constants, the component production, and the indices production (which calls
back into the expression production it is given). -/
structure Collaborators (Component : Type) where
  code : Operator → Int
  parseComponent : Parser → Outcome Component
  parseIndices : (Parser → Outcome (Expression Component)) → Parser →
    Outcome (List (Expression Component))

namespace Outcome

/-- Sequencing of two steps of a production: the first step's `ok` and
`ok = false` results are handed to the continuations, a `panic` (and an
exhausted budget) ends the production. -/
def andThen {α β : Type} (o : Outcome α) (onOk : α → Token → Parser → Outcome β)
    (onNoMatch : Token → Parser → Outcome β) : Outcome β :=
  match o with
  | ok value token v => onOk value token v
  | noMatch token v => onNoMatch token v
  | fatal diagnostic => fatal diagnostic
  | outOfFuel => outOfFuel

/-- The Go idiom `if !ok { x, token, ok = v.next() }`: the next alternative runs,
from the cursor the failed one left, only when the previous one reported
`ok = false`. -/
def orElse {α : Type} (o : Outcome α) (next : Parser → Outcome α) : Outcome α :=
  match o with
  | noMatch _ v => next v
  | other => other

/-- The implicit conversion of a production's result to `abs.ExpressionLike`. -/
def map {α β : Type} (f : α → β) (o : Outcome α) : Outcome β :=
  match o with
  | ok value token v => ok (f value) token v
  | noMatch token v => noMatch token v
  | fatal diagnostic => fatal diagnostic
  | outOfFuel => outOfFuel

end Outcome

/-- The diagnostic built by `formatError(message, token)` followed by
`generateGrammar(names...)`. -/
def unexpected (token : Token) (grammar : List String) : Diagnostic :=
  ⟨"An unexpected token was received by the parser:", some token, grammar⟩

section Productions

variable {Component : Type}

/-- Modelled from the spec: a constructor of package `expressions` panics on a
nil expression argument (the constructors other than `Inversion` are not among
the sources; `SetExpression` of the inversion expression shows the check). -/
def required (expression : Option (Expression Component)) (token : Token) (v : Parser)
    (build : Expression Component → Expression Component) : Outcome (Expression Component) :=
  match expression with
  | some e => Outcome.ok (build e) token v
  | none => Outcome.fatal ⟨"The expression to be operated on cannot be nil.", none, []⟩

/-- The constructor `Inversion(operator, expression)` of `expressions/inversion.go`:
`SetOperator` panics on an operator outside `INVERSE..CONJUGATE`, `SetExpression`
panics on a nil expression. -/
def Inversion (code : Operator → Int) (operator : Operator)
    (expression : Option (Expression Component)) : Except String (Expression Component) :=
  if code operator < code INVERSE ∨ code operator > code CONJUGATE then
    Except.error "The operator in an inversion expression must be a valid inversion operation."
  else
    match expression with
    | none => Except.error "The expression to be operated on cannot be nil."
    | some e => Except.ok (Expression.inversion operator e)

/-- The loop `for ok { ... }` of `parseArguments`, entered with the argument just
parsed: it is added to the list, a following `,` requires another expression
(its absence is a `panic`), anything else ends the loop.  The result carries the
arguments and the cursor at the end of the loop. -/
def parseArgumentsLoop (parseExpression : Parser → Outcome (Expression Component)) :
    Nat → List (Expression Component) → Expression Component → Parser →
      Outcome (List (Expression Component))
  | 0, _, _, _ => Outcome.outOfFuel
  | fuel + 1, arguments, argument, v =>
    let arguments := arguments ++ [argument]
    (parseDelimiter "," v).andThen
      (fun _ _ v1 =>
        (parseExpression v1).andThen
          (fun argument _ v2 => parseArgumentsLoop parseExpression fuel arguments argument v2)
          (fun token _ => Outcome.fatal (unexpected token ["$expression", "$arguments"])))
      (fun token v1 => Outcome.ok arguments token v1)

/-- The method `parseArguments`: `(` opens the list or the production reports no
match; the arguments are read by the loop; a missing `)` is a `panic`. -/
def parseArguments (parseExpression : Parser → Outcome (Expression Component))
    (fuel : Nat) (v : Parser) : Outcome (List (Expression Component)) :=
  (parseDelimiter "(" v).andThen
    (fun _ _ v1 =>
      ((parseExpression v1).andThen
          (fun argument _ v2 => parseArgumentsLoop parseExpression fuel [] argument v2)
          (fun token v2 => Outcome.ok [] token v2)).andThen
        (fun arguments _ v3 =>
          (parseDelimiter ")" v3).andThen
            (fun _ token v4 => Outcome.ok arguments token v4)
            (fun token _ =>
              Outcome.fatal (unexpected token [")", "$intrinsic", "$function", "$arguments"])))
        (fun token v3 => Outcome.noMatch token v3))
    (fun token v1 => Outcome.noMatch token v1)

/-- The method `parseArithmetic`. -/
def parseArithmetic (c : Collaborators Component)
    (parseExpression : Parser → Outcome (Expression Component))
    (first : Option (Expression Component)) (v : Parser) : Outcome (Expression Component) :=
  (parseOperator v).andThen
    (fun operator token v1 =>
      if c.code operator < c.code PLUS ∨ c.code operator > c.code MODULO then
        Outcome.noMatch token (backupOne v1)
      else
        (parseExpression v1).andThen
          (fun second token v2 =>
            required first token v2 (fun first => Expression.arithmetic first operator second))
          (fun token _ => Outcome.fatal (unexpected token ["$expression", "$arithmetic"])))
    (fun token v1 => Outcome.noMatch token v1)

/-- The method `parseChaining`. -/
def parseChaining (parseExpression : Parser → Outcome (Expression Component))
    (first : Option (Expression Component)) (v : Parser) : Outcome (Expression Component) :=
  (parseOperator v).andThen
    (fun operator token v1 =>
      if operator ≠ AMPERSAND then
        Outcome.noMatch token (backupOne v1)
      else
        (parseExpression v1).andThen
          (fun second token v2 =>
            required first token v2 (fun first => Expression.chaining first second))
          (fun token _ => Outcome.fatal (unexpected token ["$expression", "$chaining"])))
    (fun token v1 => Outcome.noMatch token v1)

/-- The method `parseComparison`. -/
def parseComparison (c : Collaborators Component)
    (parseExpression : Parser → Outcome (Expression Component))
    (first : Option (Expression Component)) (v : Parser) : Outcome (Expression Component) :=
  (parseOperator v).andThen
    (fun operator token v1 =>
      if c.code operator < c.code LESS ∨ c.code operator > c.code MATCHES then
        Outcome.noMatch token (backupOne v1)
      else
        (parseExpression v1).andThen
          (fun second token v2 =>
            required first token v2 (fun first => Expression.comparison first operator second))
          (fun token _ => Outcome.fatal (unexpected token ["$expression", "$comparison"])))
    (fun token v1 => Outcome.noMatch token v1)

/-- The method `parseComplement`. -/
def parseComplement (parseExpression : Parser → Outcome (Expression Component))
    (v : Parser) : Outcome (Expression Component) :=
  (parseKeyword "NOT" v).andThen
    (fun _ _ v1 =>
      (parseExpression v1).andThen
        (fun logical token v2 => Outcome.ok (Expression.complement logical) token v2)
        (fun token _ => Outcome.fatal (unexpected token ["$expression", "$complement"])))
    (fun token v1 => Outcome.noMatch token v1)

/-- The method `parseDereference`.  The `default` branch of its `switch` returns
`ok = false` without a call of `backupOne`. -/
def parseDereference (parseExpression : Parser → Outcome (Expression Component))
    (v : Parser) : Outcome (Expression Component) :=
  (parseOperator v).andThen
    (fun operator token v1 =>
      match operator with
      | AT =>
        (parseExpression v1).andThen
          (fun reference token v2 => Outcome.ok (Expression.dereference reference) token v2)
          (fun token _ => Outcome.fatal (unexpected token ["$expression", "$dereference"]))
      | _ => Outcome.noMatch token v1)
    (fun token v1 => Outcome.noMatch token v1)

/-- The method `parseExponential`. -/
def parseExponential (parseExpression : Parser → Outcome (Expression Component))
    (base : Option (Expression Component)) (v : Parser) : Outcome (Expression Component) :=
  (parseOperator v).andThen
    (fun operator token v1 =>
      if operator ≠ CARET then
        Outcome.noMatch token (backupOne v1)
      else
        (parseExpression v1).andThen
          (fun exponent token v2 =>
            required base token v2 (fun base => Expression.exponential base exponent))
          (fun token _ => Outcome.fatal (unexpected token ["$expression", "$exponential"])))
    (fun token v1 => Outcome.noMatch token v1)

/-- The method `parseIntrinsic`: after the identifier, missing arguments are a
`panic`. -/
def parseIntrinsic (parseExpression : Parser → Outcome (Expression Component))
    (fuel : Nat) (v : Parser) : Outcome (Expression Component) :=
  (parseIdentifier v).andThen
    (fun function _ v1 =>
      (parseArguments parseExpression fuel v1).andThen
        (fun arguments token v2 => Outcome.ok (Expression.intrinsic function arguments) token v2)
        (fun token _ =>
          Outcome.fatal
            (unexpected token ["$expression", "$intrinsic", "$function", "$arguments"])))
    (fun token v1 => Outcome.noMatch token v1)

/-- The method `parseInversion`. -/
def parseInversion (c : Collaborators Component)
    (parseExpression : Parser → Outcome (Expression Component))
    (v : Parser) : Outcome (Expression Component) :=
  (parseOperator v).andThen
    (fun operator token v1 =>
      if c.code operator < c.code PLUS ∨ c.code operator > c.code STAR then
        Outcome.noMatch token (backupOne v1)
      else
        (parseExpression v1).andThen
          (fun numeric token v2 =>
            match Inversion c.code operator (some numeric) with
            | Except.ok expression => Outcome.ok expression token v2
            | Except.error message => Outcome.fatal ⟨message, none, []⟩)
          (fun token _ => Outcome.fatal (unexpected token ["$expression", "$inversion"])))
    (fun token v1 => Outcome.noMatch token v1)

/-- The method `parseInvocation`. -/
def parseInvocation (c : Collaborators Component)
    (parseExpression : Parser → Outcome (Expression Component)) (fuel : Nat)
    (target : Option (Expression Component)) (v : Parser) : Outcome (Expression Component) :=
  (parseOperator v).andThen
    (fun operator token v1 =>
      if c.code operator < c.code DOT ∨ c.code operator > c.code ARROW then
        Outcome.noMatch token (backupOne v1)
      else
        (parseIdentifier v1).andThen
          (fun message _ v2 =>
            (parseArguments parseExpression fuel v2).andThen
              (fun arguments token v3 =>
                required target token v3
                  (fun target => Expression.invocation target operator message arguments))
              (fun token _ =>
                Outcome.fatal
                  (unexpected token ["$expression", "$invocation", "$method", "$arguments"])))
          (fun token _ =>
            Outcome.fatal
              (unexpected token ["$method", "$invocation", "$method", "$arguments"])))
    (fun token v1 => Outcome.noMatch token v1)

/-- The method `parseLogical`. -/
def parseLogical (c : Collaborators Component)
    (parseExpression : Parser → Outcome (Expression Component))
    (first : Option (Expression Component)) (v : Parser) : Outcome (Expression Component) :=
  (parseOperator v).andThen
    (fun operator token v1 =>
      if c.code operator < c.code NOT ∨ c.code operator > c.code XOR then
        Outcome.noMatch token (backupOne v1)
      else
        (parseExpression v1).andThen
          (fun second token v2 =>
            required first token v2 (fun first => Expression.logical first operator second))
          (fun token _ => Outcome.fatal (unexpected token ["$expression", "$logical"])))
    (fun token v1 => Outcome.noMatch token v1)

/-- The method `parseMagnitude`. -/
def parseMagnitude (parseExpression : Parser → Outcome (Expression Component))
    (v : Parser) : Outcome (Expression Component) :=
  (parseDelimiter "|" v).andThen
    (fun _ _ v1 =>
      (parseExpression v1).andThen
        (fun numeric _ v2 =>
          (parseDelimiter "|" v2).andThen
            (fun _ token v3 => Outcome.ok (Expression.magnitude numeric) token v3)
            (fun token _ => Outcome.fatal (unexpected token ["|", "$magnitude"])))
        (fun token _ => Outcome.fatal (unexpected token ["$expression", "$magnitude"])))
    (fun token v1 => Outcome.noMatch token v1)

/-- The method `parsePrecedence`. -/
def parsePrecedence (parseExpression : Parser → Outcome (Expression Component))
    (v : Parser) : Outcome (Expression Component) :=
  (parseDelimiter "(" v).andThen
    (fun _ _ v1 =>
      (parseExpression v1).andThen
        (fun inner _ v2 =>
          (parseDelimiter ")" v2).andThen
            (fun _ token v3 => Outcome.ok (Expression.precedence inner) token v3)
            (fun token _ => Outcome.fatal (unexpected token ["$expression", "$precedence"])))
        (fun token _ => Outcome.fatal (unexpected token ["$expression", "$precedence"])))
    (fun token v1 => Outcome.noMatch token v1)

/-- The method `parseItem`. -/
def parseItem (c : Collaborators Component)
    (parseExpression : Parser → Outcome (Expression Component))
    (composite : Option (Expression Component)) (v : Parser) : Outcome (Expression Component) :=
  (parseDelimiter "[" v).andThen
    (fun _ _ v1 =>
      (c.parseIndices parseExpression v1).andThen
        (fun indices _ v2 =>
          (parseDelimiter "]" v2).andThen
            (fun _ token v3 =>
              required composite token v3 (fun composite => Expression.item composite indices))
            (fun token _ =>
              Outcome.fatal (unexpected token ["]", "$item", "$composite", "$indices"])))
        (fun token _ =>
          Outcome.fatal (unexpected token ["$expression", "$item", "$composite", "$indices"])))
    (fun token v1 => Outcome.noMatch token v1)

/-- The method `parseRecursive`.  It starts with a call of `parseExpression`; the
result of a failed extension production is assigned to the variable `expression`
before the next production is called, so only `parseInvocation` receives the
parsed expression and the later productions receive the nil result of the one
before them. -/
def parseRecursive (c : Collaborators Component)
    (parseExpression : Parser → Outcome (Expression Component)) (fuel : Nat)
    (v : Parser) : Outcome (Expression Component) :=
  (parseExpression v).andThen
    (fun expression _ v1 =>
      (((((((parseInvocation c parseExpression fuel (some expression) v1).orElse
        (parseItem c parseExpression none)).orElse
        (parseChaining parseExpression none)).orElse
        (parseExponential parseExpression none)).orElse
        (parseArithmetic c parseExpression none)).orElse
        (parseComparison c parseExpression none)).orElse
        (parseLogical c parseExpression none)).andThen
        (fun expression token v2 => Outcome.ok expression token v2)
        (fun token _ =>
          Outcome.fatal
            (unexpected token ["operator", "$invocation", "$item", "$chaining", "$exponential",
              "$arithmetic", "$comparison", "$logical"])))
    (fun token v1 => Outcome.noMatch token v1)

/-- The method `parseVariable`. -/
def parseVariable (v : Parser) : Outcome (Expression Component) :=
  let (token, v1) := nextToken v
  if token.type ≠ TokenIdentifier then
    Outcome.noMatch token (backupOne v1)
  else
    Outcome.ok (Expression.variable token.value) token v1

/-- The body of the method `parseExpression`, with the recursive calls made
through `parseExpression`: the alternatives are tried in the order of the
source, each only when the one before reported `ok = false`. -/
def parseExpressionBody (c : Collaborators Component)
    (parseExpression : Parser → Outcome (Expression Component)) (fuel : Nat)
    (v : Parser) : Outcome (Expression Component) :=
  (((((((((c.parseComponent v).map Expression.component).orElse
    (parseIntrinsic parseExpression fuel)).orElse
    parseVariable).orElse
    (parsePrecedence parseExpression)).orElse
    (parseDereference parseExpression)).orElse
    (parseRecursive c parseExpression fuel)).orElse
    (parseInversion c parseExpression)).orElse
    (parseMagnitude parseExpression)).orElse
    (parseComplement parseExpression)

/-- The method `parseExpression`.  `fuel` bounds the depth of the recursion (and
the number of iterations of the argument loop); with the budget used up the
result is `outOfFuel`. -/
def parseExpression (c : Collaborators Component) : Nat → Parser → Outcome (Expression Component)
  | 0 => fun _ => Outcome.outOfFuel
  | fuel + 1 => parseExpressionBody c (parseExpression c fuel) fuel

end Productions

/-! ## The formatter of expressions -/

/-- The parts of the formatter that `formatExpression` calls and that are declared
outside the sources: the component formatter, and the formatters of the
expression kinds other than arithmetic, chaining and variable. -/
structure Formatters (Component : Type) where
  formatComponent : Component → String → Except String String
  formatOther : Expression Component → String → Except String String

/-- The method `formatArithmetic`; the two calls of `formatExpression` on the
operands are passed in as `formatFirst` and `formatSecond`. -/
def formatArithmetic (formatFirst formatSecond : String → Except String String)
    (operator : Operator) (state : String) : Except String String :=
  match formatFirst state with
  | Except.error message => Except.error message
  | Except.ok state1 =>
    match formatOperator operator state1 with
    | Except.error message => Except.error message
    | Except.ok state2 => formatSecond state2

/-- The method `formatChaining`; the two calls of `formatExpression` on the
operands are passed in as `formatFirst` and `formatSecond`. -/
def formatChaining (formatFirst formatSecond : String → Except String String)
    (state : String) : Except String String :=
  match formatFirst state with
  | Except.error message => Except.error message
  | Except.ok state1 => formatSecond (state1 ++ " & ")

/-- The method `formatVariable`. -/
def formatVariable (identifier : String) (state : String) : Except String String :=
  Except.ok (state ++ identifier)

/-- Modelled from the spec: `formatExpression` dispatches on the expression
variant to the formatter of that variant (the method is not among the sources;
`formatArithmetic`, `formatChaining` and `formatVariable` are). -/
def formatExpression {Component : Type} (f : Formatters Component) :
    Expression Component → String → Except String String
  | Expression.component component, state => f.formatComponent component state
  | Expression.variable identifier, state => formatVariable identifier state
  | Expression.arithmetic first operator second, state =>
    formatArithmetic (formatExpression f first) (formatExpression f second) operator state
  | Expression.chaining first second, state =>
    formatChaining (formatExpression f first) (formatExpression f second) state
  | other, state => f.formatOther other state

/-- The loop of `formatArguments` over the arguments after the first: each is
preceded by `, `. -/
def formatArgumentsRest {Component : Type}
    (formatExpression : Expression Component → String → Except String String) :
    List (Expression Component) → String → Except String String
  | [], state => Except.ok state
  | argument :: rest, state =>
    match formatExpression argument (state ++ ", ") with
    | Except.error message => Except.error message
    | Except.ok state1 => formatArgumentsRest formatExpression rest state1

/-- The method `formatArguments`: `(`, the arguments separated by `, `, `)`. -/
def formatArguments {Component : Type}
    (formatExpression : Expression Component → String → Except String String)
    (arguments : List (Expression Component)) (state : String) : Except String String :=
  match arguments with
  | [] => Except.ok (state ++ "(" ++ ")")
  | argument :: rest =>
    match formatExpression argument (state ++ "(") with
    | Except.error message => Except.error message
    | Except.ok state1 =>
      match formatArgumentsRest formatExpression rest state1 with
      | Except.error message => Except.error message
      | Except.ok state2 => Except.ok (state2 ++ ")")

/-! ## Ranges -/

/-- The constants of `abs.Extent` (`abstractions/ranges.go`). -/
inductive Extent where
  | INCLUSIVE
  | LEFT
  | RIGHT
  | EXCLUSIVE
deriving DecidableEq, Repr

open Extent

/-- The ranges built by the constructors `ran.Continuum`, `ran.Interval` and
`ran.Spectrum` of package `ranges`, generic in the type of the endpoints. -/
inductive Range (Primitive : Type) where
  | continuum (first : Primitive) (extent : Extent) (last : Primitive)
  | interval (first : Primitive) (extent : Extent) (last : Primitive)
  | spectrum (first : Primitive) (extent : Extent) (last : Primitive)
deriving DecidableEq, Repr

/-- The parts of the parser that the range productions call and that are declared
outside the sources: the literal productions other than `parseReal` and
`parseRune`, the scanner function `scanReal`, the conversions of a matched text
to a real endpoint (`mat.NaN`, `mat.Inf`, `stringToFloat`, `stc.ParseFloat`
followed by `ran.Real`), the text of a quote (`AsString`), the conversion
`ran.Rune`, and the dynamic type of an endpoint: its `ref.TypeOf` and whether it
implements `abs.Continuous`, `abs.Discrete`, `abs.Spectral`. -/
structure Scalars (Primitive : Type) where
  parseAngle : Parser → Outcome Primitive
  parseBinary : Parser → Outcome Primitive
  parseBoolean : Parser → Outcome Primitive
  parseDuration : Parser → Outcome Primitive
  parseMoment : Parser → Outcome Primitive
  parseMoniker : Parser → Outcome Primitive
  parsePattern : Parser → Outcome Primitive
  parsePercentage : Parser → Outcome Primitive
  parseProbability : Parser → Outcome Primitive
  parseQuote : Parser → Outcome Primitive
  parseResource : Parser → Outcome Primitive
  parseSymbol : Parser → Outcome Primitive
  parseTag : Parser → Outcome Primitive
  parseVersion : Parser → Outcome Primitive
  scanReal : String → List String
  undefined : Primitive
  infinity : Bool → Primitive
  stringToFloat : String → Primitive
  parseFloat : String → Option Primitive
  asString : Primitive → String
  rune : Nat → Primitive
  typeOf : Primitive → String
  isContinuous : Primitive → Bool
  isDiscrete : Primitive → Bool
  isSpectral : Primitive → Bool

/-- The function `utf8.DecodeRuneInString` of the Go library on valid text: the
first code point and the number of bytes of its encoding; `(RuneError, 0)` on the
empty text. -/
def decodeRuneInString (s : String) : Nat × Nat :=
  match s.data with
  | [] => (0xFFFD, 0)
  | r :: _ => (r.toNat, r.utf8Size)

section RangeProductions

variable {Primitive : Type}

/-- The method `parseReal`: a token that is not numeric is pushed back; the first
match of `scanReal` (an index `panic` when there is none) is converted to a
real. -/
def parseReal (g : Scalars Primitive) (v : Parser) : Outcome Primitive :=
  let (token, v1) := nextToken v
  if token.type ≠ TokenNumber then
    Outcome.noMatch token (backupOne v1)
  else
    match g.scanReal token.value with
    | [] => Outcome.fatal ⟨"index out of range", none, []⟩
    | match0 :: _ =>
      if match0 = "undefined" then
        Outcome.ok g.undefined token v1
      else if match0 = "+infinity" ∨ match0 = "+∞" then
        Outcome.ok (g.infinity false) token v1
      else if match0 = "-infinity" ∨ match0 = "-∞" then
        Outcome.ok (g.infinity true) token v1
      else if match0 = "pi" ∨ match0 = "-pi" ∨ match0 = "phi" ∨ match0 = "-phi" then
        Outcome.ok (g.stringToFloat match0) token v1
      else
        match g.parseFloat match0 with
        | some r => Outcome.ok r token v1
        | none => Outcome.ok (g.stringToFloat match0) token v1

/-- The method `parseRune`: a quote whose text is not exactly the encoding of its
first code point is pushed back. -/
def parseRune (g : Scalars Primitive) (v : Parser) : Outcome Primitive :=
  (g.parseQuote v).andThen
    (fun quote token v1 =>
      let s := g.asString quote
      let (r, size) := decodeRuneInString s
      if s.utf8ByteSize ≠ size then
        Outcome.noMatch token (backupOne v1)
      else
        Outcome.ok (g.rune r) token v1)
    (fun token v1 => Outcome.noMatch token v1)

/-- The method `parseEndpoint`: the literal productions in the order of the
source, each tried only when the one before reported `ok = false`. -/
def parseEndpoint (g : Scalars Primitive) (v : Parser) : Outcome Primitive :=
  (((((((((((((((g.parseAngle v).orElse
    g.parseBinary).orElse
    g.parseBoolean).orElse
    g.parseDuration).orElse
    g.parseMoment).orElse
    g.parseMoniker).orElse
    g.parsePattern).orElse
    g.parsePercentage).orElse
    g.parseProbability).orElse
    g.parseQuote).orElse
    (parseReal g)).orElse
    g.parseResource).orElse
    (parseRune g)).orElse
    g.parseSymbol).orElse
    g.parseTag).orElse
    g.parseVersion

/-- The diagnostic built by `formatError(token)` followed by
`generateGrammar(names...)` in `parseRange`. -/
def rangeError (token : Token) (grammar : List String) : Diagnostic :=
  ⟨"", some token, grammar⟩

/-- The second half of `parseRange`, from the `switch` on the brackets: the extent
of the bracket pair, the comparison of the type of `first` with the type of
`first`, and the range constructor chosen by the interface that `first`
implements, with the type assertions on both endpoints. -/
def buildRange (g : Scalars Primitive) (left right : String) (first last : Primitive)
    (token : Token) (v : Parser) : Outcome (Range Primitive) :=
  let extent : Option Extent :=
    if left = "[" ∧ right = "]" then some INCLUSIVE
    else if left = "(" ∧ right = "]" then some RIGHT
    else if left = "[" ∧ right = ")" then some LEFT
    else if left = "(" ∧ right = ")" then some EXCLUSIVE
    else none
  match extent with
  | none => Outcome.fatal ⟨"Expected valid range brackets but received", none, []⟩
  | some extent =>
    if g.typeOf first ≠ g.typeOf first then
      Outcome.fatal ⟨"The range endpoints have two different types", none, []⟩
    else if g.isContinuous first then
      if g.isContinuous last then Outcome.ok (Range.continuum first extent last) token v
      else Outcome.fatal ⟨"interface conversion", none, []⟩
    else if g.isDiscrete first then
      if g.isDiscrete last then Outcome.ok (Range.interval first extent last) token v
      else Outcome.fatal ⟨"interface conversion", none, []⟩
    else if g.isSpectral first then
      if g.isSpectral last then Outcome.ok (Range.spectrum first extent last) token v
      else Outcome.fatal ⟨"interface conversion", none, []⟩
    else
      Outcome.fatal ⟨"An invalid range endpoint was parsed", none, []⟩

/-- The method `parseRange`: a left bracket, an endpoint, `..`, an endpoint and a
right bracket.  Without a first endpoint the bracket is pushed back, without `..`
the endpoint and the bracket are, and the production reports `ok = false`; a
missing second endpoint or right bracket is a `panic`. -/
def parseRange (g : Scalars Primitive) (v : Parser) : Outcome (Range Primitive) :=
  ((parseDelimiter "[" v).orElse (parseDelimiter "(")).andThen
    (fun left _ v1 =>
      (parseEndpoint g v1).andThen
        (fun first _ v2 =>
          (parseDelimiter ".." v2).andThen
            (fun _ _ v3 =>
              (parseEndpoint g v3).andThen
                (fun last _ v4 =>
                  ((parseDelimiter "]" v4).orElse (parseDelimiter ")")).andThen
                    (fun right token v5 => buildRange g left right first last token v5)
                    (fun token _ =>
                      Outcome.fatal (rangeError token ["right bracket", "$range", "$primitive"])))
                (fun token _ =>
                  Outcome.fatal (rangeError token ["right endpoint", "$range", "$primitive"])))
            (fun token v3 => Outcome.noMatch token (backupOne (backupOne v3))))
        (fun token v2 => Outcome.noMatch token (backupOne v2)))
    (fun token v1 => Outcome.noMatch token v1)

end RangeProductions

/-! ## Example collaborators

Concrete collaborators on which the productions can be run.  The general
theorems below hold for every choice of collaborators. -/

/-- The token categories of the element and string literals of the lexicon. -/
def isLiteral (type : TokenType) : Bool :=
  match type with
  | TokenAngle | TokenBinary | TokenBoolean | TokenDuration | TokenMoment | TokenMoniker
  | TokenNarrative | TokenNumber | TokenPattern | TokenPercentage | TokenProbability
  | TokenQuote | TokenResource | TokenSymbol | TokenTag | TokenVersion => true
  | _ => false

/-- Modelled from the spec: `component := entity [context] [annotation]` with
`entity := element | string | collection | procedure`.  The example production
covers an element or string entity without context and annotation: one literal
token is a component, any other token is pushed back with no match. -/
def parseLiteral (v : Parser) : Outcome Token :=
  let (token, v1) := nextToken v
  if isLiteral token.type then
    Outcome.ok token token v1
  else
    Outcome.noMatch token (backupOne v1)

/-- Modelled from the spec: the lexicon rule
`$indices: expression {"," expression}`, read with the argument loop of
`parseArguments`; the loop budget is the length of the input. -/
def parseIndexList {Component : Type}
    (parseExpression : Parser → Outcome (Expression Component)) (v : Parser) :
    Outcome (List (Expression Component)) :=
  (parseExpression v).andThen
    (fun index _ v1 => parseArgumentsLoop parseExpression (v.tokens.length + 1) [] index v1)
    (fun token v1 => Outcome.noMatch token v1)

/-- An assignment of numeric values to the operator constants for the examples:
the constants are numbered category by category so that each range tested by a
production is ascending (`PLUS..MODULO`, `LESS..MATCHES`, `NOT..XOR`,
`DOT..ARROW`, `INVERSE..CONJUGATE`). -/
def categoryCode (operator : Operator) : Int :=
  match operator with
  | PLUS => 1 | MINUS => 2 | STAR => 3 | SLASH => 4 | MODULO => 5
  | LESS => 6 | EQUAL => 7 | MORE => 8 | UNEQUAL => 9 | IS => 10 | MATCHES => 11
  | NOT => 12 | OR => 13 | SANS => 14 | XOR => 15
  | DOT => 16 | ARROW => 17
  | ASSIGN => 18 | SUM => 19 | DIFFERENCE => 20 | PRODUCT => 21 | QUOTIENT => 22
  | DEFAULT => 23
  | CARET => 24 | AMPERSAND => 25 | AT => 26 | BAR => 27 | TILDA => 28
  | INVERSE => 29 | CONJUGATE => 30

/-- The example collaborators: literal tokens as components. -/
def literalCollaborators : Collaborators Token :=
  { code := categoryCode, parseComponent := parseLiteral, parseIndices := parseIndexList }

/-- A parser at the start of a token stream. -/
def startOf (tokens : List Token) : Parser := ⟨tokens, 0⟩

/-- A delimiter token. -/
def delimiter (value : String) : Token := ⟨TokenDelimiter, value⟩

/-- An identifier token. -/
def identifier (value : String) : Token := ⟨TokenIdentifier, value⟩

/-- A keyword token. -/
def keyword (value : String) : Token := ⟨TokenKeyword, value⟩

/-- A numeric literal token. -/
def number (value : String) : Token := ⟨TokenNumber, value⟩

/-- Modelled from the spec: the canonical rendering of a literal that was read from
canonical text is that text.  The example formatters render a literal component
by its text; the formatters of the remaining expression kinds are not among the
sources and the example reports them as missing. -/
def literalFormatters : Formatters Token :=
  { formatComponent := fun component state => Except.ok (state ++ component.value),
    formatOther := fun _ _ => Except.error "no formatter for this kind of expression" }

/-- Modelled from the spec: a literal production recognises one token of its
category and reports no match on any other token, which it pushes back (the
shape of `parseReal` in the sources). -/
def parseLiteralOf (type : TokenType) (v : Parser) : Outcome Token :=
  let (token, v1) := nextToken v
  if token.type ≠ type then
    Outcome.noMatch token (backupOne v1)
  else
    Outcome.ok token token v1

/-- The name of the scalar type that a literal category stands for in the
examples. -/
def typeName (type : TokenType) : String :=
  match type with
  | TokenAngle => "Angle"
  | TokenBinary => "Binary"
  | TokenBoolean => "Boolean"
  | TokenDuration => "Duration"
  | TokenMoment => "Moment"
  | TokenMoniker => "Moniker"
  | TokenNarrative => "Narrative"
  | TokenNumber => "Real"
  | TokenPattern => "Pattern"
  | TokenPercentage => "Percentage"
  | TokenProbability => "Probability"
  | TokenQuote => "Quote"
  | TokenResource => "Resource"
  | TokenSymbol => "Symbol"
  | TokenTag => "Tag"
  | TokenVersion => "Version"
  | _ => "none"

/-- The example scalars: an endpoint is the literal token it was read from, a real
is matched by its whole text, and the category of the token stands for the
dynamic type. -/
def literalScalars : Scalars Token :=
  { parseAngle := parseLiteralOf TokenAngle,
    parseBinary := parseLiteralOf TokenBinary,
    parseBoolean := parseLiteralOf TokenBoolean,
    parseDuration := parseLiteralOf TokenDuration,
    parseMoment := parseLiteralOf TokenMoment,
    parseMoniker := parseLiteralOf TokenMoniker,
    parsePattern := parseLiteralOf TokenPattern,
    parsePercentage := parseLiteralOf TokenPercentage,
    parseProbability := parseLiteralOf TokenProbability,
    parseQuote := parseLiteralOf TokenQuote,
    parseResource := parseLiteralOf TokenResource,
    parseSymbol := parseLiteralOf TokenSymbol,
    parseTag := parseLiteralOf TokenTag,
    parseVersion := parseLiteralOf TokenVersion,
    scanReal := fun value => [value],
    undefined := ⟨TokenNumber, "undefined"⟩,
    infinity := fun negative => ⟨TokenNumber, if negative then "-∞" else "+∞"⟩,
    stringToFloat := fun value => ⟨TokenNumber, value⟩,
    parseFloat := fun value => some ⟨TokenNumber, value⟩,
    asString := fun quote => quote.value,
    rune := fun r => ⟨TokenQuote, String.singleton (Char.ofNat r)⟩,
    typeOf := fun endpoint => typeName endpoint.type,
    isContinuous := fun endpoint =>
      match endpoint.type with
      | TokenAngle | TokenNumber | TokenPercentage | TokenProbability => true
      | _ => false,
    isDiscrete := fun endpoint =>
      match endpoint.type with
      | TokenBoolean | TokenDuration | TokenMoment => true
      | _ => false,
    isSpectral := fun endpoint =>
      match endpoint.type with
      | TokenBinary | TokenMoniker | TokenQuote | TokenSymbol | TokenTag | TokenVersion => true
      | _ => false }

/-! ## Predicates used in the statements -/

/-- The predicate "is an inversion, magnitude or complement node". -/
def Expression.isUnary {Component : Type} : Expression Component → Bool
  | Expression.inversion _ _ => true
  | Expression.magnitude _ => true
  | Expression.complement _ => true
  | _ => false

/-- The predicate "is a node of a binary extension production". -/
def Expression.isExtension {Component : Type} : Expression Component → Bool
  | Expression.invocation _ _ _ _ => true
  | Expression.item _ _ => true
  | Expression.chaining _ _ => true
  | Expression.exponential _ _ => true
  | Expression.arithmetic _ _ _ => true
  | Expression.comparison _ _ _ => true
  | Expression.logical _ _ _ => true
  | _ => false

/-- The predicate "the production reported `ok = false`". -/
def Outcome.isNoMatch {α : Type} : Outcome α → Bool
  | Outcome.noMatch _ _ => true
  | _ => false

/-- The primary alternatives of `parseExpression`: component, intrinsic, variable,
precedence and dereference, in the order of the source. -/
def parsePrimary {Component : Type} (c : Collaborators Component)
    (rec : Parser → Outcome (Expression Component)) (fuel : Nat)
    (v : Parser) : Outcome (Expression Component) :=
  (((((c.parseComponent v).map Expression.component).orElse
    (parseIntrinsic rec fuel)).orElse
    parseVariable).orElse
    (parsePrecedence rec)).orElse
    (parseDereference rec)

/-- The alternatives of `parseExpression` up to the left recursive one. -/
def primaryOrRecursive {Component : Type} (c : Collaborators Component)
    (rec : Parser → Outcome (Expression Component)) (fuel : Nat)
    (v : Parser) : Outcome (Expression Component) :=
  (parsePrimary c rec fuel v).orElse (parseRecursive c rec fuel)

/-! ## The integer production and the formatter of ranges -/

section EndpointFormatting

variable {Primitive : Type}

/-- The method `parseInteger`: a token that is not numeric, that `scanReal`
matches, or that `scanInteger` does not match is pushed back; the first match is
converted by `stc.ParseInt` (`none` is its error, a `panic`) and `ran.Integer`.
The function `scanInteger` and the conversion are declared outside the sources
and are parameters.  No production of the sources calls this method. -/
def parseInteger (g : Scalars Primitive) (scanInteger : String → List String)
    (parseInt : String → Option Primitive) (v : Parser) : Outcome Primitive :=
  let (token, v1) := nextToken v
  if token.type ≠ TokenNumber then
    Outcome.noMatch token (backupOne v1)
  else if (g.scanReal token.value).length > 0 then
    Outcome.noMatch token (backupOne v1)
  else
    match scanInteger token.value with
    | [] => Outcome.noMatch token (backupOne v1)
    | match0 :: _ =>
      match parseInt match0 with
      | none => Outcome.fatal ⟨"The integer was not parsable", none, []⟩
      | some number => Outcome.ok number token v1

/-- The parts of the formatter that the endpoint and range formatters call and
that are declared outside the sources: for each interface of the type switch of
`formatEndpoint` whether the dynamic type of an endpoint implements it, the
formatters other than `formatInteger`, `formatReal` and `formatRune`, the
methods `AsInteger`, `IsZero`, `IsInfinite`, `IsNegative`, `IsUndefined` of an
endpoint, `formatFloat` applied to `AsReal`, and `str.QuoteFromString`. -/
structure Renderers (Primitive : Type) where
  isBinaryLike : Primitive → Bool
  isMonikerLike : Primitive → Bool
  isQuoteLike : Primitive → Bool
  isVersionLike : Primitive → Bool
  isDurationLike : Primitive → Bool
  isMomentLike : Primitive → Bool
  isPercentageLike : Primitive → Bool
  isRealLike : Primitive → Bool
  isIntegerLike : Primitive → Bool
  isProbabilityLike : Primitive → Bool
  isAngleLike : Primitive → Bool
  isRuneLike : Primitive → Bool
  isPatternLike : Primitive → Bool
  isResourceLike : Primitive → Bool
  isTagLike : Primitive → Bool
  isSymbolLike : Primitive → Bool
  formatBinary : Primitive → String → Except String String
  formatMoniker : Primitive → String → Except String String
  formatQuote : Primitive → String → Except String String
  formatVersion : Primitive → String → Except String String
  formatDuration : Primitive → String → Except String String
  formatMoment : Primitive → String → Except String String
  formatPercentage : Primitive → String → Except String String
  formatProbability : Primitive → String → Except String String
  formatAngle : Primitive → String → Except String String
  formatPattern : Primitive → String → Except String String
  formatResource : Primitive → String → Except String String
  formatTag : Primitive → String → Except String String
  formatSymbol : Primitive → String → Except String String
  asInteger : Primitive → Int
  isZero : Primitive → Bool
  isInfinite : Primitive → Bool
  isNegative : Primitive → Bool
  isUndefined : Primitive → Bool
  formatFloat : Primitive → String → Except String String
  quoteFromString : String → Primitive

/-- The method `formatInteger`: the decimal text of `AsInteger`. -/
def formatInteger (r : Renderers Primitive) (number : Primitive) (state : String) :
    Except String String :=
  Except.ok (state ++ toString (r.asInteger number))

/-- The method `formatReal`: the cases of its `switch`, in the order of the
source. -/
def formatReal (r : Renderers Primitive) (number : Primitive) (state : String) :
    Except String String :=
  if r.isZero number then
    Except.ok (state ++ "0")
  else if r.isInfinite number then
    if r.isNegative number then
      Except.ok ((state ++ "-") ++ "∞")
    else
      Except.ok ((state ++ "+") ++ "∞")
  else if r.isUndefined number then
    Except.ok (state ++ "undefined")
  else
    r.formatFloat number state

/-- The Go conversion `string([]rune{rune(integer)})`: the integer is truncated to
32 bits; a value that is no Unicode scalar value is converted to U+FFFD. -/
def runeText (integer : Int) : String :=
  let r : Int := (integer + 2147483648) % 4294967296 - 2147483648
  if 0 ≤ r ∧ r.toNat.isValidChar then
    String.singleton (Char.ofNat r.toNat)
  else
    String.singleton (Char.ofNat 0xFFFD)

/-- The method `formatRune`: the quote of the one code point is formatted. -/
def formatRune (r : Renderers Primitive) (number : Primitive) (state : String) :
    Except String String :=
  r.formatQuote (r.quoteFromString (runeText (r.asInteger number))) state

/-- The method `formatEndpoint`: the type switch, in the order of the source; the
first interface that the endpoint implements selects the formatter, and an
endpoint that implements none is a `panic`. -/
def formatEndpoint (r : Renderers Primitive) (endpoint : Primitive) (state : String) :
    Except String String :=
  if r.isBinaryLike endpoint then r.formatBinary endpoint state
  else if r.isMonikerLike endpoint then r.formatMoniker endpoint state
  else if r.isQuoteLike endpoint then r.formatQuote endpoint state
  else if r.isVersionLike endpoint then r.formatVersion endpoint state
  else if r.isDurationLike endpoint then r.formatDuration endpoint state
  else if r.isMomentLike endpoint then r.formatMoment endpoint state
  else if r.isPercentageLike endpoint then r.formatPercentage endpoint state
  else if r.isRealLike endpoint then formatReal r endpoint state
  else if r.isIntegerLike endpoint then formatInteger r endpoint state
  else if r.isProbabilityLike endpoint then r.formatProbability endpoint state
  else if r.isAngleLike endpoint then r.formatAngle endpoint state
  else if r.isRuneLike endpoint then formatRune r endpoint state
  else if r.isPatternLike endpoint then r.formatPattern endpoint state
  else if r.isResourceLike endpoint then r.formatResource endpoint state
  else if r.isTagLike endpoint then r.formatTag endpoint state
  else if r.isSymbolLike endpoint then r.formatSymbol endpoint state
  else Except.error "An invalid endpoint was passed to the formatter"

/-- The bracket pair that the `switch extent` of `formatInterval`,
`formatSpectrum` and `formatContinuum` selects.  The `default` branch (a `panic`)
is for integers that are none of the four constants. -/
def brackets (extent : Extent) : String × String :=
  match extent with
  | INCLUSIVE => ("[", "]")
  | RIGHT => ("(", "]")
  | LEFT => ("[", ")")
  | EXCLUSIVE => ("(", ")")

/-- The method `formatInterval` on the three parts of the interval: the left
bracket, the first endpoint, `..`, the last endpoint, the right bracket. -/
def formatInterval (r : Renderers Primitive) (first : Primitive) (extent : Extent)
    (last : Primitive) (state : String) : Except String String :=
  match formatEndpoint r first (state ++ (brackets extent).1) with
  | Except.error message => Except.error message
  | Except.ok state1 =>
    match formatEndpoint r last (state1 ++ "..") with
    | Except.error message => Except.error message
    | Except.ok state2 => Except.ok (state2 ++ (brackets extent).2)

/-- The method `formatSpectrum`, which has the body of `formatInterval`. -/
def formatSpectrum (r : Renderers Primitive) (first : Primitive) (extent : Extent)
    (last : Primitive) (state : String) : Except String String :=
  match formatEndpoint r first (state ++ (brackets extent).1) with
  | Except.error message => Except.error message
  | Except.ok state1 =>
    match formatEndpoint r last (state1 ++ "..") with
    | Except.error message => Except.error message
    | Except.ok state2 => Except.ok (state2 ++ (brackets extent).2)

/-- The method `formatContinuum`, which has the body of `formatInterval`. -/
def formatContinuum (r : Renderers Primitive) (first : Primitive) (extent : Extent)
    (last : Primitive) (state : String) : Except String String :=
  match formatEndpoint r first (state ++ (brackets extent).1) with
  | Except.error message => Except.error message
  | Except.ok state1 =>
    match formatEndpoint r last (state1 ++ "..") with
    | Except.error message => Except.error message
    | Except.ok state2 => Except.ok (state2 ++ (brackets extent).2)

end EndpointFormatting

/-! ## The orders of the endpoint productions and formatters, as the specification words them -/

/-- The reading of "the literal grammars are tried in a fixed order and the first
matching grammar wins": the grammars run in the given order, each from the cursor
the one before it left; the result of the first that does not report `ok = false`
is the result, and when all report it the result is `ok = false`. -/
def firstMatch {Primitive : Type} (first : Parser → Outcome Primitive)
    (others : List (Parser → Outcome Primitive)) (v : Parser) : Outcome Primitive :=
  match others with
  | [] => first v
  | next :: rest =>
    match first v with
    | Outcome.noMatch _ v1 => firstMatch next rest v1
    | result => result

/-- The literal grammars after the angle grammar, in the order binary, boolean,
duration, moment, moniker, pattern, percentage, probability, quote, real,
resource, rune, symbol, tag, version. -/
def grammarsAfterAngle {Primitive : Type} (g : Scalars Primitive) :
    List (Parser → Outcome Primitive) :=
  [g.parseBinary, g.parseBoolean, g.parseDuration, g.parseMoment, g.parseMoniker,
    g.parsePattern, g.parsePercentage, g.parseProbability, g.parseQuote, parseReal g,
    g.parseResource, parseRune g, g.parseSymbol, g.parseTag, g.parseVersion]

/-- A rendering rule of the endpoint formatter: the name of the interface, the
test of the endpoint against it, and the formatter. -/
structure Rule (Primitive : Type) where
  name : String
  applies : Primitive → Bool
  format : Primitive → String → Except String String

/-- The rendering rules in the order Binary, Moniker, Quote, Version, Duration,
Moment, Percentage, Real, Integer, Probability, Angle, Rune, Pattern, Resource,
Tag, Symbol. -/
def endpointRules {Primitive : Type} (r : Renderers Primitive) : List (Rule Primitive) :=
  [⟨"BinaryLike", r.isBinaryLike, r.formatBinary⟩,
    ⟨"MonikerLike", r.isMonikerLike, r.formatMoniker⟩,
    ⟨"QuoteLike", r.isQuoteLike, r.formatQuote⟩,
    ⟨"VersionLike", r.isVersionLike, r.formatVersion⟩,
    ⟨"DurationLike", r.isDurationLike, r.formatDuration⟩,
    ⟨"MomentLike", r.isMomentLike, r.formatMoment⟩,
    ⟨"PercentageLike", r.isPercentageLike, r.formatPercentage⟩,
    ⟨"RealLike", r.isRealLike, formatReal r⟩,
    ⟨"IntegerLike", r.isIntegerLike, formatInteger r⟩,
    ⟨"ProbabilityLike", r.isProbabilityLike, r.formatProbability⟩,
    ⟨"AngleLike", r.isAngleLike, r.formatAngle⟩,
    ⟨"RuneLike", r.isRuneLike, formatRune r⟩,
    ⟨"PatternLike", r.isPatternLike, r.formatPattern⟩,
    ⟨"ResourceLike", r.isResourceLike, r.formatResource⟩,
    ⟨"TagLike", r.isTagLike, r.formatTag⟩,
    ⟨"SymbolLike", r.isSymbolLike, r.formatSymbol⟩]

/-- The reading of "testing the endpoint against the types in order, taking the
first that matches": the formatter of the first rule that applies; no rule is the
error of the formatter. -/
def firstRule {Primitive : Type} (rules : List (Rule Primitive)) (endpoint : Primitive)
    (state : String) : Except String String :=
  match rules.find? (fun rule => rule.applies endpoint) with
  | some rule => rule.format endpoint state
  | none => Except.error "An invalid endpoint was passed to the formatter"

/-- The methods of the interfaces `abs.Discrete`, `abs.Continuous` and
`abs.Polarized` (`abstractions/elements.go`). -/
inductive Method where
  | AsBoolean
  | AsInteger
  | AsReal
  | IsNegative
deriving DecidableEq, Repr

/-- The method sets of the three endpoint interfaces that the sources declare
(`abstractions/ranges.go`): `IntegerLike` is `Discrete` and `Polarized`,
`RealLike` is `Continuous` and `Polarized`, `RuneLike` is `Discrete`. -/
def declaredInterfaces : List (String × List Method) :=
  [("IntegerLike", [Method.AsBoolean, Method.AsInteger, Method.IsNegative]),
    ("RealLike", [Method.AsReal, Method.IsNegative]),
    ("RuneLike", [Method.AsBoolean, Method.AsInteger])]

/-! ## Intervals -/

/-- Modelled from the spec: a range over a discrete domain, `{ first, extent,
last }`, with the endpoints as the integers that `AsInteger` gives (integers,
runes, durations and moments step by 1).  The constructor `ran.Interval` and its
methods are not among the sources; the tests of the package are. -/
structure Interval where
  first : Int
  extent : Extent
  last : Int
deriving DecidableEq, Repr

namespace Interval

/-- Modelled from the spec: "index 1 is the first included value": the first
endpoint, or the value after it when the extent excludes the first endpoint
(`RIGHT` and `EXCLUSIVE`, as in the tests of the package). -/
def firstMember (s : Interval) : Int :=
  match s.extent with
  | INCLUSIVE | LEFT => s.first
  | RIGHT | EXCLUSIVE => s.first + 1

/-- Modelled from the spec: the last included value: the last endpoint, or the
value before it when the extent excludes the last endpoint (`LEFT` and
`EXCLUSIVE`, as in the tests of the package). -/
def lastMember (s : Interval) : Int :=
  match s.extent with
  | INCLUSIVE | RIGHT => s.last
  | LEFT | EXCLUSIVE => s.last - 1

/-- Modelled from the spec: "Range size (discrete): computed from
`distance(first, last)` adjusted by extent: inclusive adds 1 to the raw
distance, exclusive subtracts 1, half-open adjusts by 0; a computed size below
zero means the range is empty." -/
def GetSize (s : Interval) : Int :=
  let distance := s.last - s.first
  let size :=
    match s.extent with
    | INCLUSIVE => distance + 1
    | LEFT | RIGHT => distance
    | EXCLUSIVE => distance - 1
  if size < 0 then 0 else size

/-- Modelled from the spec: "Containment test: value lies within [first,last]
adjusted for extent open/closed boundaries." -/
def ContainsValue (s : Interval) (value : Int) : Bool :=
  decide (s.firstMember ≤ value ∧ value ≤ s.lastMember)

/-- Modelled from the spec: the members of the range in order, from the first
included value to the last included value in steps of 1. -/
def AsArray (s : Interval) : List Int :=
  (List.range (s.lastMember - s.firstMember + 1).toNat).map
    (fun (i : Nat) => s.firstMember + (i : Int))

/-- Modelled from the spec: the range is empty when it has no member. -/
def IsEmpty (s : Interval) : Bool :=
  s.AsArray.isEmpty

/-- Modelled from the spec: "Index lookup: 1-based ordinal position of a value
within the range, or 0 if absent." -/
def GetIndex (s : Interval) (value : Int) : Nat :=
  if value ∈ s.AsArray then s.AsArray.indexOf value + 1 else 0

/-- Modelled from the spec: the value at a 1-based index, "index 1 always
corresponds to the first member under the given extent". -/
def GetValue (s : Interval) (index : Nat) : Option Int :=
  if index = 0 then none else s.AsArray.get? (index - 1)

end Interval

/-! ## Example renderers -/

/-- The example renderers: an endpoint is the literal token it was read from and is
rendered by its text; the category of the token stands for the dynamic type (a
percentage also has the methods of a real, an integer and a rune; a duration and
a moment those of an integer and a rune; a boolean those of a rune), and the
text of a real tells its class. -/
def literalRenderers : Renderers Token :=
  { isBinaryLike := fun endpoint => endpoint.type = TokenBinary,
    isMonikerLike := fun endpoint => endpoint.type = TokenMoniker,
    isQuoteLike := fun endpoint => endpoint.type = TokenQuote,
    isVersionLike := fun endpoint => endpoint.type = TokenVersion,
    isDurationLike := fun endpoint => endpoint.type = TokenDuration,
    isMomentLike := fun endpoint => endpoint.type = TokenMoment,
    isPercentageLike := fun endpoint => endpoint.type = TokenPercentage,
    isRealLike := fun endpoint =>
      endpoint.type = TokenNumber ∨ endpoint.type = TokenPercentage,
    isIntegerLike := fun endpoint =>
      endpoint.type = TokenPercentage ∨ endpoint.type = TokenDuration ∨
        endpoint.type = TokenMoment,
    isProbabilityLike := fun endpoint => endpoint.type = TokenProbability,
    isAngleLike := fun endpoint => endpoint.type = TokenAngle,
    isRuneLike := fun endpoint =>
      endpoint.type = TokenPercentage ∨ endpoint.type = TokenDuration ∨
        endpoint.type = TokenMoment ∨ endpoint.type = TokenBoolean,
    isPatternLike := fun endpoint => endpoint.type = TokenPattern,
    isResourceLike := fun endpoint => endpoint.type = TokenResource,
    isTagLike := fun endpoint => endpoint.type = TokenTag,
    isSymbolLike := fun endpoint => endpoint.type = TokenSymbol,
    formatBinary := fun endpoint state => Except.ok (state ++ endpoint.value),
    formatMoniker := fun endpoint state => Except.ok (state ++ endpoint.value),
    formatQuote := fun endpoint state => Except.ok (state ++ endpoint.value),
    formatVersion := fun endpoint state => Except.ok (state ++ endpoint.value),
    formatDuration := fun endpoint state => Except.ok (state ++ endpoint.value),
    formatMoment := fun endpoint state => Except.ok (state ++ endpoint.value),
    formatPercentage := fun endpoint state => Except.ok (state ++ endpoint.value),
    formatProbability := fun endpoint state => Except.ok (state ++ endpoint.value),
    formatAngle := fun endpoint state => Except.ok (state ++ endpoint.value),
    formatPattern := fun endpoint state => Except.ok (state ++ endpoint.value),
    formatResource := fun endpoint state => Except.ok (state ++ endpoint.value),
    formatTag := fun endpoint state => Except.ok (state ++ endpoint.value),
    formatSymbol := fun endpoint state => Except.ok (state ++ endpoint.value),
    asInteger := fun endpoint => endpoint.value.toInt?.getD 0,
    isZero := fun endpoint => endpoint.value = "0",
    isInfinite := fun endpoint => endpoint.value = "+∞" ∨ endpoint.value = "-∞",
    isNegative := fun endpoint => endpoint.value.data.head? = some (Char.ofNat 45),
    isUndefined := fun endpoint => endpoint.value = "undefined",
    formatFloat := fun endpoint state => Except.ok (state ++ endpoint.value),
    quoteFromString := fun text => ⟨TokenQuote, text⟩ }

/-- The example scalars with the text of a quote taken between its quotation
marks: `AsString` of the quote read from the literal `"a"` is `a`. -/
def unquotedScalars : Scalars Token :=
  { literalScalars with asString := fun quote => (quote.value.drop 1).dropRight 1 }

/-- A token of the given literal category. -/
def literal (type : TokenType) (value : String) : Token := ⟨type, value⟩

/-! ## Conditions on the parameters of the range productions -/

/-- The condition that a numeric token reaches `parseReal`: each of the ten
literal productions that `parseEndpoint` tries before `parseReal` reports no match
on a numeric token and leaves the cursor in place. -/
def Scalars.numbersReachReal {Primitive : Type} (g : Scalars Primitive) : Prop :=
  ∀ v : Parser, (nextToken v).1.type = TokenNumber →
    g.parseAngle v = Outcome.noMatch (nextToken v).1 v ∧
    g.parseBinary v = Outcome.noMatch (nextToken v).1 v ∧
    g.parseBoolean v = Outcome.noMatch (nextToken v).1 v ∧
    g.parseDuration v = Outcome.noMatch (nextToken v).1 v ∧
    g.parseMoment v = Outcome.noMatch (nextToken v).1 v ∧
    g.parseMoniker v = Outcome.noMatch (nextToken v).1 v ∧
    g.parsePattern v = Outcome.noMatch (nextToken v).1 v ∧
    g.parsePercentage v = Outcome.noMatch (nextToken v).1 v ∧
    g.parseProbability v = Outcome.noMatch (nextToken v).1 v ∧
    g.parseQuote v = Outcome.noMatch (nextToken v).1 v

/-- The condition that the values of type `ran.Real` implement `abs.Continuous`:
every value that the conversions of `parseReal` produce does. -/
def Scalars.realsAreContinuous {Primitive : Type} (g : Scalars Primitive) : Prop :=
  g.isContinuous g.undefined = true ∧
    (∀ negative, g.isContinuous (g.infinity negative) = true) ∧
    (∀ text, g.isContinuous (g.stringToFloat text) = true) ∧
    (∀ text x, g.parseFloat text = some x → g.isContinuous x = true)

/-- The conditions on the predicates and conversions of real values under which the
special texts are read back: the value of `mat.NaN` is undefined, neither zero
nor infinite; the values of `mat.Inf` are infinite, not zero, and negative as
asked; `stc.ParseFloat` reads `0` as a zero; and `scanReal` matches each of the
four special texts as a whole. -/
def realClasses {Primitive : Type} (r : Renderers Primitive) (g : Scalars Primitive) : Prop :=
  (r.isUndefined g.undefined = true ∧ r.isZero g.undefined = false ∧
      r.isInfinite g.undefined = false) ∧
    (∀ negative, r.isInfinite (g.infinity negative) = true ∧
      r.isZero (g.infinity negative) = false ∧
      r.isNegative (g.infinity negative) = negative) ∧
    (∃ zero, g.parseFloat "0" = some zero ∧ r.isZero zero = true) ∧
    (∀ text, text ∈ ["0", "+∞", "-∞", "undefined"] → (g.scanReal text).head? = some text)

/-! ## Lists, objects and addresses -/

namespace list

variable {T : Type}

/-- Modelled from the spec: the method `AddItem` of the list of
`collections/list.go`, which is not among the sources: the item is appended at
the end of the ordered sequence. -/
def AddItem (items : List T) (item : T) : List T :=
  items ++ [item]

/-- Modelled from the spec: the method `GetItem` of the list, with the ORDINAL
(1-based) indexing of the sequences; an index outside `1..size` is a `panic`
(`none`). -/
def GetItem (items : List T) (index : Int) : Option T :=
  if 1 ≤ index then items.get? (index - 1).toNat else none

/-- Modelled from the spec: the method `GetIndex` of the list: the 1-based
position of the first occurrence of the item, 0 when the list does not hold
it. -/
def GetIndex [DecidableEq T] (items : List T) (item : T) : Int :=
  if item ∈ items then (items.indexOf item : Int) + 1 else 0

/-- Modelled from the spec: the method `InsertItem` of the list: the item is put
into the slot after the first `slot` items (slot 0 is before the first item);
a slot outside `0..size` is a `panic` (`none`). -/
def InsertItem (items : List T) (slot : Int) (item : T) : Option (List T) :=
  if 0 ≤ slot ∧ slot ≤ items.length then
    some (items.take slot.toNat ++ item :: items.drop slot.toNat)
  else
    none

/-- Modelled from the spec: the method `RemoveItem` of the list: the item at the
1-based index is taken out; an index outside `1..size` is a `panic`
(`none`). -/
def RemoveItem (items : List T) (index : Int) : Option (List T) :=
  if 1 ≤ index ∧ index ≤ items.length then
    some (items.eraseIdx (index - 1).toNat)
  else
    none

end list

/-- A method call that changes its receiver, for an object held by reference:
the object at the address is replaced by the state the method leaves; an
address that holds no object is a nil dereference (`none`). -/
def mutate {α : Type} (heap : List α) (address : Nat) (method : α → Option α) :
    Option (List α) :=
  match heap[address]? with
  | some object => (method object).map (fun changed => heap.set address changed)
  | none => none

/-- The read `m[key]` of a Go map whose values are addresses: the address entered
for the key, `none` when the map holds no entry for it. -/
def entryOf {K : Type} [DecidableEq K] : List (K × Nat) → K → Option Nat
  | [], _ => none
  | (k, address) :: rest, key => if key = k then some address else entryOf rest key

/-! ## Catalogs -/

/-- The type `association` of `collections/catalog.go`: a key and its value. -/
structure association (K V : Type) where
  key : K
  value : V
deriving DecidableEq, Repr

/-- The type `catalog` of `collections/catalog.go`.  The association objects are
held by reference in the source, by the list and by the map at once: `cells` are
the association objects the catalog has created, an address is a position in
`cells`, the field `associations` lists addresses in order and the map `keys`
gives the address of the association of a key. -/
structure catalog (K V : Type) where
  cells : List (association K V)
  associations : List Nat
  keys : List (K × Nat)
deriving DecidableEq, Repr

/-- The constructor `Catalog`: a new empty catalog. -/
def Catalog {K V : Type} : catalog K V :=
  { cells := [], associations := [], keys := [] }

namespace catalog

variable {K V : Type}

/-- The method `GetSize`, delegated to the list of associations. -/
def GetSize (v : catalog K V) : Int :=
  v.associations.length

/-- The method `AsArray`, delegated to the list of associations: the association
objects in order. -/
def AsArray (v : catalog K V) : List (association K V) :=
  v.associations.filterMap (fun address => v.cells[address]?)

/-- The method `GetKeys`: the keys of the associations in order. -/
def GetKeys (v : catalog K V) : List K :=
  v.AsArray.map association.key

variable [DecidableEq K] [Inhabited V]

/-- The method `GetValue`: the value of the association the map holds for the
key, the zero value when the map holds none. -/
def GetValue (v : catalog K V) (key : K) : V :=
  match entryOf v.keys key with
  | some address =>
    match v.cells[address]? with
    | some cell => cell.value
    | none => default
  | none => default

/-- The method `GetValues`: the values of the given keys, in the order of the
given keys. -/
def GetValues (v : catalog K V) (keys : List K) : List V :=
  keys.map v.GetValue

/-- The method `SetValue`: the association of a key the map holds gets the new
value in place and the old value is returned; for any other key a new
association is created, added to the end of the list and entered into the map,
and the zero value is returned. -/
def SetValue (v : catalog K V) (key : K) (value : V) : catalog K V × V :=
  match entryOf v.keys key with
  | some address =>
    match v.cells[address]? with
    | some cell =>
      ({ v with cells := v.cells.set address { cell with value := value } }, cell.value)
    | none => (v, default)
  | none =>
    ({ cells := v.cells ++ [⟨key, value⟩],
       associations := list.AddItem v.associations v.cells.length,
       keys := v.keys ++ [(key, v.cells.length)] }, default)

/-- The method `AddAssociation`: the key and the value of the association are
read and passed to `SetValue` (the association is copied). -/
def AddAssociation (v : catalog K V) (item : association K V) : catalog K V :=
  (v.SetValue item.key item.value).1

/-- The method `AddAssociations`: `AddAssociation` for each one in order. -/
def AddAssociations (v : catalog K V) (items : List (association K V)) : catalog K V :=
  items.foldl AddAssociation v

/-- The method `RemoveValue`: the association the map holds for the key is
removed from the list at its index and from the map, and its value is returned;
for any other key nothing changes and the zero value is returned. -/
def RemoveValue (v : catalog K V) (key : K) : Option (catalog K V × V) :=
  match entryOf v.keys key with
  | some address =>
    match list.RemoveItem v.associations (list.GetIndex v.associations address) with
    | some associations =>
      some ({ v with associations := associations,
                     keys := v.keys.filter (fun entry => entry.1 ≠ key) },
        match v.cells[address]? with
        | some cell => cell.value
        | none => default)
    | none => none
  | none => some (v, default)

/-- The method `RemoveValues`: `RemoveValue` for each key in order; the removed
values are returned in that order. -/
def RemoveValues (v : catalog K V) : List K → Option (catalog K V × List V)
  | [] => some (v, [])
  | key :: keys =>
    match v.RemoveValue key with
    | some (v1, value) =>
      match RemoveValues v1 keys with
      | some (v2, values) => some (v2, value :: values)
      | none => none
    | none => none

/-- The method `RemoveAll`: a new empty map, and the list is emptied. -/
def RemoveAll (v : catalog K V) : catalog K V :=
  { v with keys := [], associations := [] }

end catalog

namespace catalogs

variable {K V : Type} [DecidableEq K] [Inhabited V]

/-- The library function `Merge`, over the catalogs held by reference: a new
catalog is created, and the associations of the first and then of the second
catalog are added to it. -/
def Merge (heap : List (catalog K V)) (first second : Nat) :
    Option (List (catalog K V) × Nat) :=
  let result := heap.length
  let heap1 := heap ++ [Catalog]
  match heap1[first]? with
  | none => none
  | some a =>
    match mutate heap1 result (fun r => some (r.AddAssociations a.AsArray)) with
    | none => none
    | some heap2 =>
      match heap2[second]? with
      | none => none
      | some b =>
        match mutate heap2 result (fun r => some (r.AddAssociations b.AsArray)) with
        | none => none
        | some heap3 => some (heap3, result)

/-- The loop of `Extract`: for each key in order the value is read from the
catalog and set in the result. -/
def extractLoop (heap : List (catalog K V)) (source result : Nat) :
    List K → Option (List (catalog K V))
  | [] => some heap
  | key :: keys =>
    match heap[source]? with
    | none => none
    | some c =>
      match mutate heap result (fun r => some (r.SetValue key (c.GetValue key)).1) with
      | none => none
      | some heap1 => extractLoop heap1 source result keys

/-- The library function `Extract`, over the catalogs held by reference: a new
catalog is created, and for each given key the value the catalog gives for it is
set in the new catalog. -/
def Extract (heap : List (catalog K V)) (source : Nat) (keys : List K) :
    Option (List (catalog K V) × Nat) :=
  let result := heap.length
  match extractLoop (heap ++ [Catalog]) source result keys with
  | none => none
  | some heap1 => some (heap1, result)

end catalogs


namespace catalog

variable {K V : Type}

/-- The state the methods of a catalog keep: the list holds no association twice,
the map gives for a key an association of the list that has this key, and every
association of the list is the one the map gives for its key. -/
def WellFormed [DecidableEq K] (v : catalog K V) : Prop :=
  v.associations.Nodup ∧
    (∀ key address, entryOf v.keys key = some address →
      address ∈ v.associations ∧ ∃ value, v.cells[address]? = some ⟨key, value⟩) ∧
    (∀ address ∈ v.associations,
      ∃ cell, v.cells[address]? = some cell ∧ entryOf v.keys cell.key = some address)

end catalog

/-- The claim's reading of `SetValue` on the associations in order: the value of
the association with the key is replaced in place, and an association for a key
that is not there is added at the end. -/
def written {K V : Type} [DecidableEq K] (entries : List (association K V)) (key : K)
    (value : V) : List (association K V) :=
  if key ∈ entries.map association.key then
    entries.map (fun entry => if entry.key = key then ⟨key, value⟩ else entry)
  else
    entries ++ [⟨key, value⟩]

/-- The claim's reading of `GetValue` on the associations in order: the value of
the first association with the key, the zero value when there is none. -/
def valueOf {K V : Type} [DecidableEq K] [Inhabited V] (entries : List (association K V))
    (key : K) : V :=
  match entries.find? (fun entry => entry.key = key) with
  | some entry => entry.value
  | none => default


/-- The catalog the tests build: a new catalog to which the associations are added
in order. -/
def catalogOf {K V : Type} [DecidableEq K] [Inhabited V] (items : List (association K V)) :
    catalog K V :=
  (Catalog : catalog K V).AddAssociations items

/-! ## Sets -/

/-- The type `set` of `collections/set.go`: the list of the items and the ranking
function (`abstractions.RankingFunction`, which returns a Go `int`). -/
structure set (T : Type) where
  items : List T
  rank : T → T → Int

/-- The constructor `SetWithRanker`: a new empty set; without a ranking function
(`nil`) the natural ranking `agents.RankValues` is taken, which is not among the
sources and is a parameter. -/
def SetWithRanker {T : Type} (RankValues : T → T → Int) (rank : Option (T → T → Int)) :
    set T :=
  { items := [],
    rank :=
      match rank with
      | none => RankValues
      | some given => given }

/-- The constructor `Set`: a new empty set with the natural ranking. -/
def Set {T : Type} (RankValues : T → T → Int) : set T :=
  SetWithRanker RankValues none

namespace set

variable {T : Type}

/-- The method `GetSize`, delegated to the list of items. -/
def GetSize (v : set T) : Int :=
  v.items.length

/-- The method `GetItem`, delegated to the list of items. -/
def GetItem (v : set T) (index : Int) : Option T :=
  list.GetItem v.items index

/-- The method `AsArray`, delegated to the list of items. -/
def AsArray (v : set T) : List T :=
  v.items

/-- The loop of `search`, one iteration for each unit of the budget: the `switch`
has the cases -1, 0 and 1 only, so with any other value of the ranking function
the variables stay as they are and the loop goes on.  The result is `none` when
the budget ends with `size > 0`, and when `GetItem` fails. -/
def searchLoop (v : set T) (item : T) : Nat → Int → Int → Int → Option (Int × Bool)
  | 0, _, last, size => if 0 < size then none else some (last, false)
  | fuel + 1, first, last, size =>
    if 0 < size then
      let middle := first + size / 2
      match v.GetItem middle with
      | none => none
      | some candidate =>
        if v.rank item candidate = -1 then
          searchLoop v item fuel first (middle - 1) (middle - first)
        else if v.rank item candidate = 0 then
          some (middle, true)
        else if v.rank item candidate = 1 then
          searchLoop v item fuel (middle + 1) last (last - middle)
        else
          searchLoop v item fuel first last size
    else
      some (last, false)

/-- The method `search`: the binary search over the indices `1..size`.  The loop
gets as many iterations as the set has items: `size` decreases in every
iteration in which the ranking function returns -1 or 1, so that more are
never needed, and with any other value the loop of the source does not end. -/
def search (v : set T) (item : T) : Option (Int × Bool) :=
  v.searchLoop item v.items.length 1 v.GetSize v.GetSize

/-- The method `ContainsItem`. -/
def ContainsItem (v : set T) (item : T) : Option Bool :=
  match v.search item with
  | some (_, found) => some found
  | none => none

/-- The method `ContainsAny`: true at the first item the set contains. -/
def ContainsAny (v : set T) : List T → Option Bool
  | [] => some false
  | item :: items =>
    match v.ContainsItem item with
    | some true => some true
    | some false => ContainsAny v items
    | none => none

/-- The method `ContainsAll`: false at the first item the set does not contain. -/
def ContainsAll (v : set T) : List T → Option Bool
  | [] => some true
  | item :: items =>
    match v.ContainsItem item with
    | some true => ContainsAll v items
    | some false => some false
    | none => none

/-- The method `AddItem`: an item that is not found is inserted at the slot that
`search` returned. -/
def AddItem (v : set T) (item : T) : Option (set T) :=
  match v.search item with
  | some (slot, found) =>
    if !found then
      match list.InsertItem v.items slot item with
      | some items => some { v with items := items }
      | none => none
    else
      some v
  | none => none

/-- The method `AddItems`: `AddItem` for each item in order. -/
def AddItems (v : set T) : List T → Option (set T)
  | [] => some v
  | item :: items =>
    match v.AddItem item with
    | some v1 => AddItems v1 items
    | none => none

/-- The method `RemoveItem`: an item that is found is removed at the index that
`search` returned. -/
def RemoveItem (v : set T) (item : T) : Option (set T) :=
  match v.search item with
  | some (index, found) =>
    if found then
      match list.RemoveItem v.items index with
      | some items => some { v with items := items }
      | none => none
    else
      some v
  | none => none

/-- The method `RemoveItems`: `RemoveItem` for each item in order. -/
def RemoveItems (v : set T) : List T → Option (set T)
  | [] => some v
  | item :: items =>
    match v.RemoveItem item with
    | some v1 => RemoveItems v1 items
    | none => none

/-- The method `RemoveAll`. -/
def RemoveAll (v : set T) : set T :=
  { v with items := [] }

end set

namespace sets

variable {T : Type}

/-- The loop of `And` over the items of the first set: an item that the second set
contains is added to the result. -/
def andLoop (heap : List (set T)) (second result : Nat) : List T → Option (List (set T))
  | [] => some heap
  | item :: items =>
    match heap[second]? with
    | none => none
    | some b =>
      match b.ContainsItem item with
      | some true =>
        match mutate heap result (fun r => r.AddItem item) with
        | some heap1 => andLoop heap1 second result items
        | none => none
      | some false => andLoop heap second result items
      | none => none

/-- The library function `And`, over the sets held by reference: a new set with the
natural ranking is created, and the items of the first set that the second set
contains are added to it. -/
def And (RankValues : T → T → Int) (heap : List (set T)) (first second : Nat) :
    Option (List (set T) × Nat) :=
  let result := heap.length
  let heap1 := heap ++ [Set RankValues]
  match heap1[first]? with
  | none => none
  | some a =>
    match andLoop heap1 second result a.items with
    | some heap2 => some (heap2, result)
    | none => none

/-- The library function `Sans`, over the sets held by reference: a new set with
the natural ranking is created, the items of the first set are added to it and
the items of the second set are removed from it. -/
def Sans (RankValues : T → T → Int) (heap : List (set T)) (first second : Nat) :
    Option (List (set T) × Nat) :=
  let result := heap.length
  let heap1 := heap ++ [Set RankValues]
  match heap1[first]? with
  | none => none
  | some a =>
    match mutate heap1 result (fun r => r.AddItems a.AsArray) with
    | none => none
    | some heap2 =>
      match heap2[second]? with
      | none => none
      | some b =>
        match mutate heap2 result (fun r => r.RemoveItems b.AsArray) with
        | none => none
        | some heap3 => some (heap3, result)

/-- The library function `Or`, over the sets held by reference: a new set with the
natural ranking is created and the items of the first and then of the second set
are added to it. -/
def Or (RankValues : T → T → Int) (heap : List (set T)) (first second : Nat) :
    Option (List (set T) × Nat) :=
  let result := heap.length
  let heap1 := heap ++ [Set RankValues]
  match heap1[first]? with
  | none => none
  | some a =>
    match mutate heap1 result (fun r => r.AddItems a.AsArray) with
    | none => none
    | some heap2 =>
      match heap2[second]? with
      | none => none
      | some b =>
        match mutate heap2 result (fun r => r.AddItems b.AsArray) with
        | none => none
        | some heap3 => some (heap3, result)

/-- The library function `Xor`: `Or` of `Sans(first, second)` and
`Sans(second, first)`, evaluated in this order. -/
def Xor (RankValues : T → T → Int) (heap : List (set T)) (first second : Nat) :
    Option (List (set T) × Nat) :=
  match Sans RankValues heap first second with
  | none => none
  | some (heap1, left) =>
    match Sans RankValues heap1 second first with
    | none => none
    | some (heap2, right) => Or RankValues heap2 left right

end sets

/-- The ranking of the integers by their order, an example of a natural
ranking. -/
def rankIntegers (first second : Int) : Int :=
  if first < second then -1 else if first = second then 0 else 1

/-- The set of the given items under a ranking: a new set to which the items are
added in order (an empty set when an addition fails). -/
def setOf {T : Type} (rank : T → T → Int) (items : List T) : set T :=
  match (SetWithRanker rank (some rank)).AddItems items with
  | some v => v
  | none => SetWithRanker rank (some rank)


/-- The ranking functions of the claims: the values are -1, 0 and 1, the ranking of
two items in the other order is the opposite, and "does not rank above" is
transitive (a total order on the items up to ranking equal). -/
structure IsRanking {T : Type} (rank : T → T → Int) : Prop where
  values : ∀ x y, rank x y = -1 ∨ rank x y = 0 ∨ rank x y = 1
  flip : ∀ x y, rank x y = -1 ↔ rank y x = 1
  trans : ∀ x y z, rank x y ≠ 1 → rank y z ≠ 1 → rank x z ≠ 1

/-- A natural ranking: a ranking in which only equal items rank equal. -/
def IsNatural {T : Type} (rank : T → T → Int) : Prop :=
  IsRanking rank ∧ ∀ x y, rank x y = 0 → x = y

namespace set

variable {T : Type}

/-- The items are strictly increasing under the ranking function of the set. -/
def Sorted (v : set T) : Prop :=
  v.items.Pairwise (fun x y => v.rank x y = -1)

/-- Some item of the set ranks equal to the given item. -/
def Holds (v : set T) (item : T) : Prop :=
  ∃ candidate ∈ v.items, v.rank item candidate = 0

end set


/-- The calls that change a set. -/
inductive Change (T : Type) where
  | AddItem (item : T)
  | AddItems (items : List T)
  | RemoveItem (item : T)
  | RemoveItems (items : List T)
  | RemoveAll

namespace set

variable {T : Type}

/-- The set after one call. -/
def change (v : set T) : Change T → Option (set T)
  | Change.AddItem item => v.AddItem item
  | Change.AddItems items => v.AddItems items
  | Change.RemoveItem item => v.RemoveItem item
  | Change.RemoveItems items => v.RemoveItems items
  | Change.RemoveAll => some v.RemoveAll

/-- The set after a sequence of calls. -/
def changes (v : set T) : List (Change T) → Option (set T)
  | [] => some v
  | call :: calls =>
    match v.change call with
    | some v1 => changes v1 calls
    | none => none

end set

/-! ## Versions -/

namespace Versions

/-- Modelled from the spec: the library function `GetNextVersion` of
`strings/version.go`, which is not among the sources (the tests of the package
are), on a version as its "ordered sequence of positive ordinals": "version `v1`
advanced at ordinal-position 2 yields `v1.1`; advancing `v1.2.3` at position 4
yields `v1.2.3.1`".  Advancing at a position of the version keeps the ordinals
before it and increments the ordinal at the position, which becomes the last;
advancing at a position after the last ordinal appends the ordinal 1.  Positions
count from 1; nothing is said of position 0 (`none`). -/
def GetNextVersion (current : List Nat) (level : Nat) : Option (List Nat) :=
  if level = 0 then
    none
  else
    match current[level - 1]? with
    | some ordinal => some (current.take (level - 1) ++ [ordinal + 1])
    | none => some (current ++ [1])

/-- Modelled from the spec: the library function `IsValidNextVersion` of
`strings/version.go`, which is not among the sources: the next version is the
current one advanced at one of the positions.  The ordinals are compared in
order: at the first position where they differ the ordinal of the next version
is one more and is its last, and if the current version ends before they differ
the next version has one more ordinal, 1. -/
def IsValidNextVersion : List Nat → List Nat → Bool
  | [], next => next == [1]
  | _ :: _, [] => false
  | c :: cs, n :: ns => if c = n then IsValidNextVersion cs ns else (n == c + 1 && ns.isEmpty)

end Versions

/-! ## Moments -/

/-- The value that a Go `int` of 64 bits holds after an arithmetic operation whose
result over the integers is `x`: the integer of the range `-2^63 .. 2^63 - 1` that
differs from `x` by a multiple of `2^64`. -/
def wrap (x : Int) : Int :=
  (x + 9223372036854775808) % 18446744073709551616 - 9223372036854775808

/-- The values of a Go `int` of 64 bits. -/
def isInt (x : Int) : Prop :=
  -9223372036854775808 ≤ x ∧ x ≤ 9223372036854775807

namespace moments

/-- The library function `Duration` of `v2/elements/moment.go` on the integers of
the two moments: `second.AsInteger() - first.AsInteger()`. -/
def Duration (first second : Int) : Int :=
  wrap (second - first)

/-- The library function `Earlier` on the integers of the moment and the
duration: `moment.AsInteger() - duration.AsInteger()`. -/
def Earlier (moment duration : Int) : Int :=
  wrap (moment - duration)

/-- The library function `Later` on the integers of the moment and the duration:
`moment.AsInteger() + duration.AsInteger()`. -/
def Later (moment duration : Int) : Int :=
  wrap (moment + duration)

end moments

namespace set

variable {T : Type}

/-- The states of the loop of `search` at the iterations it makes: the values of
`first`, `last`, `size` and `middle` at each evaluation of the loop body, in
order, along the branches of `searchLoop`. -/
def searchProbes (v : set T) (item : T) : Nat → Int → Int → Int → List (Int × Int × Int × Int)
  | 0, _, _, _ => []
  | fuel + 1, first, last, size =>
    if 0 < size then
      (first, last, size, first + size / 2) ::
        match v.GetItem (first + size / 2) with
        | none => []
        | some candidate =>
          if v.rank item candidate = -1 then
            searchProbes v item fuel first (first + size / 2 - 1) (first + size / 2 - first)
          else if v.rank item candidate = 0 then
            []
          else if v.rank item candidate = 1 then
            searchProbes v item fuel (first + size / 2 + 1) last (last - (first + size / 2))
          else
            searchProbes v item fuel first last size
    else
      []

end set

/-! ## The inversion expression as an object -/

/-- The type `inversionExpression` of `expressions/inversion.go`: the operator and
the expression.  `none` is the value of a field of the new struct `&inversionExpression{}`
that no setter has written (the zero operator, the nil expression). -/
structure inversionExpression (Component : Type) where
  operator : Option Operator
  expression : Option (Expression Component)

namespace inversionExpression

variable {Component : Type}

/-- The method `GetOperator`. -/
def GetOperator (v : inversionExpression Component) : Option Operator :=
  v.operator

/-- The method `SetOperator`: the state it leaves and the `panic` it raises, if
any.  The range test comes before the assignment. -/
def SetOperator (code : Operator → Int) (v : inversionExpression Component)
    (operator : Operator) : inversionExpression Component × Option String :=
  if code operator < code INVERSE ∨ code operator > code CONJUGATE then
    (v, some "The operator in an inversion expression must be a valid inversion operation.")
  else
    ({ v with operator := some operator }, none)

/-- The method `GetExpression`. -/
def GetExpression (v : inversionExpression Component) : Option (Expression Component) :=
  v.expression

/-- The method `SetExpression`: the state it leaves and the `panic` it raises, if
any.  The nil test comes before the assignment. -/
def SetExpression (v : inversionExpression Component)
    (expression : Option (Expression Component)) :
    inversionExpression Component × Option String :=
  match expression with
  | none => (v, some "The expression to be operated on cannot be nil.")
  | some e => ({ v with expression := some e }, none)

/-- The constructor `Inversion` on the object: a new struct, then `SetOperator` and
`SetExpression`; a `panic` of the first ends the constructor. -/
def Inversion (code : Operator → Int) (operator : Operator)
    (expression : Option (Expression Component)) :
    inversionExpression Component × Option String :=
  match SetOperator code ⟨none, none⟩ operator with
  | (v, some message) => (v, some message)
  | (v, none) => SetExpression v expression

end inversionExpression

/-- The method `GetExtent` of the three kinds of range. -/
def Range.GetExtent {Primitive : Type} : Range Primitive → Extent
  | Range.continuum _ extent _ => extent
  | Range.interval _ extent _ => extent
  | Range.spectrum _ extent _ => extent

/-! ## The calls that change a catalog -/

namespace catalog

variable {K V : Type}

/-- Modelled from the spec: the method `SortItemsWithRanker` of the list of
`collections/list.go`, which is not among the sources, on the list of
associations: the associations are rearranged into the order of the ranking
function (here by insertion). -/
def SortAssociationsWithRanker (v : catalog K V)
    (rank : association K V → association K V → Int) : catalog K V :=
  { v with
    associations :=
      v.associations.insertionSort
        (fun first second =>
          (match v.cells[first]?, v.cells[second]? with
            | some a, some b => decide (rank a b ≤ 0)
            | _, _ => true) = true) }

/-- The method `SortAssociations`: the order of the canonical ranking function,
which is not among the sources and is a parameter. -/
def SortAssociations (RankValues : association K V → association K V → Int)
    (v : catalog K V) : catalog K V :=
  v.SortAssociationsWithRanker RankValues

/-- The method `ReverseAssociations`, with the method `ReverseItems` of the list
modelled from the spec: the order of the associations is reversed. -/
def ReverseAssociations (v : catalog K V) : catalog K V :=
  { v with associations := v.associations.reverse }

end catalog

/-- The calls that change a catalog. -/
inductive Update (K V : Type) where
  | SetValue (key : K) (value : V)
  | AddAssociation (item : association K V)
  | AddAssociations (items : List (association K V))
  | RemoveValue (key : K)
  | RemoveValues (keys : List K)
  | RemoveAll
  | SortAssociations
  | SortAssociationsWithRanker (rank : association K V → association K V → Int)
  | ReverseAssociations

/-- The calls that leave the order of the associations that stay as it is. -/
def Update.keepsOrder {K V : Type} : Update K V → Bool
  | Update.SortAssociations => false
  | Update.SortAssociationsWithRanker _ => false
  | Update.ReverseAssociations => false
  | _ => true

namespace catalog

variable {K V : Type} [DecidableEq K] [Inhabited V]

/-- The catalog after one call. -/
def update (RankValues : association K V → association K V → Int) (v : catalog K V) :
    Update K V → Option (catalog K V)
  | Update.SetValue key value => some (v.SetValue key value).1
  | Update.AddAssociation item => some (v.AddAssociation item)
  | Update.AddAssociations items => some (v.AddAssociations items)
  | Update.RemoveValue key =>
    match v.RemoveValue key with
    | some (after, _) => some after
    | none => none
  | Update.RemoveValues keys =>
    match v.RemoveValues keys with
    | some (after, _) => some after
    | none => none
  | Update.RemoveAll => some v.RemoveAll
  | Update.SortAssociations => some (v.SortAssociations RankValues)
  | Update.SortAssociationsWithRanker rank => some (v.SortAssociationsWithRanker rank)
  | Update.ReverseAssociations => some v.ReverseAssociations

/-- The catalog after a sequence of calls. -/
def updates (RankValues : association K V → association K V → Int) (v : catalog K V) :
    List (Update K V) → Option (catalog K V)
  | [] => some v
  | call :: calls =>
    match v.update RankValues call with
    | some v1 => updates RankValues v1 calls
    | none => none

/-- The key index and the sequence of associations agree: the state the methods
keep, the index holds no key twice, and it holds as many keys as the sequence
has associations. -/
def Agrees (v : catalog K V) : Prop :=
  v.WellFormed ∧ (v.keys.map Prod.fst).Nodup ∧ v.keys.length = v.associations.length

/-- The state a sequence of calls keeps: the index and the sequence agree, and
while no call has rearranged the sequence (`ordered`), the sequence is the
associations of the index in the order in which the index got them. -/
def Kept (v : catalog K V) (ordered : Bool) : Prop :=
  v.Agrees ∧ (ordered = true → v.associations = v.keys.map Prod.snd)

end catalog

/-- The ranking of two associations with keys and values that are integers, by
their keys. -/
def rankByKey (first second : association Int Int) : Int :=
  rankIntegers first.key second.key

/-- The literal grammars after the angle grammar without the rune grammar, in the
order binary, boolean, duration, moment, moniker, pattern, percentage,
probability, quote, real, resource, symbol, tag, version. -/
def grammarsWithoutRune {Primitive : Type} (g : Scalars Primitive) :
    List (Parser → Outcome Primitive) :=
  [g.parseBinary, g.parseBoolean, g.parseDuration, g.parseMoment, g.parseMoniker,
    g.parsePattern, g.parsePercentage, g.parseProbability, g.parseQuote, parseReal g,
    g.parseResource, g.parseSymbol, g.parseTag, g.parseVersion]

/-- The text of a quote with one character, with its quotation marks. -/
def quotedLetter : String := String.mk [Char.ofNat 34, Char.ofNat 97, Char.ofNat 34]

/-- The example renderers for a boolean type without the methods of `Discrete`:
a boolean implements none of the interfaces of the type switch. -/
def strictRenderers : Renderers Token :=
  { literalRenderers with
    isRuneLike := fun endpoint =>
      endpoint.type = TokenPercentage ∨ endpoint.type = TokenDuration ∨
        endpoint.type = TokenMoment }

/-! ## The categories of the operators, as the specification words them -/

/-- The productions that test the category of the operator they read. -/
inductive Production where
  | Invocation | Chaining | Exponential | Arithmetic | Comparison | Logical | Inversion
deriving DecidableEq, Repr

/-- The reading of the "operator-to-category table": the delimiter texts of the
operators of the category of a production: arithmetic `+ - * / //`, comparison
`< = > ≠ IS MATCHES`, logical `AND OR SANS XOR NOT`, invocation `.` and `<-`,
inversion (unary) `- / *`, exponential `^`, chaining `&`. -/
def categoryTexts : Production → List String
  | Production.Arithmetic => ["+", "-", "*", "/", "//"]
  | Production.Comparison => ["<", "=", ">", "≠", "IS", "MATCHES"]
  | Production.Logical => ["AND", "OR", "SANS", "XOR", "NOT"]
  | Production.Invocation => [".", "<-"]
  | Production.Inversion => ["-", "/", "*"]
  | Production.Exponential => ["^"]
  | Production.Chaining => ["&"]

/-! ## The test of the rune production on the bytes of a text -/

/-- Modelled from the spec: `utf8.DecodeRuneInString` of the Go library on the
bytes of a text, valid or not: the code point of the first encoding and the
number of its bytes, `(RuneError, 0)` on the empty text and `(RuneError, 1)` when
the text does not start with a valid encoding.  The first byte gives the size
and the range of the second byte; the later bytes lie in `0x80..0xBF`. -/
def decodeRune (bytes : List Nat) : Nat × Nat :=
  match bytes with
  | [] => (0xFFFD, 0)
  | b0 :: rest =>
    if b0 < 0x80 then (b0, 1)
    else if b0 < 0xC2 ∨ 0xF4 < b0 then (0xFFFD, 1)
    else
      let size := if b0 < 0xE0 then 2 else if b0 < 0xF0 then 3 else 4
      let low := if b0 = 0xE0 then 0xA0 else if b0 = 0xF0 then 0x90 else 0x80
      let high := if b0 = 0xED then 0x9F else if b0 = 0xF4 then 0x8F else 0xBF
      let b1 := rest.getD 0 0
      let b2 := rest.getD 1 0
      let b3 := rest.getD 2 0
      if rest.length + 1 < size then (0xFFFD, 1)
      else if b1 < low ∨ high < b1 then (0xFFFD, 1)
      else if size = 2 then ((b0 % 32) * 64 + b1 % 64, 2)
      else if b2 < 0x80 ∨ 0xBF < b2 then (0xFFFD, 1)
      else if size = 3 then ((b0 % 16) * 4096 + (b1 % 64) * 64 + b2 % 64, 3)
      else if b3 < 0x80 ∨ 0xBF < b3 then (0xFFFD, 1)
      else ((b0 % 8) * 262144 + (b1 % 64) * 4096 + (b2 % 64) * 64 + b3 % 64, 4)

/-- The test `len(s) != size` of `parseRune` on the bytes of the text of a quote:
`none` for the branch `This is not a rune`, the code point otherwise. -/
def runeOfText (bytes : List Nat) : Option Nat :=
  let (r, size) := decodeRune bytes
  if bytes.length ≠ size then none else some r

/-- The text of the quote with nothing between its quotation marks. -/
def emptyQuote : String := String.mk [Char.ofNat 34, Char.ofNat 34]

/-! ## Properties of the productions -/

/-- Pushing back the token just delivered restores the parser state. -/
theorem backupOne_nextToken (v : Parser) : backupOne (nextToken v).2 = v := by
  cases v
  simp [backupOne, nextToken]

section Theorems

variable {Component : Type}

/-- A chain whose last alternative never reports `ok = false` never does. -/
theorem orElse_not_isNoMatch {α : Type} (o : Outcome α) (next : Parser → Outcome α)
    (h : ∀ v, (next v).isNoMatch = false) : (o.orElse next).isNoMatch = false := by
  cases o with
  | ok value token v => rfl
  | noMatch token v => simpa [Outcome.orElse] using h v
  | fatal d => rfl
  | outOfFuel => rfl

/-- When the next alternative never reports `ok = false`, the alternatives after
it are never tried. -/
theorem orElse_absorb {α : Type} (o : Outcome α) (later : Parser → Outcome α)
    (h : o.isNoMatch = false) : o.orElse later = o := by
  cases o with
  | ok value token v => rfl
  | noMatch token v => simp [Outcome.isNoMatch] at h
  | fatal d => rfl
  | outOfFuel => rfl

/-- The left recursive production reports `ok = false` only when its leading
call of `parseExpression` does. -/
theorem parseRecursive_not_isNoMatch (c : Collaborators Component)
    (rec : Parser → Outcome (Expression Component)) (fuel : Nat)
    (h : ∀ v, (rec v).isNoMatch = false) (v : Parser) :
    (parseRecursive c rec fuel v).isNoMatch = false := by
  unfold parseRecursive
  have hv := h v
  cases hr : rec v with
  | ok expression token v1 =>
    simp only [Outcome.andThen]
    split <;> simp [Outcome.isNoMatch]
  | noMatch token v1 => simp [hr, Outcome.isNoMatch] at hv
  | fatal d => rfl
  | outOfFuel => rfl

/-- When the recursive calls never report `ok = false`, the alternatives after
the left recursive production are never tried. -/
theorem parseExpressionBody_eq (c : Collaborators Component)
    (rec : Parser → Outcome (Expression Component)) (fuel : Nat)
    (h : ∀ v, (rec v).isNoMatch = false) (v : Parser) :
    parseExpressionBody c rec fuel v = primaryOrRecursive c rec fuel v := by
  have hY : (primaryOrRecursive c rec fuel v).isNoMatch = false :=
    orElse_not_isNoMatch _ _ (parseRecursive_not_isNoMatch c rec fuel h)
  show (((primaryOrRecursive c rec fuel v).orElse _).orElse _).orElse _ = _
  rw [orElse_absorb _ _ hY, orElse_absorb _ _ hY, orElse_absorb _ _ hY]

/-- The expression production never reports `ok = false`: every call returns an
expression, raises a diagnostic, or has not returned within the budget. -/
theorem parseExpression_not_isNoMatch (c : Collaborators Component) (fuel : Nat) (v : Parser) :
    (parseExpression c fuel v).isNoMatch = false := by
  induction fuel generalizing v with
  | zero => rfl
  | succ fuel ih =>
    show (parseExpressionBody c (parseExpression c fuel) fuel v).isNoMatch = false
    rw [parseExpressionBody_eq c _ fuel ih v]
    exact orElse_not_isNoMatch _ _ (parseRecursive_not_isNoMatch c _ fuel ih)

/-- A chain succeeds through its first part or, after its `ok = false`, through
the next alternative. -/
theorem orElse_eq_ok {α : Type} (o : Outcome α) (next : Parser → Outcome α) (value : α)
    (token : Token) (v : Parser) (h : o.orElse next = Outcome.ok value token v) :
    o = Outcome.ok value token v ∨ ∃ t0 v0, o = Outcome.noMatch t0 v0 ∧ next v0 = Outcome.ok value token v := by
  cases o with
  | ok value0 token0 v0 => exact Or.inl h
  | noMatch token0 v0 => exact Or.inr ⟨token0, v0, rfl, h⟩
  | fatal d => simp [Outcome.orElse] at h
  | outOfFuel => simp [Outcome.orElse] at h

/-- A node built by a constructor of an extension production is an extension
node. -/
theorem required_ok_isExtension (first : Option (Expression Component)) (token : Token) (v : Parser)
    (build : Expression Component → Expression Component)
    (hb : ∀ e, (build e).isExtension = true)
    (e : Expression Component) (t : Token) (w : Parser)
    (h : required first token v build = Outcome.ok e t w) : e.isExtension = true := by
  cases first with
  | none => simp [required] at h
  | some f =>
    simp [required] at h
    rw [← h.1]
    exact hb f

/-- The node of a successful intrinsic production is neither unary nor an
extension node. -/
theorem parseIntrinsic_ok_isUnary (rec : Parser → Outcome (Expression Component)) (fuel : Nat)
    (v : Parser) (e : Expression Component) (t : Token) (w : Parser)
    (h : parseIntrinsic rec fuel v = Outcome.ok e t w) : e.isUnary = false ∧ e.isExtension = false := by
  unfold parseIntrinsic at h
  simp only [Outcome.andThen] at h
  repeat' split at h
  all_goals first
    | (simp only [Outcome.ok.injEq] at h; obtain ⟨rfl, -, -⟩ := h; exact ⟨rfl, rfl⟩)
    | simp at h

/-- The node of a successful variable production is neither unary nor an
extension node. -/
theorem parseVariable_ok_isUnary (v : Parser) (e : Expression Component) (t : Token) (w : Parser)
    (h : parseVariable v = Outcome.ok e t w) : e.isUnary = false ∧ e.isExtension = false := by
  unfold parseVariable at h
  simp only at h
  repeat' split at h
  all_goals first
    | (simp only [Outcome.ok.injEq] at h; obtain ⟨rfl, -, -⟩ := h; exact ⟨rfl, rfl⟩)
    | simp at h

/-- The node of a successful precedence production is neither unary nor an
extension node. -/
theorem parsePrecedence_ok_isUnary (rec : Parser → Outcome (Expression Component))
    (v : Parser) (e : Expression Component) (t : Token) (w : Parser)
    (h : parsePrecedence rec v = Outcome.ok e t w) : e.isUnary = false ∧ e.isExtension = false := by
  unfold parsePrecedence at h
  simp only [Outcome.andThen] at h
  repeat' split at h
  all_goals first
    | (simp only [Outcome.ok.injEq] at h; obtain ⟨rfl, -, -⟩ := h; exact ⟨rfl, rfl⟩)
    | simp at h

/-- The node of a successful dereference production is neither unary nor an
extension node. -/
theorem parseDereference_ok_isUnary (rec : Parser → Outcome (Expression Component))
    (v : Parser) (e : Expression Component) (t : Token) (w : Parser)
    (h : parseDereference rec v = Outcome.ok e t w) : e.isUnary = false ∧ e.isExtension = false := by
  unfold parseDereference at h
  simp only [Outcome.andThen] at h
  repeat' split at h
  all_goals first
    | (simp only [Outcome.ok.injEq] at h; obtain ⟨rfl, -, -⟩ := h; exact ⟨rfl, rfl⟩)
    | simp at h

/-- The node of a successful invocation production is an extension node. -/
theorem parseInvocation_ok_isExtension (c : Collaborators Component)
    (rec : Parser → Outcome (Expression Component)) (fuel : Nat)
    (target : Option (Expression Component)) (v : Parser)
    (e : Expression Component) (t : Token) (w : Parser)
    (h : parseInvocation c rec fuel target v = Outcome.ok e t w) : e.isExtension = true := by
  unfold parseInvocation at h
  simp only [Outcome.andThen] at h
  repeat' split at h
  all_goals first
    | (refine required_ok_isExtension _ _ _ _ ?_ _ _ _ h; intro _; rfl)
    | simp at h

/-- The node of a successful item production is an extension node. -/
theorem parseItem_ok_isExtension (c : Collaborators Component)
    (rec : Parser → Outcome (Expression Component))
    (composite : Option (Expression Component)) (v : Parser)
    (e : Expression Component) (t : Token) (w : Parser)
    (h : parseItem c rec composite v = Outcome.ok e t w) : e.isExtension = true := by
  unfold parseItem at h
  simp only [Outcome.andThen] at h
  repeat' split at h
  all_goals first
    | (refine required_ok_isExtension _ _ _ _ ?_ _ _ _ h; intro _; rfl)
    | simp at h

/-- The node of a successful chaining production is an extension node. -/
theorem parseChaining_ok_isExtension
    (rec : Parser → Outcome (Expression Component))
    (first : Option (Expression Component)) (v : Parser)
    (e : Expression Component) (t : Token) (w : Parser)
    (h : parseChaining rec first v = Outcome.ok e t w) : e.isExtension = true := by
  unfold parseChaining at h
  simp only [Outcome.andThen] at h
  repeat' split at h
  all_goals first
    | (refine required_ok_isExtension _ _ _ _ ?_ _ _ _ h; intro _; rfl)
    | simp at h

/-- The node of a successful exponential production is an extension node. -/
theorem parseExponential_ok_isExtension
    (rec : Parser → Outcome (Expression Component))
    (base : Option (Expression Component)) (v : Parser)
    (e : Expression Component) (t : Token) (w : Parser)
    (h : parseExponential rec base v = Outcome.ok e t w) : e.isExtension = true := by
  unfold parseExponential at h
  simp only [Outcome.andThen] at h
  repeat' split at h
  all_goals first
    | (refine required_ok_isExtension _ _ _ _ ?_ _ _ _ h; intro _; rfl)
    | simp at h

/-- The node of a successful arithmetic production is an extension node. -/
theorem parseArithmetic_ok_isExtension (c : Collaborators Component)
    (rec : Parser → Outcome (Expression Component))
    (first : Option (Expression Component)) (v : Parser)
    (e : Expression Component) (t : Token) (w : Parser)
    (h : parseArithmetic c rec first v = Outcome.ok e t w) : e.isExtension = true := by
  unfold parseArithmetic at h
  simp only [Outcome.andThen] at h
  repeat' split at h
  all_goals first
    | (refine required_ok_isExtension _ _ _ _ ?_ _ _ _ h; intro _; rfl)
    | simp at h

/-- The node of a successful comparison production is an extension node. -/
theorem parseComparison_ok_isExtension (c : Collaborators Component)
    (rec : Parser → Outcome (Expression Component))
    (first : Option (Expression Component)) (v : Parser)
    (e : Expression Component) (t : Token) (w : Parser)
    (h : parseComparison c rec first v = Outcome.ok e t w) : e.isExtension = true := by
  unfold parseComparison at h
  simp only [Outcome.andThen] at h
  repeat' split at h
  all_goals first
    | (refine required_ok_isExtension _ _ _ _ ?_ _ _ _ h; intro _; rfl)
    | simp at h

/-- The node of a successful logical production is an extension node. -/
theorem parseLogical_ok_isExtension (c : Collaborators Component)
    (rec : Parser → Outcome (Expression Component))
    (first : Option (Expression Component)) (v : Parser)
    (e : Expression Component) (t : Token) (w : Parser)
    (h : parseLogical c rec first v = Outcome.ok e t w) : e.isExtension = true := by
  unfold parseLogical at h
  simp only [Outcome.andThen] at h
  repeat' split at h
  all_goals first
    | (refine required_ok_isExtension _ _ _ _ ?_ _ _ _ h; intro _; rfl)
    | simp at h

/-- A successful left recursive production returns a node of an extension
production, and it has first parsed an expression at the entry position. -/
theorem parseRecursive_ok (c : Collaborators Component)
    (rec : Parser → Outcome (Expression Component)) (fuel : Nat) (v : Parser)
    (e : Expression Component) (t : Token) (w : Parser)
    (h : parseRecursive c rec fuel v = Outcome.ok e t w) :
    e.isExtension = true ∧ ∃ e0 t0 v0, rec v = Outcome.ok e0 t0 v0 := by
  unfold parseRecursive at h
  cases hr : rec v with
  | ok e0 t0 v0 =>
    refine ⟨?_, e0, t0, v0, rfl⟩
    rw [hr] at h
    simp only [Outcome.andThen] at h
    split at h
    · rename_i value token v2 heq
      simp only [Outcome.ok.injEq] at h
      obtain ⟨rfl, -, -⟩ := h
      rcases orElse_eq_ok _ _ _ _ _ heq with h7 | ⟨_, _, -, h7⟩
      · rcases orElse_eq_ok _ _ _ _ _ h7 with h6 | ⟨_, _, -, h6⟩
        · rcases orElse_eq_ok _ _ _ _ _ h6 with h5 | ⟨_, _, -, h5⟩
          · rcases orElse_eq_ok _ _ _ _ _ h5 with h4 | ⟨_, _, -, h4⟩
            · rcases orElse_eq_ok _ _ _ _ _ h4 with h3 | ⟨_, _, -, h3⟩
              · rcases orElse_eq_ok _ _ _ _ _ h3 with h2 | ⟨_, _, -, h2⟩
                · exact parseInvocation_ok_isExtension _ _ _ _ _ _ _ _ h2
                · exact parseItem_ok_isExtension _ _ _ _ _ _ _ h2
              · exact parseChaining_ok_isExtension _ _ _ _ _ _ h3
            · exact parseExponential_ok_isExtension _ _ _ _ _ _ h4
          · exact parseArithmetic_ok_isExtension _ _ _ _ _ _ _ h5
        · exact parseComparison_ok_isExtension _ _ _ _ _ _ _ h6
      · exact parseLogical_ok_isExtension _ _ _ _ _ _ _ h7
    all_goals simp at h
  | noMatch t0 v0 => rw [hr] at h; simp [Outcome.andThen] at h
  | fatal d => rw [hr] at h; simp [Outcome.andThen] at h
  | outOfFuel => rw [hr] at h; simp [Outcome.andThen] at h

/-- An extension node is no unary node. -/
theorem isExtension_not_isUnary (e : Expression Component) (h : e.isExtension = true) :
    e.isUnary = false := by
  cases e <;> simp_all [Expression.isExtension, Expression.isUnary]

/-- C33 (the code departs from the claim): at a position where the component
production reports no match in place and the next token is neither an identifier
nor a delimiter (a keyword, the end of the input), every alternative up to the
left recursive one reports no match in place and the left recursive production
calls `parseExpression` again at the same position: no budget suffices for the
call to return. -/
theorem parseExpression_unbounded_recursion (c : Collaborators Component) (fuel : Nat)
    (v : Parser) (token0 : Token)
    (hcomponent : c.parseComponent v = Outcome.noMatch token0 v)
    (hidentifier : (nextToken v).1.type ≠ TokenIdentifier)
    (hdelimiter : (nextToken v).1.type ≠ TokenDelimiter) :
    parseExpression c fuel v = Outcome.outOfFuel := by
  induction fuel with
  | zero => rfl
  | succ fuel ih =>
    simp [parseExpression, parseExpressionBody, hcomponent, Outcome.map, Outcome.orElse,
      parseIntrinsic, parseIdentifier, hidentifier, Outcome.andThen, backupOne_nextToken,
      parseVariable, parsePrecedence, parseDelimiter, hdelimiter, parseDereference,
      parseOperator, parseRecursive, ih]

end Theorems

section Claims

variable {Component : Type}

/-- C3 (the code departs from the claim): when one of the primary alternatives
(component, intrinsic, variable, precedence, dereference) succeeds,
`parseExpression` returns its result at once, with the cursor where the primary
production left it; no extension production is applied to the parsed
expression. -/
theorem parseExpression_primary_unextended (c : Collaborators Component) (fuel : Nat)
    (v : Parser) (e : Expression Component) (token : Token) (v1 : Parser)
    (h : parsePrimary c (parseExpression c fuel) fuel v = Outcome.ok e token v1) :
    parseExpression c (fuel + 1) v = Outcome.ok e token v1 := by
  show ((((parsePrimary c (parseExpression c fuel) fuel v).orElse _).orElse _).orElse _).orElse _
    = _
  rw [h]
  rfl

/-- On the tokens of `1 + 2` the result is the component `1` with the cursor
before `+`, not an arithmetic node; on the tokens of `( 1 ) + 2` it is the
precedence node with the cursor before `+`. -/
theorem parseExpression_primary_unextended_witness :
    parseExpression literalCollaborators (2 + 1) (startOf [number "1", delimiter "+", number "2"])
        = Outcome.ok (Expression.component (number "1")) (number "1")
            ⟨[number "1", delimiter "+", number "2"], 1⟩ ∧
      parseExpression literalCollaborators (2 + 1)
          (startOf [delimiter "(", number "1", delimiter ")", delimiter "+", number "2"])
        = Outcome.ok (Expression.precedence (Expression.component (number "1"))) (delimiter ")")
            ⟨[delimiter "(", number "1", delimiter ")", delimiter "+", number "2"], 3⟩ :=
  ⟨parseExpression_primary_unextended literalCollaborators 2 _ _ _ _ rfl,
    parseExpression_primary_unextended literalCollaborators 2 _ _ _ _ rfl⟩

/-- C4 (the code departs from the claim): when the component production reports no
match and the next token is an identifier that is not followed by the delimiter
`(`, `parseExpression` raises the diagnostic of the intrinsic production; the
variable production is not reached. -/
theorem parseExpression_bare_identifier_fatal (c : Collaborators Component) (fuel : Nat)
    (v : Parser) (token0 : Token) (name : String) (next : Token)
    (hcomponent : c.parseComponent v = Outcome.noMatch token0 v)
    (hidentifier : (nextToken v).1 = ⟨TokenIdentifier, name⟩)
    (hnext : (nextToken (nextToken v).2).1 = next)
    (hopen : next ≠ ⟨TokenDelimiter, "("⟩) :
    parseExpression c (fuel + 1) v =
      Outcome.fatal (unexpected next ["$expression", "$intrinsic", "$function", "$arguments"]) := by
  have h1 : parseIdentifier v = Outcome.ok name ⟨TokenIdentifier, name⟩ (nextToken v).2 := by
    simp [parseIdentifier, hidentifier]
  have h2 : next.type ≠ TokenDelimiter ∨ next.value ≠ "(" := by
    by_contra hcon
    push_neg at hcon
    apply hopen
    cases next
    simp_all
  have h3 : parseDelimiter "(" (nextToken v).2 = Outcome.noMatch next (nextToken v).2 := by
    simp only [parseDelimiter, hnext, backupOne_nextToken]
    rw [if_pos h2]
  simp [parseExpression, parseExpressionBody, hcomponent, Outcome.map, Outcome.orElse,
    parseIntrinsic, h1, Outcome.andThen, parseArguments, h3]

/-- On the tokens of a bare `x` the result is the diagnostic, not the variable. -/
theorem parseExpression_bare_identifier_fatal_witness :
    parseExpression literalCollaborators (1 + 1) (startOf [identifier "x"]) =
      Outcome.fatal
        (unexpected endOfInput ["$expression", "$intrinsic", "$function", "$arguments"]) :=
  parseExpression_bare_identifier_fatal literalCollaborators 1 (startOf [identifier "x"])
    (identifier "x") "x" endOfInput rfl rfl rfl (by decide)

/-- C5 (the code departs from the claim): whatever `parseExpression` returns is the
node of a primary production or of an extension production; no call returns an
inversion, magnitude or complement node, whatever the collaborators, the budget
and the token stream are. -/
theorem parseExpression_never_unary (c : Collaborators Component) (fuel : Nat) (v : Parser)
    (e : Expression Component) (t : Token) (w : Parser)
    (h : parseExpression c fuel v = Outcome.ok e t w) : e.isUnary = false := by
  cases fuel with
  | zero => simp [parseExpression] at h
  | succ fuel =>
    have h1 : parseExpressionBody c (parseExpression c fuel) fuel v = Outcome.ok e t w := h
    rw [parseExpressionBody_eq c _ fuel (parseExpression_not_isNoMatch c fuel) v] at h1
    unfold primaryOrRecursive parsePrimary at h1
    rcases orElse_eq_ok _ _ _ _ _ h1 with h6 | ⟨_, _, -, h6⟩
    · rcases orElse_eq_ok _ _ _ _ _ h6 with h5 | ⟨_, _, -, h5⟩
      · rcases orElse_eq_ok _ _ _ _ _ h5 with h4 | ⟨_, _, -, h4⟩
        · rcases orElse_eq_ok _ _ _ _ _ h4 with h3 | ⟨_, _, -, h3⟩
          · rcases orElse_eq_ok _ _ _ _ _ h3 with h2 | ⟨_, _, -, h2⟩
            · cases hc : c.parseComponent v <;> rw [hc] at h2 <;> simp [Outcome.map] at h2
              rw [← h2.1]; rfl
            · exact (parseIntrinsic_ok_isUnary _ _ _ _ _ _ h2).1
          · exact (parseVariable_ok_isUnary _ _ _ _ h3).1
        · exact (parsePrecedence_ok_isUnary _ _ _ _ _ h4).1
      · exact (parseDereference_ok_isUnary _ _ _ _ _ h5).1
    · exact isExtension_not_isUnary _ (parseRecursive_ok _ _ _ _ _ _ _ h6).1

/-- On the tokens of `@ 1` a dereference node is returned, which is no unary
node; on the tokens of `- 1` the result is a diagnostic, on those of `| 1 |`
too. -/
theorem parseExpression_never_unary_witness :
    (parseExpression literalCollaborators 2 (startOf [delimiter "@", number "1"])
        = Outcome.ok (Expression.dereference (Expression.component (number "1"))) (number "1")
            ⟨[delimiter "@", number "1"], 2⟩ ∧
      (Expression.dereference (Expression.component (number "1"))).isUnary = false) ∧
    parseExpression literalCollaborators 3 (startOf [delimiter "-", number "1"])
      = Outcome.fatal (unexpected endOfInput
          ["operator", "$invocation", "$item", "$chaining", "$exponential", "$arithmetic",
            "$comparison", "$logical"]) ∧
    parseExpression literalCollaborators 3
        (startOf [delimiter "|", number "1", delimiter "|"])
      = Outcome.fatal (unexpected (delimiter "|")
          ["operator", "$invocation", "$item", "$chaining", "$exponential", "$arithmetic",
            "$comparison", "$logical"]) :=
  ⟨⟨rfl, parseExpression_never_unary literalCollaborators 2
    (startOf [delimiter "@", number "1"]) _ _ _ rfl⟩, rfl, rfl⟩

/-- C6 (the code departs from the claim): on a delimiter token whose text is not in
the operator table, `parseOperator` raises a diagnostic. -/
theorem parseOperator_fatal_on_other_delimiter (v : Parser) (text : String)
    (hnext : (nextToken v).1 = ⟨TokenDelimiter, text⟩) (hoperator : operatorOf text = none) :
    parseOperator v =
      Outcome.fatal ⟨"An unexpected operator token was received by the parser:",
        some ⟨TokenDelimiter, text⟩, ["operator", "$expression"]⟩ := by
  simp [parseOperator, hnext, hoperator]

/-- On the closing delimiter of the tokens of `f ( )` the probe raises the
diagnostic, and so it does on the delimiters `,`, `]` and `:`. -/
theorem parseOperator_fatal_on_other_delimiter_witness :
    parseOperator ⟨[identifier "f", delimiter "(", delimiter ")"], 2⟩ =
        Outcome.fatal ⟨"An unexpected operator token was received by the parser:",
          some ⟨TokenDelimiter, ")"⟩, ["operator", "$expression"]⟩ ∧
      parseOperator (startOf [delimiter ","]) =
        Outcome.fatal ⟨"An unexpected operator token was received by the parser:",
          some ⟨TokenDelimiter, ","⟩, ["operator", "$expression"]⟩ ∧
      parseOperator (startOf [delimiter "]"]) =
        Outcome.fatal ⟨"An unexpected operator token was received by the parser:",
          some ⟨TokenDelimiter, "]"⟩, ["operator", "$expression"]⟩ ∧
      parseOperator (startOf [delimiter ":"]) =
        Outcome.fatal ⟨"An unexpected operator token was received by the parser:",
          some ⟨TokenDelimiter, ":"⟩, ["operator", "$expression"]⟩ :=
  ⟨parseOperator_fatal_on_other_delimiter ⟨[identifier "f", delimiter "(", delimiter ")"], 2⟩ ")"
      rfl (by decide),
    parseOperator_fatal_on_other_delimiter (startOf [delimiter ","]) "," rfl (by decide),
    parseOperator_fatal_on_other_delimiter (startOf [delimiter "]"]) "]" rfl (by decide),
    parseOperator_fatal_on_other_delimiter (startOf [delimiter ":"]) ":" rfl (by decide)⟩

/-- The probe consumes a delimiter of the operator table and returns its
operator. -/
theorem parseOperator_of_operator (v : Parser) (text : String) (operator : Operator)
    (hnext : (nextToken v).1 = ⟨TokenDelimiter, text⟩) (hoperator : operatorOf text = some operator) :
    parseOperator v = Outcome.ok operator ⟨TokenDelimiter, text⟩ (nextToken v).2 := by
  simp [parseOperator, hnext, hoperator]

/-- When the next token is an operator of the table that fails the test written
in a production, the production reports `ok = false`, raises no diagnostic, and
leaves the parser in the state it had on entry. -/
theorem failed_test_pushes_back (c : Collaborators Component)
    (rec : Parser → Outcome (Expression Component)) (fuel : Nat)
    (first : Option (Expression Component)) (v : Parser) (text : String) (operator : Operator)
    (hnext : (nextToken v).1 = ⟨TokenDelimiter, text⟩)
    (hoperator : operatorOf text = some operator) :
    ((c.code operator < c.code DOT ∨ c.code operator > c.code ARROW) →
        parseInvocation c rec fuel first v = Outcome.noMatch ⟨TokenDelimiter, text⟩ v) ∧
      (operator ≠ AMPERSAND →
        parseChaining rec first v = Outcome.noMatch ⟨TokenDelimiter, text⟩ v) ∧
      (operator ≠ CARET →
        parseExponential rec first v = Outcome.noMatch ⟨TokenDelimiter, text⟩ v) ∧
      ((c.code operator < c.code PLUS ∨ c.code operator > c.code MODULO) →
        parseArithmetic c rec first v = Outcome.noMatch ⟨TokenDelimiter, text⟩ v) ∧
      ((c.code operator < c.code LESS ∨ c.code operator > c.code MATCHES) →
        parseComparison c rec first v = Outcome.noMatch ⟨TokenDelimiter, text⟩ v) ∧
      ((c.code operator < c.code NOT ∨ c.code operator > c.code XOR) →
        parseLogical c rec first v = Outcome.noMatch ⟨TokenDelimiter, text⟩ v) ∧
      ((c.code operator < c.code PLUS ∨ c.code operator > c.code STAR) →
        parseInversion c rec v = Outcome.noMatch ⟨TokenDelimiter, text⟩ v) := by
  have hop := parseOperator_of_operator v text operator hnext hoperator
  refine ⟨?_, ?_, ?_, ?_, ?_, ?_, ?_⟩ <;> intro h
  · simp [parseInvocation, hop, Outcome.andThen, h, backupOne_nextToken]
  · simp [parseChaining, hop, Outcome.andThen, h, backupOne_nextToken]
  · simp [parseExponential, hop, Outcome.andThen, h, backupOne_nextToken]
  · simp [parseArithmetic, hop, Outcome.andThen, h, backupOne_nextToken]
  · simp [parseComparison, hop, Outcome.andThen, h, backupOne_nextToken]
  · simp [parseLogical, hop, Outcome.andThen, h, backupOne_nextToken]
  · simp [parseInversion, hop, Outcome.andThen, h, backupOne_nextToken]

/-- C7 (the code departs from the claim): the test of `parseInversion` is the
range `PLUS..STAR`, not the category of the inversion operators `-`, `/`, `*`.
The delimiter `+` is an operator of the table outside this category.  When the
range holds an operator at all it holds `PLUS`: then `parseInversion` keeps the
`+` consumed and goes on to parse an expression, and whatever that gives it
does not report `ok = false`.  When the range is empty every operator is pushed
back, the three inversion operators too. -/
theorem parseInversion_consumes_plus (c : Collaborators Component)
    (rec : Parser → Outcome (Expression Component)) (v : Parser)
    (hnext : (nextToken v).1 = ⟨TokenDelimiter, "+"⟩) :
    operatorOf "+" = some PLUS ∧ "+" ∉ categoryTexts Production.Inversion ∧
      (c.code PLUS ≤ c.code STAR →
        parseInversion c rec v
            = (rec (nextToken v).2).andThen
                (fun numeric token v2 =>
                  match Inversion c.code PLUS (some numeric) with
                  | Except.ok expression => Outcome.ok expression token v2
                  | Except.error message => Outcome.fatal ⟨message, none, []⟩)
                (fun token _ =>
                  Outcome.fatal (unexpected token ["$expression", "$inversion"])) ∧
          ∀ token w, parseInversion c rec v ≠ Outcome.noMatch token w) ∧
      (c.code STAR < c.code PLUS →
        ∀ (u : Parser) (text : String) (operator : Operator),
          (nextToken u).1 = ⟨TokenDelimiter, text⟩ → operatorOf text = some operator →
          parseInversion c rec u = Outcome.noMatch ⟨TokenDelimiter, text⟩ u) := by
  have hop := parseOperator_of_operator v "+" PLUS hnext rfl
  refine ⟨rfl, by decide, ?_, ?_⟩
  · intro hrange
    have htest : ¬ (c.code PLUS < c.code PLUS ∨ c.code PLUS > c.code STAR) := by omega
    have heq : parseInversion c rec v
        = (rec (nextToken v).2).andThen
            (fun numeric token v2 =>
              match Inversion c.code PLUS (some numeric) with
              | Except.ok expression => Outcome.ok expression token v2
              | Except.error message => Outcome.fatal ⟨message, none, []⟩)
            (fun token _ =>
              Outcome.fatal (unexpected token ["$expression", "$inversion"])) := by
      simp only [parseInversion, hop, Outcome.andThen, htest, if_false]
    refine ⟨heq, ?_⟩
    intro token w h
    rw [heq] at h
    cases hrec : rec (nextToken v).2 with
    | ok numeric t w1 =>
      rw [hrec] at h
      simp only [Outcome.andThen] at h
      split at h <;> cases h
    | noMatch t w1 =>
      rw [hrec] at h
      cases h
    | fatal d =>
      rw [hrec] at h
      cases h
    | outOfFuel =>
      rw [hrec] at h
      cases h
  · intro hrange u text operator hu hoperator
    have hop2 := parseOperator_of_operator u text operator hu hoperator
    have htest : c.code operator < c.code PLUS ∨ c.code operator > c.code STAR := by omega
    simp [parseInversion, hop2, Outcome.andThen, htest, backupOne_nextToken]

/-- On the tokens of `+ 1`, with the constants numbered category by category,
`parseInversion` reads the `+`, parses `1` and ends in the `panic` of the
constructor `Inversion`; it does not report `ok = false`. -/
theorem parseInversion_consumes_plus_witness :
    (nextToken (startOf [delimiter "+", number "1"])).1 = ⟨TokenDelimiter, "+"⟩ ∧
      literalCollaborators.code PLUS ≤ literalCollaborators.code STAR ∧
      parseInversion literalCollaborators (parseExpression literalCollaborators 2)
          (startOf [delimiter "+", number "1"])
        = Outcome.fatal
            ⟨"The operator in an inversion expression must be a valid inversion operation.",
              none, []⟩ ∧
      ∀ token w,
        parseInversion literalCollaborators (parseExpression literalCollaborators 2)
            (startOf [delimiter "+", number "1"])
          ≠ Outcome.noMatch token w :=
  ⟨rfl, by decide, rfl,
    ((parseInversion_consumes_plus literalCollaborators
      (parseExpression literalCollaborators 2) (startOf [delimiter "+", number "1"])
      rfl).2.2.1 (by decide)).2⟩

/-- C8 (the code departs from the claim): when the next token is an operator of the
table other than `@`, `parseDereference` reports `ok = false` with the cursor one
token past the position it had on entry; the operator token is not pushed
back. -/
theorem parseDereference_consumes_other_operator
    (rec : Parser → Outcome (Expression Component)) (v : Parser) (text : String)
    (operator : Operator) (hnext : (nextToken v).1 = ⟨TokenDelimiter, text⟩)
    (hoperator : operatorOf text = some operator) (hat : operator ≠ AT) :
    parseDereference rec v
        = Outcome.noMatch ⟨TokenDelimiter, text⟩ ⟨v.tokens, v.position + 1⟩ ∧
      (⟨v.tokens, v.position + 1⟩ : Parser) ≠ v := by
  have hop := parseOperator_of_operator v text operator hnext hoperator
  constructor
  · cases operator <;> simp_all [parseDereference, Outcome.andThen, nextToken]
  · cases v
    simp

/-- On the tokens of `- 1` the production reports no match and leaves the cursor
behind the `-`. -/
theorem parseDereference_consumes_other_operator_witness :
    parseDereference (parseExpression literalCollaborators 2) (startOf [delimiter "-", number "1"])
        = Outcome.noMatch (delimiter "-") ⟨[delimiter "-", number "1"], 0 + 1⟩ ∧
      (⟨[delimiter "-", number "1"], 0 + 1⟩ : Parser) ≠ startOf [delimiter "-", number "1"] :=
  parseDereference_consumes_other_operator (parseExpression literalCollaborators 2)
    (startOf [delimiter "-", number "1"]) "-" MINUS rfl (by decide) (by decide)

/-- C9: once a committed production has consumed its leading token, or a binary or
inversion production has accepted an operator that passes its range test, the
production never reports `ok = false`: it returns its node or ends in a
diagnostic (or, in the model, in an exhausted budget of a nested call). -/
theorem committed_production_never_no_match (c : Collaborators Component)
    (rec : Parser → Outcome (Expression Component)) (fuel : Nat)
    (first : Option (Expression Component)) (v : Parser) :
    (∀ x token v1, parseDelimiter "(" v = Outcome.ok x token v1 →
        (parsePrecedence rec v).isNoMatch = false) ∧
      (∀ x token v1, parseDelimiter "|" v = Outcome.ok x token v1 →
        (parseMagnitude rec v).isNoMatch = false) ∧
      (∀ x token v1, parseKeyword "NOT" v = Outcome.ok x token v1 →
        (parseComplement rec v).isNoMatch = false) ∧
      (∀ token v1, parseOperator v = Outcome.ok AT token v1 →
        (parseDereference rec v).isNoMatch = false) ∧
      (∀ x token v1, parseDelimiter "[" v = Outcome.ok x token v1 →
        (parseItem c rec first v).isNoMatch = false) ∧
      (∀ operator token v1, parseOperator v = Outcome.ok operator token v1 →
        ¬ (c.code operator < c.code DOT ∨ c.code operator > c.code ARROW) →
        (parseInvocation c rec fuel first v).isNoMatch = false) ∧
      (∀ token v1, parseOperator v = Outcome.ok AMPERSAND token v1 →
        (parseChaining rec first v).isNoMatch = false) ∧
      (∀ token v1, parseOperator v = Outcome.ok CARET token v1 →
        (parseExponential rec first v).isNoMatch = false) ∧
      (∀ operator token v1, parseOperator v = Outcome.ok operator token v1 →
        ¬ (c.code operator < c.code PLUS ∨ c.code operator > c.code MODULO) →
        (parseArithmetic c rec first v).isNoMatch = false) ∧
      (∀ operator token v1, parseOperator v = Outcome.ok operator token v1 →
        ¬ (c.code operator < c.code LESS ∨ c.code operator > c.code MATCHES) →
        (parseComparison c rec first v).isNoMatch = false) ∧
      (∀ operator token v1, parseOperator v = Outcome.ok operator token v1 →
        ¬ (c.code operator < c.code NOT ∨ c.code operator > c.code XOR) →
        (parseLogical c rec first v).isNoMatch = false) ∧
      (∀ operator token v1, parseOperator v = Outcome.ok operator token v1 →
        ¬ (c.code operator < c.code PLUS ∨ c.code operator > c.code STAR) →
        (parseInversion c rec v).isNoMatch = false) := by
  refine ⟨?_, ?_, ?_, ?_, ?_, ?_, ?_, ?_, ?_, ?_, ?_, ?_⟩
  · intro x token v1 h
    simp only [parsePrecedence, h, Outcome.andThen]
    repeat' split
    all_goals rfl
  · intro x token v1 h
    simp only [parseMagnitude, h, Outcome.andThen]
    repeat' split
    all_goals rfl
  · intro x token v1 h
    simp only [parseComplement, h, Outcome.andThen]
    repeat' split
    all_goals rfl
  · intro token v1 h
    simp only [parseDereference, h, Outcome.andThen]
    repeat' split
    all_goals rfl
  · intro x token v1 h
    simp only [parseItem, h, Outcome.andThen, required]
    repeat' split
    all_goals rfl
  · intro operator token v1 h hrange
    simp only [parseInvocation, h, Outcome.andThen, required, if_neg hrange]
    repeat' split
    all_goals rfl
  · intro token v1 h
    simp only [parseChaining, h, Outcome.andThen, required]
    repeat' split
    all_goals first | rfl | simp_all
  · intro token v1 h
    simp only [parseExponential, h, Outcome.andThen, required]
    repeat' split
    all_goals first | rfl | simp_all
  · intro operator token v1 h hrange
    simp only [parseArithmetic, h, Outcome.andThen, required, if_neg hrange]
    repeat' split
    all_goals rfl
  · intro operator token v1 h hrange
    simp only [parseComparison, h, Outcome.andThen, required, if_neg hrange]
    repeat' split
    all_goals rfl
  · intro operator token v1 h hrange
    simp only [parseLogical, h, Outcome.andThen, required, if_neg hrange]
    repeat' split
    all_goals rfl
  · intro operator token v1 h hrange
    simp only [parseInversion, h, Outcome.andThen, if_neg hrange]
    repeat' split
    all_goals rfl

/-- On the tokens of `( 1` the precedence production ends in a diagnostic after
its bracket, and on the tokens of `+ x` the arithmetic production does after its
operator. -/
theorem committed_production_never_no_match_witness :
    (parsePrecedence (parseExpression literalCollaborators 2)
          (startOf [delimiter "(", number "1"])
        = Outcome.fatal (unexpected endOfInput ["$expression", "$precedence"]) ∧
      (parsePrecedence (parseExpression literalCollaborators 2)
          (startOf [delimiter "(", number "1"])).isNoMatch = false) ∧
    (parseArithmetic literalCollaborators (parseExpression literalCollaborators 2) none
          (startOf [delimiter "+", identifier "x"])
        = Outcome.fatal
            (unexpected endOfInput ["$expression", "$intrinsic", "$function", "$arguments"]) ∧
      (parseArithmetic literalCollaborators (parseExpression literalCollaborators 2) none
          (startOf [delimiter "+", identifier "x"])).isNoMatch = false) :=
  ⟨⟨rfl, (committed_production_never_no_match literalCollaborators
      (parseExpression literalCollaborators 2) 2 none
      (startOf [delimiter "(", number "1"])).1 "(" (delimiter "(") _ rfl⟩,
    ⟨rfl, (committed_production_never_no_match literalCollaborators
      (parseExpression literalCollaborators 2) 2 none
      (startOf [delimiter "+", identifier "x"])).2.2.2.2.2.2.2.2.1 PLUS (delimiter "+") _ rfl
      (by decide)⟩⟩

/-- C10 (the code departs from the claim): the text `AND` is not in the table of
`parseOperator`, a delimiter token `AND` makes it raise a diagnostic, and no
operator is rendered as `AND` by `formatOperator`. -/
theorem parseOperator_rejects_AND :
    operatorOf "AND" = none ∧
      parseOperator ⟨[number "1", delimiter "AND", number "2"], 1⟩
        = Outcome.fatal ⟨"An unexpected operator token was received by the parser:",
            some (delimiter "AND"), ["operator", "$expression"]⟩ ∧
      ∀ operator : Operator, operatorText operator ≠ some "AND" := by
  refine ⟨by decide, rfl, ?_⟩
  intro operator
  cases operator <;> decide

end Claims

section RoundTrip

variable {Primitive : Type}

/-- C1 (the code departs from the claim): when a left bracket is followed by a token
on which the endpoint production reports no match, leaving the cursor in place,
`parseRange` pushes the bracket back and reports `ok = false`, whatever follows:
a range without a first endpoint, such as `[..]`, is not parsed, so there is no
tree to format back to the text. -/
theorem parseRange_requires_first_endpoint (g : Scalars Primitive) (v : Parser)
    (bracket : String) (token : Token)
    (hbracket : (nextToken v).1 = ⟨TokenDelimiter, bracket⟩)
    (hleft : bracket = "[" ∨ bracket = "(")
    (hendpoint : parseEndpoint g (nextToken v).2 = Outcome.noMatch token (nextToken v).2) :
    parseRange g v = Outcome.noMatch token v := by
  rcases hleft with rfl | rfl
  · have h1 : parseDelimiter "[" v = Outcome.ok "[" ⟨TokenDelimiter, "["⟩ (nextToken v).2 := by
      simp [parseDelimiter, hbracket]
    simp [parseRange, h1, Outcome.orElse, Outcome.andThen, hendpoint, backupOne_nextToken]
  · have h1 : parseDelimiter "[" v = Outcome.noMatch ⟨TokenDelimiter, "("⟩ v := by
      simp [parseDelimiter, hbracket, backupOne_nextToken]
    have h2 : parseDelimiter "(" v = Outcome.ok "(" ⟨TokenDelimiter, "("⟩ (nextToken v).2 := by
      simp [parseDelimiter, hbracket]
    simp [parseRange, h1, h2, Outcome.orElse, Outcome.andThen, hendpoint, backupOne_nextToken]

/-- On the tokens of `[..]` the range production reports no match and leaves the
cursor at the bracket. -/
theorem parseRange_requires_first_endpoint_witness :
    parseRange literalScalars (startOf [delimiter "[", delimiter "..", delimiter "]"])
      = Outcome.noMatch (delimiter "..")
          (startOf [delimiter "[", delimiter "..", delimiter "]"]) :=
  parseRange_requires_first_endpoint literalScalars
    (startOf [delimiter "[", delimiter "..", delimiter "]"]) "[" (delimiter "..") rfl
    (Or.inl rfl) rfl

/-- C2 (the code departs from the claim): the arithmetic tree over the literals `1`
and `2` is formatted as `1+2`; on every token stream that begins with the
literal `1`, in particular on the tokens `1`, `+`, `2` of that text,
`parseExpression` returns the component `1` alone, which is not the tree. -/
theorem reformat_arithmetic_not_identity :
    formatExpression literalFormatters
        (Expression.arithmetic (Expression.component (number "1")) PLUS
          (Expression.component (number "2"))) ""
        = Except.ok "1+2" ∧
      (∀ (fuel : Nat) (rest : List Token),
        parseExpression literalCollaborators (fuel + 1) (startOf (number "1" :: rest))
          = Outcome.ok (Expression.component (number "1")) (number "1")
              ⟨number "1" :: rest, 1⟩) ∧
      parseExpression literalCollaborators 1 (startOf [number "1", delimiter "+", number "2"])
        ≠ Outcome.ok (Expression.arithmetic (Expression.component (number "1")) PLUS
            (Expression.component (number "2"))) (number "2")
            ⟨[number "1", delimiter "+", number "2"], 3⟩ := by
  refine ⟨rfl, ?_, ?_⟩
  · intro fuel rest
    simp [parseExpression, parseExpressionBody, literalCollaborators, parseLiteral, nextToken,
      startOf, number, isLiteral, Outcome.map, Outcome.orElse]
  · simp [parseExpression, parseExpressionBody, literalCollaborators, parseLiteral, nextToken,
      startOf, number, isLiteral, Outcome.map, Outcome.orElse]

end RoundTrip

section RangeClaims

variable {Primitive : Type}

/-- A successful delimiter probe returns the text it was asked for and has
consumed one token. -/
theorem parseDelimiter_ok (delimiter : String) (v : Parser) (x : String) (token : Token)
    (w : Parser) (h : parseDelimiter delimiter v = Outcome.ok x token w) :
    x = delimiter ∧ w = (nextToken v).2 := by
  unfold parseDelimiter at h
  simp only at h
  split at h
  · simp at h
  · rename_i hc
    simp only [Outcome.ok.injEq] at h
    push_neg at hc
    exact ⟨by rw [← h.1, hc.2], h.2.2.symm⟩

/-- The brackets probed at the start and at the end of a range are one of the two
texts of the probe. -/
theorem bracket_ok (open1 open2 : String) (v : Parser) (x : String) (token : Token)
    (w : Parser)
    (h : (parseDelimiter open1 v).orElse (parseDelimiter open2) = Outcome.ok x token w) :
    x = open1 ∨ x = open2 := by
  rcases orElse_eq_ok _ _ _ _ _ h with h1 | ⟨_, _, -, h2⟩
  · exact Or.inl (parseDelimiter_ok _ _ _ _ _ h1).1
  · exact Or.inr (parseDelimiter_ok _ _ _ _ _ h2).1

/-- C11 (the code departs from the claim): when the two endpoints of a range parse
to values of two different types that both implement `abs.Continuous`,
`parseRange` raises no diagnostic and returns the continuum built from the two
endpoints: the type check compares the type of the first endpoint with
itself. -/
theorem parseRange_accepts_mixed_types (g : Scalars Primitive) (v v1 v2 v3 v4 v5 : Parser)
    (left dots right : String) (t0 t1 t2 t3 t4 : Token) (first last : Primitive)
    (hleft : (parseDelimiter "[" v).orElse (parseDelimiter "(") = Outcome.ok left t0 v1)
    (hfirst : parseEndpoint g v1 = Outcome.ok first t1 v2)
    (hdots : parseDelimiter ".." v2 = Outcome.ok dots t2 v3)
    (hlast : parseEndpoint g v3 = Outcome.ok last t3 v4)
    (hright : (parseDelimiter "]" v4).orElse (parseDelimiter ")") = Outcome.ok right t4 v5)
    (hcontinuous : g.isContinuous first = true ∧ g.isContinuous last = true)
    (_hdifferent : g.typeOf first ≠ g.typeOf last) :
    ∃ extent, parseRange g v = Outcome.ok (Range.continuum first extent last) t4 v5 := by
  have hl := bracket_ok _ _ _ _ _ _ hleft
  have hr := bracket_ok _ _ _ _ _ _ hright
  simp only [parseRange, hleft, Outcome.andThen, hfirst, hdots, hlast, hright, buildRange,
    hcontinuous.1, hcontinuous.2]
  rcases hl with rfl | rfl <;> rcases hr with rfl | rfl
  · exact ⟨INCLUSIVE, by simp⟩
  · exact ⟨LEFT, by simp⟩
  · exact ⟨RIGHT, by simp⟩
  · exact ⟨EXCLUSIVE, by simp⟩

/-- On the tokens of `[1..50%]` the endpoints are a real and a percentage, two
different types, and the result is the inclusive continuum over them. -/
theorem parseRange_accepts_mixed_types_witness :
    literalScalars.typeOf (number "1") ≠ literalScalars.typeOf (literal TokenPercentage "50%") ∧
      ∃ extent, parseRange literalScalars
        (startOf [delimiter "[", number "1", delimiter "..", literal TokenPercentage "50%",
          delimiter "]"])
        = Outcome.ok (Range.continuum (number "1") extent (literal TokenPercentage "50%"))
            (delimiter "]")
            ⟨[delimiter "[", number "1", delimiter "..", literal TokenPercentage "50%",
              delimiter "]"], 5⟩ :=
  ⟨by decide,
    parseRange_accepts_mixed_types literalScalars
      (startOf [delimiter "[", number "1", delimiter "..", literal TokenPercentage "50%",
        delimiter "]"])
      ⟨_, 1⟩ ⟨_, 2⟩ ⟨_, 3⟩ ⟨_, 4⟩ ⟨_, 5⟩ "[" ".." "]" (delimiter "[") (number "1")
      (delimiter "..") (literal TokenPercentage "50%") (delimiter "]") (number "1")
      (literal TokenPercentage "50%") rfl rfl rfl rfl rfl ⟨rfl, rfl⟩ (by decide)⟩

/-- On a numeric token `parseReal` raises the index diagnostic or returns a
continuous value, with the token consumed. -/
theorem parseReal_number (g : Scalars Primitive) (hreal : g.realsAreContinuous) (v : Parser)
    (hnumber : (nextToken v).1.type = TokenNumber) :
    (∃ d, parseReal g v = Outcome.fatal d) ∨
      ∃ x, parseReal g v = Outcome.ok x (nextToken v).1 (nextToken v).2 ∧
        g.isContinuous x = true := by
  obtain ⟨h1, h2, h3, h4⟩ := hreal
  unfold parseReal
  simp only [hnumber, ne_eq, not_true_eq_false, if_false]
  cases hs : g.scanReal (nextToken v).1.value with
  | nil => exact Or.inl ⟨_, rfl⟩
  | cons match0 rest =>
    right
    simp only
    split_ifs
    · exact ⟨_, rfl, h1⟩
    · exact ⟨_, rfl, h2 _⟩
    · exact ⟨_, rfl, h2 _⟩
    · exact ⟨_, rfl, h3 _⟩
    · cases hp : g.parseFloat match0 with
      | none => exact ⟨_, rfl, h3 _⟩
      | some x => exact ⟨_, rfl, h4 _ _ hp⟩

/-- On a numeric token the endpoint production is decided by `parseReal`: the ten
productions before it report no match and the result of `parseReal`, which is no
`ok = false`, ends the chain. -/
theorem parseEndpoint_number (g : Scalars Primitive) (hnum : g.numbersReachReal)
    (hreal : g.realsAreContinuous) (v : Parser)
    (hnumber : (nextToken v).1.type = TokenNumber) :
    (∃ d, parseEndpoint g v = Outcome.fatal d) ∨
      ∃ x, parseEndpoint g v = Outcome.ok x (nextToken v).1 (nextToken v).2 ∧
        g.isContinuous x = true := by
  obtain ⟨a1, a2, a3, a4, a5, a6, a7, a8, a9, a10⟩ := hnum v hnumber
  have hchain : parseEndpoint g v =
      (((((parseReal g v).orElse g.parseResource).orElse (parseRune g)).orElse
        g.parseSymbol).orElse g.parseTag).orElse g.parseVersion := by
    simp only [parseEndpoint, a1, a2, a3, a4, a5, a6, a7, a8, a9, a10, Outcome.orElse]
  rcases parseReal_number g hreal v hnumber with ⟨d, hd⟩ | ⟨x, hx, hc⟩
  · exact Or.inl ⟨d, by rw [hchain, hd]; rfl⟩
  · exact Or.inr ⟨x, by rw [hchain, hx]; rfl, hc⟩

/-- C12 (the code departs from the claim): on the tokens of `[a..b]` with two
numeric literals, whatever `parseRange` returns is the inclusive continuum over
two reals; it never is an interval over integers.  The endpoint production has
no integer alternative: `parseReal` takes every numeric token. -/
theorem parseRange_numbers_give_continuum (g : Scalars Primitive)
    (hnum : g.numbersReachReal) (hreal : g.realsAreContinuous) (a b : String)
    (rest : List Token) (range : Range Primitive) (token : Token) (w : Parser)
    (h : parseRange g
        (startOf (delimiter "[" :: number a :: delimiter ".." :: number b :: delimiter "]" ::
          rest)) = Outcome.ok range token w) :
    ∃ x y, range = Range.continuum x INCLUSIVE y ∧ g.isContinuous x = true ∧
      g.isContinuous y = true := by
  have e1 := parseEndpoint_number g hnum hreal
    ⟨delimiter "[" :: number a :: delimiter ".." :: number b :: delimiter "]" :: rest, 1⟩ rfl
  have e2 := parseEndpoint_number g hnum hreal
    ⟨delimiter "[" :: number a :: delimiter ".." :: number b :: delimiter "]" :: rest, 3⟩ rfl
  have hopen : parseDelimiter "["
      (startOf (delimiter "[" :: number a :: delimiter ".." :: number b :: delimiter "]" ::
        rest)) = Outcome.ok "[" (delimiter "[")
        ⟨delimiter "[" :: number a :: delimiter ".." :: number b :: delimiter "]" :: rest,
          1⟩ := rfl
  have hdots : parseDelimiter ".."
      ⟨delimiter "[" :: number a :: delimiter ".." :: number b :: delimiter "]" :: rest, 2⟩
        = Outcome.ok ".." (delimiter "..")
        ⟨delimiter "[" :: number a :: delimiter ".." :: number b :: delimiter "]" :: rest,
          3⟩ := rfl
  have hclose : parseDelimiter "]"
      ⟨delimiter "[" :: number a :: delimiter ".." :: number b :: delimiter "]" :: rest, 4⟩
        = Outcome.ok "]" (delimiter "]")
        ⟨delimiter "[" :: number a :: delimiter ".." :: number b :: delimiter "]" :: rest,
          5⟩ := rfl
  rcases e1 with ⟨d, hd⟩ | ⟨x, hx, hcx⟩
  · simp [parseRange, hopen, Outcome.orElse, Outcome.andThen, hd] at h
  · have hx1 : parseEndpoint g
        ⟨delimiter "[" :: number a :: delimiter ".." :: number b :: delimiter "]" :: rest, 1⟩
          = Outcome.ok x (number a)
          ⟨delimiter "[" :: number a :: delimiter ".." :: number b :: delimiter "]" :: rest,
            2⟩ := hx
    rcases e2 with ⟨d, hd⟩ | ⟨y, hy, hcy⟩
    · simp [parseRange, hopen, Outcome.orElse, Outcome.andThen, hx1, hdots, hd] at h
    · have hy1 : parseEndpoint g
          ⟨delimiter "[" :: number a :: delimiter ".." :: number b :: delimiter "]" :: rest,
            3⟩ = Outcome.ok y (number b)
          ⟨delimiter "[" :: number a :: delimiter ".." :: number b :: delimiter "]" :: rest,
            4⟩ := hy
      simp [parseRange, hopen, Outcome.orElse, Outcome.andThen, hx1, hdots, hy1, hclose,
        buildRange, hcx, hcy] at h
      exact ⟨x, y, h.1.symm, hcx, hcy⟩

/-- The example scalars meet the two conditions. -/
theorem literalScalars_conditions :
    literalScalars.numbersReachReal ∧ literalScalars.realsAreContinuous := by
  constructor
  · intro v hv
    simp [literalScalars, parseLiteralOf, hv, backupOne_nextToken]
  · refine ⟨rfl, fun _ => rfl, fun _ => rfl, ?_⟩
    intro text x hx
    simp [literalScalars] at hx
    rw [← hx]
    rfl

/-- On the tokens of `[1..5]` the result is the inclusive continuum over the reals
`1` and `5`. -/
theorem parseRange_numbers_give_continuum_witness :
    parseRange literalScalars
        (startOf (delimiter "[" :: number "1" :: delimiter ".." :: number "5" ::
          delimiter "]" :: []))
        = Outcome.ok (Range.continuum (number "1") INCLUSIVE (number "5")) (delimiter "]")
            ⟨[delimiter "[", number "1", delimiter "..", number "5", delimiter "]"], 5⟩ ∧
      ∃ x y, Range.continuum (number "1") INCLUSIVE (number "5")
          = Range.continuum x INCLUSIVE y ∧
        literalScalars.isContinuous x = true ∧ literalScalars.isContinuous y = true :=
  ⟨rfl, parseRange_numbers_give_continuum literalScalars literalScalars_conditions.1
    literalScalars_conditions.2 "1" "5" [] _ _ _ rfl⟩

/-- C13 (the code departs from the claim): whenever `parseRange` returns a range,
the endpoint production has succeeded twice, after the left bracket and after
`..`: no range is returned with an endpoint omitted. -/
theorem parseRange_ok_has_both_endpoints (g : Scalars Primitive) (v : Parser)
    (range : Range Primitive) (token : Token) (w : Parser)
    (h : parseRange g v = Outcome.ok range token w) :
    ∃ left t0 v1 first t1 v2 dots t2 v3 last t3 v4,
      (parseDelimiter "[" v).orElse (parseDelimiter "(") = Outcome.ok left t0 v1 ∧
      parseEndpoint g v1 = Outcome.ok first t1 v2 ∧
      parseDelimiter ".." v2 = Outcome.ok dots t2 v3 ∧
      parseEndpoint g v3 = Outcome.ok last t3 v4 := by
  unfold parseRange at h
  simp only [Outcome.andThen] at h
  split at h
  · rename_i left t0 v1 hleft
    split at h
    · rename_i first t1 v2 hfirst
      split at h
      · rename_i dots t2 v3 hdots
        split at h
        · rename_i last t3 v4 hlast
          exact ⟨left, t0, v1, first, t1, v2, dots, t2, v3, last, t3, v4, hleft, hfirst, hdots,
            hlast⟩
        all_goals simp at h
      all_goals simp at h
    all_goals simp at h
  all_goals simp at h

/-- On the tokens of `[1..5]` a range is returned and both endpoints were parsed;
on those of `[1..]` the result is the diagnostic for the right endpoint; on those
of `[..5]` and of `(..)` the production reports no match. -/
theorem parseRange_ok_has_both_endpoints_witness :
    (parseRange literalScalars
          (startOf [delimiter "[", number "1", delimiter "..", number "5", delimiter "]"])
        = Outcome.ok (Range.continuum (number "1") INCLUSIVE (number "5")) (delimiter "]")
            ⟨[delimiter "[", number "1", delimiter "..", number "5", delimiter "]"], 5⟩ ∧
      ∃ left t0 v1 first t1 v2 dots t2 v3 last t3 v4,
        (parseDelimiter "["
            (startOf [delimiter "[", number "1", delimiter "..", number "5",
              delimiter "]"])).orElse (parseDelimiter "(") = Outcome.ok left t0 v1 ∧
        parseEndpoint literalScalars v1 = Outcome.ok first t1 v2 ∧
        parseDelimiter ".." v2 = Outcome.ok dots t2 v3 ∧
        parseEndpoint literalScalars v3 = Outcome.ok last t3 v4) ∧
    parseRange literalScalars (startOf [delimiter "[", number "1", delimiter "..", delimiter "]"])
      = Outcome.fatal (rangeError (delimiter "]") ["right endpoint", "$range", "$primitive"]) ∧
    parseRange literalScalars (startOf [delimiter "[", delimiter "..", number "5", delimiter "]"])
      = Outcome.noMatch (delimiter "..")
          (startOf [delimiter "[", delimiter "..", number "5", delimiter "]"]) ∧
    parseRange literalScalars (startOf [delimiter "(", delimiter "..", delimiter ")"])
      = Outcome.noMatch (delimiter "..")
          (startOf [delimiter "(", delimiter "..", delimiter ")"]) :=
  ⟨⟨rfl, parseRange_ok_has_both_endpoints literalScalars
    (startOf [delimiter "[", number "1", delimiter "..", number "5", delimiter "]"]) _ _ _ rfl⟩,
    rfl, rfl, rfl⟩

end RangeClaims

section FormatClaims

variable {Primitive : Type}

/-- C14 (the claim as amended): when the endpoint formatter renders the first endpoint
as the text `a` and the last endpoint as the text `b`, `formatInterval`,
`formatSpectrum` and `formatContinuum` render the range as the left bracket of
its extent, `a`, `..`, `b` and the right bracket of its extent: `[a..b]` for
`INCLUSIVE`, `(a..b]` for `RIGHT`, `[a..b)` for `LEFT` and `(a..b)` for
`EXCLUSIVE`. -/
theorem formatInterval_brackets (r : Renderers Primitive) (first last : Primitive)
    (a b : String) (state : String)
    (hfirst : ∀ text, formatEndpoint r first text = Except.ok (text ++ a))
    (hlast : ∀ text, formatEndpoint r last text = Except.ok (text ++ b)) :
    (formatInterval r first INCLUSIVE last state
        = Except.ok (state ++ "[" ++ a ++ ".." ++ b ++ "]") ∧
      formatInterval r first RIGHT last state
        = Except.ok (state ++ "(" ++ a ++ ".." ++ b ++ "]") ∧
      formatInterval r first LEFT last state
        = Except.ok (state ++ "[" ++ a ++ ".." ++ b ++ ")") ∧
      formatInterval r first EXCLUSIVE last state
        = Except.ok (state ++ "(" ++ a ++ ".." ++ b ++ ")")) ∧
    (∀ extent, formatSpectrum r first extent last state
        = formatInterval r first extent last state) ∧
    (∀ extent, formatContinuum r first extent last state
        = formatInterval r first extent last state) := by
  refine ⟨⟨?_, ?_, ?_, ?_⟩, fun _ => rfl, fun _ => rfl⟩ <;>
    simp [formatInterval, brackets, hfirst, hlast]

/-- The interval of the durations `~P1W` and `~P5W` is rendered with brackets for
each extent. -/
theorem formatInterval_brackets_witness :
    formatInterval literalRenderers (literal TokenDuration "~P1W") INCLUSIVE
        (literal TokenDuration "~P5W") "" = Except.ok ("" ++ "[" ++ "~P1W" ++ ".." ++ "~P5W" ++ "]") ∧
      formatInterval literalRenderers (literal TokenDuration "~P1W") RIGHT
        (literal TokenDuration "~P5W") "" = Except.ok ("" ++ "(" ++ "~P1W" ++ ".." ++ "~P5W" ++ "]") ∧
      formatInterval literalRenderers (literal TokenDuration "~P1W") LEFT
        (literal TokenDuration "~P5W") "" = Except.ok ("" ++ "[" ++ "~P1W" ++ ".." ++ "~P5W" ++ ")") ∧
      formatInterval literalRenderers (literal TokenDuration "~P1W") EXCLUSIVE
        (literal TokenDuration "~P5W") "" = Except.ok ("" ++ "(" ++ "~P1W" ++ ".." ++ "~P5W" ++ ")") :=
  (formatInterval_brackets literalRenderers (literal TokenDuration "~P1W")
    (literal TokenDuration "~P5W") "~P1W" "~P5W" "" (fun _ => rfl) (fun _ => rfl)).1

/-- C14 (the claim as stated fails): the interval of the durations `~P1W` and `~P5W`
is rendered as `[~P1W..~P5W]`, `(~P1W..~P5W]`, `[~P1W..~P5W)` and `(~P1W..~P5W)`
for the four extents, and none of these is one of the texts `~P1W..~P5W`,
`~P1W..<~P5W`, `~P1W<..~P5W`, `~P1W<..<~P5W`. -/
theorem formatInterval_not_arrow_forms :
    (formatInterval literalRenderers (literal TokenDuration "~P1W") INCLUSIVE
          (literal TokenDuration "~P5W") "" = Except.ok "[~P1W..~P5W]" ∧
      formatInterval literalRenderers (literal TokenDuration "~P1W") RIGHT
          (literal TokenDuration "~P5W") "" = Except.ok "(~P1W..~P5W]" ∧
      formatInterval literalRenderers (literal TokenDuration "~P1W") LEFT
          (literal TokenDuration "~P5W") "" = Except.ok "[~P1W..~P5W)" ∧
      formatInterval literalRenderers (literal TokenDuration "~P1W") EXCLUSIVE
          (literal TokenDuration "~P5W") "" = Except.ok "(~P1W..~P5W)") ∧
    ∀ text ∈ ["[~P1W..~P5W]", "(~P1W..~P5W]", "[~P1W..~P5W)", "(~P1W..~P5W)"],
      text ∉ ["~P1W..~P5W", "~P1W..<~P5W", "~P1W<..~P5W", "~P1W<..<~P5W"] := by
  refine ⟨⟨rfl, rfl, rfl, rfl⟩, ?_⟩
  decide

/-- A chain of alternatives that starts with a result other than `ok = false`
ends with that result. -/
theorem foldl_orElse_of_not_isNoMatch (o : Outcome Primitive)
    (later : List (Parser → Outcome Primitive)) (h : o.isNoMatch = false) :
    later.foldl Outcome.orElse o = o := by
  induction later with
  | nil => rfl
  | cons next rest ih =>
    simp only [List.foldl_cons]
    rw [orElse_absorb _ _ h]
    exact ih

/-- A chain of alternatives computes the first match. -/
theorem foldl_orElse_eq_firstMatch (first : Parser → Outcome Primitive)
    (others : List (Parser → Outcome Primitive)) (v : Parser) :
    others.foldl Outcome.orElse (first v) = firstMatch first others v := by
  induction others generalizing first v with
  | nil => rfl
  | cons next rest ih =>
    simp only [List.foldl_cons]
    cases h : first v with
    | noMatch token v1 =>
      simp only [firstMatch, h, Outcome.orElse]
      exact ih next v1
    | ok x token v1 =>
      simp only [firstMatch, h, Outcome.orElse]
      exact foldl_orElse_of_not_isNoMatch _ _ rfl
    | fatal d =>
      simp only [firstMatch, h, Outcome.orElse]
      exact foldl_orElse_of_not_isNoMatch _ _ rfl
    | outOfFuel =>
      simp only [firstMatch, h, Outcome.orElse]
      exact foldl_orElse_of_not_isNoMatch _ _ rfl

/-- C15: `parseEndpoint` is the first match over the literal grammars in the order
angle, binary, boolean, duration, moment, moniker, pattern, percentage,
probability, quote, real, resource, rune, symbol, tag, version: the result of the
first grammar that matches is returned, and when none matches the result is
`ok = false`, which carries no endpoint. -/
theorem parseEndpoint_eq_firstMatch (g : Scalars Primitive) (v : Parser) :
    parseEndpoint g v = firstMatch g.parseAngle (grammarsAfterAngle g) v ∧
      ((∀ p ∈ g.parseAngle :: grammarsAfterAngle g, ∃ t, p v = Outcome.noMatch t v) →
        ∃ token, parseEndpoint g v = Outcome.noMatch token v) := by
  have h : parseEndpoint g v = firstMatch g.parseAngle (grammarsAfterAngle g) v :=
    foldl_orElse_eq_firstMatch g.parseAngle (grammarsAfterAngle g) v
  refine ⟨h, ?_⟩
  intro hall
  simp only [grammarsAfterAngle, List.mem_cons, List.mem_singleton, forall_eq_or_imp,
    List.not_mem_nil, false_implies, implies_true, and_true] at hall
  obtain ⟨⟨_, e1⟩, ⟨_, e2⟩, ⟨_, e3⟩, ⟨_, e4⟩, ⟨_, e5⟩, ⟨_, e6⟩, ⟨_, e7⟩, ⟨_, e8⟩, ⟨_, e9⟩,
    ⟨_, e10⟩, ⟨_, e11⟩, ⟨_, e12⟩, ⟨_, e13⟩, ⟨_, e14⟩, ⟨_, e15⟩, ⟨t16, e16⟩⟩ := hall
  refine ⟨t16, ?_⟩
  simp only [parseEndpoint, e1, e2, e3, e4, e5, e6, e7, e8, e9, e10, e11, e12, e13, e14, e15,
    e16, Outcome.orElse]

/-- On the tokens of `..` no literal grammar of the examples matches and the endpoint
production reports `ok = false` at the position it started from. -/
theorem parseEndpoint_eq_firstMatch_witness :
    (∀ p ∈ literalScalars.parseAngle :: grammarsAfterAngle literalScalars,
        ∃ t, p (startOf [delimiter ".."]) = Outcome.noMatch t (startOf [delimiter ".."])) ∧
      ∃ token, parseEndpoint literalScalars (startOf [delimiter ".."])
        = Outcome.noMatch token (startOf [delimiter ".."]) := by
  have hall : ∀ p ∈ literalScalars.parseAngle :: grammarsAfterAngle literalScalars,
      ∃ t, p (startOf [delimiter ".."]) = Outcome.noMatch t (startOf [delimiter ".."]) := by
    simp only [grammarsAfterAngle, List.mem_cons, List.mem_singleton, forall_eq_or_imp,
      List.not_mem_nil, false_implies, implies_true, and_true]
    refine ⟨?_, ?_, ?_, ?_, ?_, ?_, ?_, ?_, ?_, ?_, ?_, ?_, ?_, ?_, ?_, ?_⟩ <;>
      exact ⟨delimiter "..", rfl⟩
  exact ⟨hall, (parseEndpoint_eq_firstMatch literalScalars (startOf [delimiter ".."])).2 hall⟩

end FormatClaims


section EndpointClaims

variable {Primitive : Type}

theorem firstRule_nil (endpoint : Primitive) (state : String) :
    firstRule ([] : List (Rule Primitive)) endpoint state
      = Except.error "An invalid endpoint was passed to the formatter" := rfl

theorem firstRule_cons (rule : Rule Primitive) (rules : List (Rule Primitive))
    (endpoint : Primitive) (state : String) :
    firstRule (rule :: rules) endpoint state
      = if rule.applies endpoint = true then rule.format endpoint state
        else firstRule rules endpoint state := by
  unfold firstRule
  cases h : rule.applies endpoint <;> simp [List.find?, h]

/-- C16: `formatEndpoint` applies the first rule that matches over the rules in the
order Binary, Moniker, Quote, Version, Duration, Moment, Percentage, Real,
Integer, Probability, Angle, Rune, Pattern, Resource, Tag, Symbol; an endpoint
that is a percentage and none of the six kinds before it is rendered by the
percentage rule, whether or not it also has the methods of a real; and among the
interfaces declared in the sources one whose method set is a proper subset of
another's is tested after it. -/
theorem formatEndpoint_eq_firstRule (r : Renderers Primitive) (endpoint : Primitive)
    (state : String) :
    formatEndpoint r endpoint state = firstRule (endpointRules r) endpoint state ∧
      (endpointRules r).map Rule.name =
        ["BinaryLike", "MonikerLike", "QuoteLike", "VersionLike", "DurationLike", "MomentLike",
          "PercentageLike", "RealLike", "IntegerLike", "ProbabilityLike", "AngleLike",
          "RuneLike", "PatternLike", "ResourceLike", "TagLike", "SymbolLike"] ∧
      (r.isPercentageLike endpoint = true →
        r.isBinaryLike endpoint = false → r.isMonikerLike endpoint = false →
        r.isQuoteLike endpoint = false → r.isVersionLike endpoint = false →
        r.isDurationLike endpoint = false → r.isMomentLike endpoint = false →
        formatEndpoint r endpoint state = r.formatPercentage endpoint state) ∧
      (∀ a ∈ declaredInterfaces, ∀ b ∈ declaredInterfaces, a.2 ⊆ b.2 → ¬ b.2 ⊆ a.2 →
        ((endpointRules r).map Rule.name).indexOf b.1
          < ((endpointRules r).map Rule.name).indexOf a.1) := by
  refine ⟨?_, rfl, ?_, ?_⟩
  · unfold formatEndpoint endpointRules
    simp only [firstRule_cons, firstRule_nil]
  · intro h7 h1 h2 h3 h4 h5 h6
    simp [formatEndpoint, h1, h2, h3, h4, h5, h6, h7]
  · simp only [endpointRules, List.map]
    decide

/-- A percentage of the examples has the methods of a real too and is rendered by
the percentage rule. -/
theorem formatEndpoint_eq_firstRule_witness :
    literalRenderers.isRealLike (literal TokenPercentage "50%") = true ∧
      formatEndpoint literalRenderers (literal TokenPercentage "50%") ""
        = literalRenderers.formatPercentage (literal TokenPercentage "50%") "" :=
  ⟨rfl, (formatEndpoint_eq_firstRule literalRenderers (literal TokenPercentage "50%") "").2.2.1
    rfl rfl rfl rfl rfl rfl rfl⟩

/-- The bytes of a text that has one character only are the bytes of that
character. -/
theorem utf8ByteSize_eq_first (first : Char) (rest : List Char)
    (h : (String.mk (first :: rest)).utf8ByteSize = first.utf8Size) : rest = [] := by
  cases rest with
  | nil => rfl
  | cons second others =>
    have hpos := Char.utf8Size_pos second
    simp [String.utf8ByteSize, String.utf8ByteSize.go] at h
    omega

/-- C17: `AsString` of a quote keeps its quotation marks (the tests of the parser
read `"Hello World!"` back from the quote `"Hello World!"`).  For a quote with
the marks, whatever stands between them (nothing, one code point, several),
`parseRune` reports `ok = false` and backs up by the quote token: the first code
point is the quotation mark, of one byte, and the text has more bytes.  For
every `AsString`: a text of more than one code point is pushed back with
`ok = false`, and when `parseRune` succeeds the text has no second code point
and the rune returned is the code point of the text.  On the bytes of a text,
valid or not, that stands between quotation marks the test of `parseRune`
fails. -/
theorem parseRune_requires_one_code_point (g : Scalars Primitive) (v : Parser)
    (quote : Primitive) (token : Token) (v1 : Parser) (content : List Char)
    (hquote : g.parseQuote v = Outcome.ok quote token v1)
    (hmarks : (g.asString quote).data = Char.ofNat 34 :: (content ++ [Char.ofNat 34])) :
    parseRune g v = Outcome.noMatch token (backupOne v1) ∧
      (∀ (u : Parser) (q : Primitive) (t : Token) (w : Parser),
        g.parseQuote u = Outcome.ok q t w → 2 ≤ (g.asString q).data.length →
        parseRune g u = Outcome.noMatch t (backupOne w)) ∧
      (∀ (u : Parser) (rune : Primitive) (t : Token) (w : Parser),
        parseRune g u = Outcome.ok rune t w →
        ∃ q, g.parseQuote u = Outcome.ok q t w ∧ (g.asString q).data.length ≤ 1 ∧
          ∀ ch, (g.asString q).data = [ch] → rune = g.rune ch.toNat) ∧
      (∀ bytes : List Nat, runeOfText (34 :: (bytes ++ [34])) = none) := by
  have hlong : ∀ (u : Parser) (q : Primitive) (t : Token) (w : Parser),
      g.parseQuote u = Outcome.ok q t w → 2 ≤ (g.asString q).data.length →
      parseRune g u = Outcome.noMatch t (backupOne w) := by
    intro u q t w hq hlen
    cases hs : g.asString q with
    | mk data =>
      rw [hs] at hlen
      match data, hlen with
      | first :: second :: others, _ =>
        have hne : (String.mk (first :: second :: others)).utf8ByteSize ≠ first.utf8Size :=
          fun h => by cases utf8ByteSize_eq_first first (second :: others) h
        simp only [parseRune, hq, Outcome.andThen, hs, decodeRuneInString]
        rw [if_pos hne]
  refine ⟨?_, hlong, ?_, ?_⟩
  · apply hlong v quote token v1 hquote
    rw [hmarks]
    simp
  · intro u rune t w h
    unfold parseRune at h
    cases hq : g.parseQuote u with
    | ok q t1 w1 =>
      rw [hq] at h
      simp only [Outcome.andThen] at h
      split at h
      · cases h
      · rename_i hsize
        simp only [Outcome.ok.injEq] at h
        obtain ⟨hrune, ht, hw⟩ := h
        subst ht
        subst hw
        refine ⟨q, rfl, ?_, ?_⟩
        · cases hs : g.asString q with
          | mk data =>
            cases data with
            | nil => simp
            | cons first rest =>
              rw [hs] at hsize
              have hrest := utf8ByteSize_eq_first first rest
                (by simpa [decodeRuneInString] using hsize)
              simp [hrest]
        · intro ch hch
          have hs : g.asString q = String.mk [ch] := by
            cases hq2 : g.asString q with
            | mk data =>
              rw [hq2] at hch
              simp only at hch
              rw [hch]
          rw [← hrune, hs]
          rfl
    | noMatch t1 w1 =>
      rw [hq] at h
      cases h
    | fatal d =>
      rw [hq] at h
      cases h
    | outOfFuel =>
      rw [hq] at h
      cases h
  · intro bytes
    simp [runeOfText, decodeRune]

/-- With the text of the token as `AsString`, the rune production reports
`ok = false` in place on the token of the quote with nothing between its marks
and on the token of the quote `"a"`. -/
theorem parseRune_requires_one_code_point_witness :
    literalScalars.parseQuote (startOf [literal TokenQuote emptyQuote])
        = Outcome.ok (literal TokenQuote emptyQuote) (literal TokenQuote emptyQuote)
            ⟨[literal TokenQuote emptyQuote], 1⟩ ∧
      (literalScalars.asString (literal TokenQuote emptyQuote)).data
        = Char.ofNat 34 :: ([] ++ [Char.ofNat 34]) ∧
      parseRune literalScalars (startOf [literal TokenQuote emptyQuote])
        = Outcome.noMatch (literal TokenQuote emptyQuote)
            (startOf [literal TokenQuote emptyQuote]) ∧
      parseRune literalScalars (startOf [literal TokenQuote quotedLetter])
        = Outcome.noMatch (literal TokenQuote quotedLetter)
            (startOf [literal TokenQuote quotedLetter]) :=
  ⟨rfl, rfl,
    (parseRune_requires_one_code_point literalScalars
      (startOf [literal TokenQuote emptyQuote]) (literal TokenQuote emptyQuote)
      (literal TokenQuote emptyQuote) ⟨[literal TokenQuote emptyQuote], 1⟩ [] rfl rfl).1,
    (parseRune_requires_one_code_point literalScalars
      (startOf [literal TokenQuote quotedLetter]) (literal TokenQuote quotedLetter)
      (literal TokenQuote quotedLetter) ⟨[literal TokenQuote quotedLetter], 1⟩
      [Char.ofNat 97] rfl rfl).1⟩

end EndpointClaims

section RealClaims

variable {Primitive : Type}

/-- C18: `formatReal` renders a zero as `0`, a positive infinity as `+∞`, a negative
infinity as `-∞`, an undefined value as `undefined` and passes every other
value to the float formatter; the four special texts are pairwise distinct;
and, when the predicates classify the values of `mat.NaN`, `mat.Inf` and the
parsed `0` as they are built, `parseReal` on a numeric token with one of the four
texts returns a value that `formatReal` renders as that text again. -/
theorem formatReal_special_values (r : Renderers Primitive) (g : Scalars Primitive)
    (hclasses : realClasses r g) (number : Primitive) (state : String) :
    (r.isZero number = true → formatReal r number state = Except.ok (state ++ "0")) ∧
      (r.isZero number = false → r.isInfinite number = true → r.isNegative number = false →
        formatReal r number state = Except.ok (state ++ "+∞")) ∧
      (r.isZero number = false → r.isInfinite number = true → r.isNegative number = true →
        formatReal r number state = Except.ok (state ++ "-∞")) ∧
      (r.isZero number = false → r.isInfinite number = false → r.isUndefined number = true →
        formatReal r number state = Except.ok (state ++ "undefined")) ∧
      (r.isZero number = false → r.isInfinite number = false → r.isUndefined number = false →
        formatReal r number state = r.formatFloat number state) ∧
      ["0", "+∞", "-∞", "undefined"].Nodup ∧
      (∀ text, text ∈ ["0", "+∞", "-∞", "undefined"] → ∀ v : Parser,
        (nextToken v).1 = ⟨TokenNumber, text⟩ →
        ∃ value, parseReal g v = Outcome.ok value (nextToken v).1 (nextToken v).2 ∧
          formatReal r value state = Except.ok (state ++ text)) := by
  obtain ⟨⟨hnan, hnanzero, hnaninf⟩, hinf, ⟨zero, hparse, hzero⟩, hscan⟩ := hclasses
  refine ⟨?_, ?_, ?_, ?_, ?_, by decide, ?_⟩
  · intro h
    simp [formatReal, h]
  · intro h1 h2 h3
    simp [formatReal, h1, h2, h3, String.append_assoc]
  · intro h1 h2 h3
    simp [formatReal, h1, h2, h3, String.append_assoc]
  · intro h1 h2 h3
    simp [formatReal, h1, h2, h3]
  · intro h1 h2 h3
    simp [formatReal, h1, h2, h3]
  · intro text htext v htoken
    have hhead := hscan text htext
    cases hmatches : g.scanReal text with
    | nil => simp [hmatches] at hhead
    | cons match0 rest =>
      have hmatch0 : match0 = text := by simpa [hmatches] using hhead
      subst hmatch0
      simp only [List.mem_cons, List.mem_singleton, List.not_mem_nil, or_false] at htext
      rcases htext with h | h | h | h
      · subst h
        refine ⟨zero, ?_, by simp [formatReal, hzero]⟩
        unfold parseReal
        simp [htoken, hmatches, hparse]
      · subst h
        refine ⟨g.infinity false, ?_, ?_⟩
        · unfold parseReal
          simp [htoken, hmatches]
        · have h3 := hinf false
          simp [formatReal, h3.1, h3.2.1, h3.2.2, String.append_assoc]
      · subst h
        refine ⟨g.infinity true, ?_, ?_⟩
        · unfold parseReal
          simp [htoken, hmatches]
        · have h3 := hinf true
          simp [formatReal, h3.1, h3.2.1, h3.2.2, String.append_assoc]
      · subst h
        refine ⟨g.undefined, ?_, by simp [formatReal, hnan, hnanzero, hnaninf]⟩
        unfold parseReal
        simp [htoken, hmatches]

/-- The literal examples satisfy the conditions, and the positive infinity of the
examples is rendered as `+∞`. -/
theorem formatReal_special_values_witness :
    realClasses literalRenderers literalScalars ∧
      formatReal literalRenderers (literal TokenNumber "+∞") "" = Except.ok "+∞" := by
  have hclasses : realClasses literalRenderers literalScalars := by
    refine ⟨⟨rfl, by decide, by decide⟩, ?_, ⟨literal TokenNumber "0", rfl, by decide⟩, ?_⟩
    · intro negative
      cases negative <;> exact ⟨by decide, by decide, by decide⟩
    · intro text _
      rfl
  exact ⟨hclasses,
    (formatReal_special_values literalRenderers literalScalars hclasses
      (literal TokenNumber "+∞") "").2.1 (by decide) (by decide) (by decide)⟩

end RealClaims

section IntervalClaims

/-- A value is listed by `AsArray` exactly when it lies between the first and the
last member. -/
theorem mem_AsArray (s : Interval) (value : Int) :
    value ∈ s.AsArray ↔ s.firstMember ≤ value ∧ value ≤ s.lastMember := by
  simp only [Interval.AsArray, List.mem_map, List.mem_range]
  constructor
  · rintro ⟨i, hi, rfl⟩
    omega
  · intro h
    exact ⟨(value - s.firstMember).toNat, by omega, by omega⟩

/-- The number of members. -/
theorem length_AsArray (s : Interval) :
    s.AsArray.length = (s.lastMember - s.firstMember + 1).toNat := by
  simp [Interval.AsArray]

/-- No member is listed twice. -/
theorem nodup_AsArray (s : Interval) : s.AsArray.Nodup := by
  unfold Interval.AsArray
  refine List.Nodup.map ?_ (List.nodup_range _)
  intro i j h
  simpa using h

/-- The member at a position of the listing. -/
theorem getElem_AsArray (s : Interval) (i : Nat) (h : i < s.AsArray.length) :
    s.AsArray[i] = s.firstMember + i := by
  simp [Interval.AsArray]

/-- The position of a member in the listing. -/
theorem indexOf_AsArray (s : Interval) (i : Nat) (h : i < s.AsArray.length) :
    s.AsArray.indexOf (s.firstMember + i) = i := by
  have hindex := List.indexOf_getElem (nodup_AsArray s) i h
  rwa [getElem_AsArray s i h] at hindex

/-- C19 (the interval of the specification): the size is `last - first + 1` for an
inclusive extent, `last - first` for `LEFT` and `RIGHT`, `last - first - 1` for
an exclusive extent, and 0 when that value is negative; it is the number of
members listed by `AsArray`; and `IsEmpty` holds exactly when the size is 0. -/
theorem interval_size_law (s : Interval) :
    s.GetSize = max 0 (s.last - s.first +
        (match s.extent with
          | INCLUSIVE => 1
          | LEFT => 0
          | RIGHT => 0
          | EXCLUSIVE => -1)) ∧
      s.GetSize = s.AsArray.length ∧
      (s.IsEmpty = true ↔ s.GetSize = 0) ∧
      (Interval.mk 3 LEFT 7).GetSize = 4 ∧ (Interval.mk 3 INCLUSIVE 7).GetSize = 5 ∧
      (Interval.mk 1 RIGHT 5).GetSize = 4 ∧ (Interval.mk 3 EXCLUSIVE 7).GetSize = 3 ∧
      (Interval.mk 7 EXCLUSIVE 3).GetSize = 0 ∧ (Interval.mk 7 EXCLUSIVE 3).IsEmpty = true := by
  have hsize : s.GetSize = s.AsArray.length := by
    rw [length_AsArray]
    obtain ⟨first, extent, last⟩ := s
    cases extent <;> simp only [Interval.GetSize, Interval.firstMember, Interval.lastMember] <;>
      split_ifs <;> omega
  refine ⟨?_, hsize, ?_, by decide, by decide, by decide, by decide, by decide, by decide⟩
  · obtain ⟨first, extent, last⟩ := s
    cases extent <;> simp only [Interval.GetSize] <;> split_ifs <;> omega
  · rw [hsize]
    simp [Interval.IsEmpty, List.isEmpty_iff, List.length_eq_zero]

/-- C20 (the interval of the specification): the members are the values from
`first` to `last` without an excluded endpoint; `GetIndex` is 0 exactly when
`ContainsValue` is false and is otherwise the 1-based position of the value,
`value - firstMember + 1`; `GetValue (GetIndex value)` is the value for every
member; index 1 is the first member; and `AsArray` lists the members in index
order. -/
theorem interval_index_law (s : Interval) :
    (∀ value, s.ContainsValue value = true ↔
        (s.first ≤ value ∧ value ≤ s.last ∧
          ((s.extent = RIGHT ∨ s.extent = EXCLUSIVE) → value ≠ s.first) ∧
          ((s.extent = LEFT ∨ s.extent = EXCLUSIVE) → value ≠ s.last))) ∧
      (∀ value, s.ContainsValue value = true ↔ value ∈ s.AsArray) ∧
      (∀ value, s.GetIndex value = 0 ↔ s.ContainsValue value = false) ∧
      (∀ value, s.ContainsValue value = true →
        (s.GetIndex value : Int) = value - s.firstMember + 1 ∧
          s.GetValue (s.GetIndex value) = some value) ∧
      (s.IsEmpty = false → s.GetValue 1 = some s.firstMember ∧ s.GetIndex s.firstMember = 1) ∧
      (∀ index, index < s.AsArray.length →
        s.GetValue (index + 1) = s.AsArray.get? index ∧
          s.AsArray.get? index = some (s.firstMember + index) ∧
          s.GetIndex (s.firstMember + index) = index + 1) := by
  have hcontains : ∀ value, s.ContainsValue value = true ↔ value ∈ s.AsArray := by
    intro value
    rw [mem_AsArray]
    simp [Interval.ContainsValue]
  have hposition : ∀ index, index < s.AsArray.length →
      s.GetValue (index + 1) = s.AsArray.get? index ∧
        s.AsArray.get? index = some (s.firstMember + index) ∧
        s.GetIndex (s.firstMember + index) = index + 1 := by
    intro index hindex
    have hmember : s.firstMember + (index : Int) ∈ s.AsArray := by
      rw [← getElem_AsArray s index hindex]
      exact List.getElem_mem _
    refine ⟨by simp [Interval.GetValue], ?_, ?_⟩
    · rw [List.get?_eq_getElem?, List.getElem?_eq_getElem hindex, getElem_AsArray s index hindex]
    · simp only [Interval.GetIndex, hmember, if_true, indexOf_AsArray s index hindex]
  have hmembers : ∀ value, s.ContainsValue value = true →
      (s.GetIndex value : Int) = value - s.firstMember + 1 ∧
        s.GetValue (s.GetIndex value) = some value := by
    intro value hvalue
    have hbounds := (mem_AsArray s value).1 ((hcontains value).1 hvalue)
    have hindex : (value - s.firstMember).toNat < s.AsArray.length := by
      rw [length_AsArray]
      omega
    have hvalue_eq : s.firstMember + ((value - s.firstMember).toNat : Int) = value := by omega
    obtain ⟨h1, h2, h3⟩ := hposition _ hindex
    rw [hvalue_eq] at h2 h3
    refine ⟨?_, ?_⟩
    · rw [h3]
      push_cast
      omega
    · rw [h3, h1, h2]
  refine ⟨?_, hcontains, ?_, hmembers, ?_, hposition⟩
  · intro value
    obtain ⟨first, extent, last⟩ := s
    cases extent <;>
      simp only [Interval.ContainsValue, Interval.firstMember, Interval.lastMember,
        decide_eq_true_eq] <;>
      constructor <;> intro h <;> simp_all <;> omega
  · intro value
    by_cases hmember : value ∈ s.AsArray
    · have := (hcontains value).2 hmember
      simp [Interval.GetIndex, hmember, this]
    · have : s.ContainsValue value = false := by
        cases h : s.ContainsValue value
        · rfl
        · exact absurd ((hcontains value).1 h) hmember
      simp [Interval.GetIndex, hmember, this]
  · intro hempty
    have hlength : 0 < s.AsArray.length := by
      cases h : s.AsArray with
      | nil => simp [Interval.IsEmpty, h] at hempty
      | cons a rest => simp
    obtain ⟨h1, h2, h3⟩ := hposition 0 hlength
    simp only [Nat.cast_zero, add_zero, zero_add] at h1 h2 h3
    exact ⟨h1.trans h2, h3⟩

/-- The interval `3 LEFT 7` of the tests: 5 is a member, its index is 3 and the
value at index 3 is 5; 7 is no member and its index is 0. -/
theorem interval_index_law_witness :
    (Interval.mk 3 LEFT 7).ContainsValue 5 = true ∧
      ((Interval.mk 3 LEFT 7).GetIndex 5 : Int) = 5 - (Interval.mk 3 LEFT 7).firstMember + 1 ∧
      (Interval.mk 3 LEFT 7).GetValue ((Interval.mk 3 LEFT 7).GetIndex 5) = some 5 ∧
      (Interval.mk 3 LEFT 7).GetIndex 5 = 3 ∧
      (Interval.mk 3 LEFT 7).GetIndex 7 = 0 ∧
      (Interval.mk 3 LEFT 7).AsArray = [3, 4, 5, 6] ∧
      (Interval.mk 1 RIGHT 5).AsArray = [2, 3, 4, 5] ∧
      (Interval.mk 1 RIGHT 5).GetValue 1 = some 2 :=
  ⟨by decide,
    ((interval_index_law (Interval.mk 3 LEFT 7)).2.2.2.1 5 (by decide)).1,
    ((interval_index_law (Interval.mk 3 LEFT 7)).2.2.2.1 5 (by decide)).2,
    by decide, by decide, by decide, by decide, by decide⟩

end IntervalClaims

section CatalogLemmas

variable {K V : Type} [DecidableEq K]

theorem entryOf_append_single (keys : List (K × Nat)) (key other : K) (address : Nat) :
    entryOf (keys ++ [(key, address)]) other
      = match entryOf keys other with
        | some found => some found
        | none => if other = key then some address else none := by
  induction keys with
  | nil => simp [entryOf]
  | cons entry rest ih =>
    obtain ⟨k, a⟩ := entry
    by_cases h : other = k
    · simp [entryOf, h]
    · simp only [List.cons_append, entryOf, h, if_false]
      exact ih

theorem entryOf_filter_ne (keys : List (K × Nat)) (key other : K) :
    entryOf (keys.filter (fun entry => entry.1 ≠ key)) other
      = if other = key then none else entryOf keys other := by
  induction keys with
  | nil => simp [entryOf]
  | cons entry rest ih =>
    obtain ⟨k, a⟩ := entry
    by_cases hk : k = key
    · have hfilter : List.filter (fun entry => decide (entry.1 ≠ key)) ((k, a) :: rest)
          = List.filter (fun entry => decide (entry.1 ≠ key)) rest := by
        simp [List.filter_cons, hk]
      rw [hfilter, ih]
      by_cases h : other = key
      · simp [h]
      · have : ¬ other = k := by rw [hk]; exact h
        simp [h, entryOf, this]
    · have hfilter : List.filter (fun entry => decide (entry.1 ≠ key)) ((k, a) :: rest)
          = (k, a) :: List.filter (fun entry => decide (entry.1 ≠ key)) rest := by
        simp [List.filter_cons, hk]
      rw [hfilter]
      by_cases h : other = k
      · have : ¬ other = key := by rw [h]; exact hk
        simp [entryOf, h, hk]
      · simp only [entryOf, h, if_false, ih]

end CatalogLemmas

section CatalogRefinement

theorem mem_catalog_AsArray {K V : Type} (v : catalog K V) (entry : association K V) :
    entry ∈ v.AsArray ↔ ∃ address ∈ v.associations, v.cells[address]? = some entry := by
  simp [catalog.AsArray, List.mem_filterMap]

variable {K V : Type} [DecidableEq K]

/-- The associations of a list of addresses each of which is the one the map gives
for its key have distinct keys. -/
theorem keys_nodup_of_addresses (cells : List (association K V)) (keys : List (K × Nat))
    (addresses : List Nat) (hnodup : addresses.Nodup)
    (hback : ∀ address ∈ addresses,
      ∃ cell, cells[address]? = some cell ∧ entryOf keys cell.key = some address) :
    ((addresses.filterMap (fun address => cells[address]?)).map association.key).Nodup := by
  induction addresses with
  | nil => simp
  | cons a rest ih =>
    obtain ⟨cell, hcell, hkey⟩ := hback a (List.mem_cons_self _ _)
    have hrest := ih (List.nodup_cons.1 hnodup).2
      (fun address h => hback address (List.mem_cons_of_mem _ h))
    simp only [List.filterMap_cons, hcell, List.map_cons, List.nodup_cons]
    refine ⟨?_, hrest⟩
    intro hmem
    obtain ⟨other, hother, hsame⟩ := List.mem_map.1 hmem
    obtain ⟨b, hb, hcellb⟩ := List.mem_filterMap.1 hother
    obtain ⟨cellb, hcellb2, hkeyb⟩ := hback b (List.mem_cons_of_mem _ hb)
    rw [hcellb] at hcellb2
    cases hcellb2
    rw [hsame, hkey] at hkeyb
    cases hkeyb
    exact (List.nodup_cons.1 hnodup).1 hb

theorem GetKeys_nodup (v : catalog K V) (hv : v.WellFormed) : v.GetKeys.Nodup :=
  keys_nodup_of_addresses v.cells v.keys v.associations hv.1 hv.2.2

theorem find_of_mem_of_nodup (entries : List (association K V))
    (hnodup : (entries.map association.key).Nodup) (entry : association K V)
    (hmem : entry ∈ entries) :
    entries.find? (fun other => other.key = entry.key) = some entry := by
  induction entries with
  | nil => simp at hmem
  | cons head rest ih =>
    simp only [List.map_cons, List.nodup_cons] at hnodup
    rcases List.mem_cons.1 hmem with h | h
    · subst h
      simp
    · have hne : ¬ head.key = entry.key := by
        intro hsame
        exact hnodup.1 (hsame ▸ List.mem_map_of_mem _ h)
      simp [List.find?_cons, hne, ih hnodup.2 h]

theorem mem_GetKeys_iff (v : catalog K V) (hv : v.WellFormed) (key : K) :
    key ∈ v.GetKeys ↔ ∃ address, entryOf v.keys key = some address := by
  constructor
  · intro hmem
    obtain ⟨entry, hentry, hkey⟩ := List.mem_map.1 hmem
    obtain ⟨address, haddress, hcell⟩ := (mem_catalog_AsArray v entry).1 hentry
    obtain ⟨cell, hcell2, hback⟩ := hv.2.2 address haddress
    rw [hcell] at hcell2
    cases hcell2
    exact ⟨address, hkey ▸ hback⟩
  · rintro ⟨address, hentry⟩
    obtain ⟨haddress, value, hcell⟩ := hv.2.1 key address hentry
    exact List.mem_map.2 ⟨⟨key, value⟩, (mem_catalog_AsArray v _).2 ⟨address, haddress, hcell⟩, rfl⟩

variable [Inhabited V]

theorem GetValue_eq_valueOf (v : catalog K V) (hv : v.WellFormed) (key : K) :
    v.GetValue key = valueOf v.AsArray key := by
  unfold catalog.GetValue valueOf
  cases hentry : entryOf v.keys key with
  | none =>
    have hnone : v.AsArray.find? (fun entry => entry.key = key) = none := by
      rw [List.find?_eq_none]
      intro entry hmem hkey
      obtain ⟨address, haddress, hcell⟩ := (mem_catalog_AsArray v entry).1 hmem
      obtain ⟨cell, hcell2, hback⟩ := hv.2.2 address haddress
      rw [hcell] at hcell2
      cases hcell2
      have : entry.key = key := by simpa using hkey
      rw [this, hentry] at hback
      cases hback
    simp [hnone]
  | some address =>
    obtain ⟨haddress, value, hcell⟩ := hv.2.1 key address hentry
    have hmem : (⟨key, value⟩ : association K V) ∈ v.AsArray :=
      (mem_catalog_AsArray v _).2 ⟨address, haddress, hcell⟩
    have hfind := find_of_mem_of_nodup v.AsArray (GetKeys_nodup v hv) _ hmem
    simp only [hcell, hfind]

theorem SetValue_returns (v : catalog K V) (key : K) (value : V) :
    (v.SetValue key value).2 = v.GetValue key := by
  unfold catalog.SetValue catalog.GetValue
  cases hentry : entryOf v.keys key with
  | none => rfl
  | some address =>
    cases hcell : v.cells[address]? with
    | none => simp only [hcell]
    | some cell => simp only [hcell]

end CatalogRefinement

section CatalogWrites

variable {K V : Type} [DecidableEq K] [Inhabited V]

theorem address_lt_of_cell {α : Type} (cells : List α) (address : Nat) (cell : α)
    (h : cells[address]? = some cell) : address < cells.length := by
  by_contra hlt
  rw [List.getElem?_eq_none (not_lt.1 hlt)] at h
  cases h

/-- The state after `SetValue` on a key the map holds. -/
theorem SetValue_present (v : catalog K V) (key : K) (value : V) (address : Nat)
    (cell : association K V) (hentry : entryOf v.keys key = some address)
    (hcell : v.cells[address]? = some cell) :
    v.SetValue key value
      = ({ v with cells := v.cells.set address { cell with value := value } }, cell.value) := by
  simp only [catalog.SetValue, hentry, hcell]

/-- The state after `SetValue` on a key the map does not hold. -/
theorem SetValue_absent (v : catalog K V) (key : K) (value : V)
    (hentry : entryOf v.keys key = none) :
    v.SetValue key value
      = ({ cells := v.cells ++ [⟨key, value⟩],
           associations := v.associations ++ [v.cells.length],
           keys := v.keys ++ [(key, v.cells.length)] }, default) := by
  simp only [catalog.SetValue, hentry, list.AddItem]

theorem SetValue_WellFormed (v : catalog K V) (hv : v.WellFormed) (key : K) (value : V) :
    (v.SetValue key value).1.WellFormed := by
  obtain ⟨hnodup, hmap, hback⟩ := hv
  cases hentry : entryOf v.keys key with
  | some address =>
    obtain ⟨haddress, old, hcell⟩ := hmap key address hentry
    rw [SetValue_present v key value address _ hentry hcell]
    have hlt := address_lt_of_cell _ _ _ hcell
    refine ⟨hnodup, ?_, ?_⟩
    · intro k a hk
      obtain ⟨ha, x, hx⟩ := hmap k a hk
      refine ⟨ha, ?_⟩
      by_cases hsame : address = a
      · subst hsame
        rw [hcell] at hx
        cases hx
        exact ⟨value, by simp [List.getElem?_set, hlt]⟩
      · exact ⟨x, by simp [List.getElem?_set, hsame, hx]⟩
    · intro a ha
      obtain ⟨c, hc, hkeyc⟩ := hback a ha
      by_cases hsame : address = a
      · subst hsame
        rw [hcell] at hc
        cases hc
        exact ⟨⟨key, value⟩, by simp [List.getElem?_set, hlt], hkeyc⟩
      · exact ⟨c, by simp [List.getElem?_set, hsame, hc], hkeyc⟩
  | none =>
    rw [SetValue_absent v key value hentry]
    have hfresh : v.cells.length ∉ v.associations := by
      intro hmem
      obtain ⟨c, hc, _⟩ := hback _ hmem
      exact absurd (address_lt_of_cell _ _ _ hc) (lt_irrefl _)
    refine ⟨?_, ?_, ?_⟩
    · exact List.Nodup.append hnodup (List.nodup_singleton _) (by simpa using hfresh)
    · intro k a hk
      simp only [entryOf_append_single] at hk
      cases hold : entryOf v.keys k with
      | some found =>
        rw [hold] at hk
        have hfound : found = a := by simpa using hk
        subst hfound
        obtain ⟨ha, x, hx⟩ := hmap k found hold
        refine ⟨List.mem_append_left _ ha, x, ?_⟩
        rw [List.getElem?_append_left (address_lt_of_cell _ _ _ hx)]
        exact hx
      | none =>
        rw [hold] at hk
        by_cases hsame : k = key
        · subst hsame
          simp only [if_true, Option.some.injEq] at hk
          subst hk
          exact ⟨by simp, value, by simp⟩
        · simp [hsame] at hk
    · intro a ha
      rcases List.mem_append.1 ha with h | h
      · obtain ⟨c, hc, hkeyc⟩ := hback a h
        refine ⟨c, ?_, ?_⟩
        · rw [List.getElem?_append_left (address_lt_of_cell _ _ _ hc)]
          exact hc
        · simp only [entryOf_append_single, hkeyc]
      · have : a = v.cells.length := by simpa using h
        subst this
        refine ⟨⟨key, value⟩, by simp, ?_⟩
        simp only [entryOf_append_single, hentry, if_true]

theorem SetValue_AsArray (v : catalog K V) (hv : v.WellFormed) (key : K) (value : V) :
    (v.SetValue key value).1.AsArray = written v.AsArray key value := by
  obtain ⟨hnodup, hmap, hback⟩ := hv
  cases hentry : entryOf v.keys key with
  | some address =>
    obtain ⟨haddress, old, hcell⟩ := hmap key address hentry
    have hlt := address_lt_of_cell _ _ _ hcell
    have hmem : key ∈ List.map association.key v.AsArray :=
      (mem_GetKeys_iff v ⟨hnodup, hmap, hback⟩ key).2 ⟨address, hentry⟩
    rw [SetValue_present v key value address _ hentry hcell]
    unfold written
    rw [if_pos hmem]
    unfold catalog.AsArray
    have hgeneral : ∀ addresses : List Nat, (∀ a ∈ addresses, a ∈ v.associations) →
        addresses.filterMap
            (fun a => (v.cells.set address (⟨key, value⟩ : association K V))[a]?)
          = (addresses.filterMap (fun a => v.cells[a]?)).map
              (fun entry => if entry.key = key then ⟨key, value⟩ else entry) := by
      intro addresses
      induction addresses with
      | nil => intro _; rfl
      | cons a rest ih =>
        intro hall
        obtain ⟨c, hc, hkeyc⟩ := hback a (hall a (List.mem_cons_self _ _))
        have hrest := ih (fun b hb => hall b (List.mem_cons_of_mem _ hb))
        by_cases hsame : address = a
        · subst hsame
          have hnew : (v.cells.set address (⟨key, value⟩ : association K V))[address]?
              = some ⟨key, value⟩ := by simp [List.getElem?_set, hlt]
          rw [List.filterMap_cons, List.filterMap_cons, hrest, hnew, hcell]
          simp
        · have hne : ¬ c.key = key := by
            intro hk
            rw [hk, hentry] at hkeyc
            cases hkeyc
            exact hsame rfl
          have hnew : (v.cells.set address (⟨key, value⟩ : association K V))[a]? = some c := by
            simp [List.getElem?_set, hsame, hc]
          rw [List.filterMap_cons, List.filterMap_cons, hrest, hnew, hc]
          simp [hne]
    exact hgeneral v.associations (fun _ h => h)
  | none =>
    have hmem : key ∉ List.map association.key v.AsArray := by
      intro h
      obtain ⟨a, ha⟩ := (mem_GetKeys_iff v ⟨hnodup, hmap, hback⟩ key).1 h
      rw [hentry] at ha
      cases ha
    rw [SetValue_absent v key value hentry]
    unfold written
    rw [if_neg hmem]
    unfold catalog.AsArray
    rw [List.filterMap_append]
    congr 1
    · apply List.filterMap_congr
      intro a ha
      obtain ⟨c, hc, _⟩ := hback a ha
      rw [List.getElem?_append_left (address_lt_of_cell _ _ _ hc)]
    · simp

end CatalogWrites

section WrittenLemmas

variable {K V : Type} [DecidableEq K]

theorem map_key_replaced (entries : List (association K V)) (key : K) (value : V) :
    (entries.map (fun entry => if entry.key = key then (⟨key, value⟩ : association K V)
      else entry)).map association.key = entries.map association.key := by
  induction entries with
  | nil => rfl
  | cons head rest ih =>
    by_cases h : head.key = key
    · simp [h, ih]
    · simp [h, ih]

theorem written_keys (entries : List (association K V)) (key : K) (value : V)
    (hmem : key ∈ entries.map association.key) :
    (written entries key value).map association.key = entries.map association.key := by
  unfold written
  rw [if_pos hmem]
  exact map_key_replaced entries key value

theorem find_replaced_same (entries : List (association K V)) (key : K) (value : V)
    (hmem : key ∈ entries.map association.key) :
    (entries.map (fun entry => if entry.key = key then (⟨key, value⟩ : association K V)
      else entry)).find? (fun entry => entry.key = key) = some ⟨key, value⟩ := by
  induction entries with
  | nil => simp at hmem
  | cons head rest ih =>
    by_cases h : head.key = key
    · simp [h]
    · have hrest : key ∈ rest.map association.key := by
        rcases List.mem_cons.1 hmem with h1 | h1
        · exact absurd h1.symm h
        · exact h1
      simp [h, ih hrest]

theorem find_replaced_other (entries : List (association K V)) (key other : K) (value : V)
    (hne : other ≠ key) :
    (entries.map (fun entry => if entry.key = key then (⟨key, value⟩ : association K V)
      else entry)).find? (fun entry => entry.key = other)
      = entries.find? (fun entry => entry.key = other) := by
  induction entries with
  | nil => rfl
  | cons head rest ih =>
    by_cases h : head.key = key
    · have h1 : ¬ key = other := fun e => hne e.symm
      have h2 : ¬ head.key = other := by rw [h]; exact h1
      simp [h, h1, h2, ih]
    · rw [List.map_cons, if_neg h]
      by_cases h3 : head.key = other
      · rw [List.find?_cons_of_pos _ (by simpa using h3),
          List.find?_cons_of_pos _ (by simpa using h3)]
      · rw [List.find?_cons_of_neg _ (by simpa using h3),
          List.find?_cons_of_neg _ (by simpa using h3), ih]

variable [Inhabited V]

theorem valueOf_written_same (entries : List (association K V)) (key : K) (value : V) :
    valueOf (written entries key value) key = value := by
  unfold written valueOf
  by_cases hmem : key ∈ entries.map association.key
  · rw [if_pos hmem, find_replaced_same entries key value hmem]
  · rw [if_neg hmem]
    have hnone : entries.find? (fun entry => entry.key = key) = none := by
      rw [List.find?_eq_none]
      intro entry hentry hkey
      exact hmem (List.mem_map.2 ⟨entry, hentry, by simpa using hkey⟩)
    simp [List.find?_append, hnone]

theorem valueOf_written_other (entries : List (association K V)) (key other : K) (value : V)
    (hne : other ≠ key) :
    valueOf (written entries key value) other = valueOf entries other := by
  unfold written valueOf
  by_cases hmem : key ∈ entries.map association.key
  · rw [if_pos hmem, find_replaced_other entries key other value hne]
  · rw [if_neg hmem]
    have h1 : ¬ key = other := fun e => hne e.symm
    cases hfind : entries.find? (fun entry => entry.key = other) with
    | none => simp [List.find?_append, hfind, h1]
    | some entry => simp [List.find?_append, hfind]

end WrittenLemmas

section CatalogClaims

variable {K V : Type} [DecidableEq K] [Inhabited V]

/-- C21: for a catalog in the state its methods keep, `SetValue` on a key the
catalog holds leaves the size and the order of the keys as they are, returns the
value the key had, and afterwards the key has the value written; on a key the
catalog does not hold it adds the association at the end and returns the zero
value; the value of every other key stays as it is, and the state the methods
keep is kept. -/
theorem SetValue_key_uniqueness (v : catalog K V) (hv : v.WellFormed) (key : K) (value : V) :
    (v.SetValue key value).1.WellFormed ∧
      (v.SetValue key value).1.GetValue key = value ∧
      (∀ other, other ≠ key → (v.SetValue key value).1.GetValue other = v.GetValue other) ∧
      (key ∈ v.GetKeys →
        (v.SetValue key value).1.GetSize = v.GetSize ∧
          (v.SetValue key value).1.GetKeys = v.GetKeys ∧
          (v.SetValue key value).2 = v.GetValue key) ∧
      (key ∉ v.GetKeys →
        (v.SetValue key value).1.AsArray = v.AsArray ++ [⟨key, value⟩] ∧
          (v.SetValue key value).1.GetSize = v.GetSize + 1 ∧
          (v.SetValue key value).2 = default) := by
  have hwf := SetValue_WellFormed v hv key value
  have harray := SetValue_AsArray v hv key value
  refine ⟨hwf, ?_, ?_, ?_, ?_⟩
  · rw [GetValue_eq_valueOf _ hwf, harray, valueOf_written_same]
  · intro other hne
    rw [GetValue_eq_valueOf _ hwf, harray, valueOf_written_other _ _ _ _ hne,
      GetValue_eq_valueOf _ hv]
  · intro hmem
    obtain ⟨address, hentry⟩ := (mem_GetKeys_iff v hv key).1 hmem
    obtain ⟨_, old, hcell⟩ := hv.2.1 key address hentry
    refine ⟨?_, ?_, SetValue_returns v key value⟩
    · rw [SetValue_present v key value address _ hentry hcell]
      rfl
    · unfold catalog.GetKeys
      rw [harray]
      exact written_keys _ _ _ hmem
  · intro hmem
    have hentry : entryOf v.keys key = none := by
      cases h : entryOf v.keys key with
      | none => rfl
      | some address => exact absurd ((mem_GetKeys_iff v hv key).2 ⟨address, h⟩) hmem
    refine ⟨?_, ?_, ?_⟩
    · rw [harray]
      unfold written
      exact if_neg hmem
    · rw [SetValue_absent v key value hentry]
      simp [catalog.GetSize]
    · rw [SetValue_absent v key value hentry]

/-- The catalog of the tests with the keys `foo`, `bar` and `baz`: setting `bar`
to 5 keeps the three keys in their order, returns 2, and `bar` then has the
value 5. -/
theorem SetValue_key_uniqueness_witness :
    ((((Catalog : catalog String Int).SetValue "foo" 1).1.SetValue "bar" 2).1.SetValue
        "baz" 3).1.WellFormed ∧
      (((((Catalog : catalog String Int).SetValue "foo" 1).1.SetValue "bar" 2).1.SetValue
        "baz" 3).1.SetValue "bar" 5).1.GetKeys = ["foo", "bar", "baz"] ∧
      (((((Catalog : catalog String Int).SetValue "foo" 1).1.SetValue "bar" 2).1.SetValue
        "baz" 3).1.SetValue "bar" 5).2 = 2 ∧
      (((((Catalog : catalog String Int).SetValue "foo" 1).1.SetValue "bar" 2).1.SetValue
        "baz" 3).1.SetValue "bar" 5).1.GetValue "bar" = 5 := by
  have hempty : (Catalog : catalog String Int).WellFormed :=
    ⟨List.nodup_nil, fun _ _ h => by simp [Catalog, entryOf] at h,
      fun _ h => by simp [Catalog] at h⟩
  have h1 := (SetValue_key_uniqueness _ hempty "foo" 1).1
  have h2 := (SetValue_key_uniqueness _ h1 "bar" 2).1
  have h3 := (SetValue_key_uniqueness _ h2 "baz" 3).1
  have h := SetValue_key_uniqueness _ h3 "bar" 5
  exact ⟨h3, by decide, by decide, h.2.1⟩

end CatalogClaims

section CatalogRemovals

variable {K V : Type} [DecidableEq K] [Inhabited V]

/-- The state after `RemoveValue` on a key the map holds: the address is taken out
of the list and the entry out of the map. -/
theorem RemoveValue_present (v : catalog K V) (key : K) (address : Nat)
    (cell : association K V) (hentry : entryOf v.keys key = some address)
    (hmem : address ∈ v.associations) (hcell : v.cells[address]? = some cell) :
    v.RemoveValue key
      = some ({ v with associations := v.associations.erase address,
                       keys := v.keys.filter (fun entry => entry.1 ≠ key) }, cell.value) := by
  have hlt : v.associations.indexOf address < v.associations.length :=
    List.indexOf_lt_length.2 hmem
  have hremove : list.RemoveItem v.associations (list.GetIndex v.associations address)
      = some (v.associations.erase address) := by
    unfold list.RemoveItem list.GetIndex
    rw [if_pos hmem, if_pos (by constructor <;> omega)]
    simp
  simp only [catalog.RemoveValue, hentry, hremove, hcell]

theorem RemoveValue_absent (v : catalog K V) (key : K) (hentry : entryOf v.keys key = none) :
    v.RemoveValue key = some (v, default) := by
  simp only [catalog.RemoveValue, hentry]

theorem valueOf_filter_ne (entries : List (association K V)) (key other : K) :
    valueOf (entries.filter (fun entry => entry.key ≠ key)) other
      = if other = key then default else valueOf entries other := by
  unfold valueOf
  induction entries with
  | nil => simp
  | cons head rest ih =>
    by_cases h : head.key = key
    · have hfilter : List.filter (fun entry => decide (entry.key ≠ key)) (head :: rest)
          = List.filter (fun entry => decide (entry.key ≠ key)) rest := by
        simp [List.filter_cons, h]
      rw [hfilter, ih]
      by_cases h2 : other = key
      · simp [h2]
      · have h3 : ¬ head.key = other := by rw [h]; exact fun e => h2 e.symm
        rw [if_neg h2, if_neg h2, List.find?_cons_of_neg _ (by simpa using h3)]
    · have hfilter : List.filter (fun entry => decide (entry.key ≠ key)) (head :: rest)
          = head :: List.filter (fun entry => decide (entry.key ≠ key)) rest := by
        simp [List.filter_cons, h]
      rw [hfilter]
      by_cases h3 : head.key = other
      · have h2 : ¬ other = key := by rw [← h3]; exact h
        rw [if_neg h2, List.find?_cons_of_pos _ (by simpa using h3),
          List.find?_cons_of_pos _ (by simpa using h3)]
      · rw [List.find?_cons_of_neg _ (by simpa using h3),
          List.find?_cons_of_neg _ (by simpa using h3)]
        exact ih

/-- What `RemoveValue` does to a catalog in the state its methods keep. -/
theorem RemoveValue_refines (v : catalog K V) (hv : v.WellFormed) (key : K) :
    ∃ after, v.RemoveValue key = some (after, v.GetValue key) ∧ after.WellFormed ∧
      after.AsArray = v.AsArray.filter (fun entry => entry.key ≠ key) ∧
      after.cells = v.cells ∧
      (key ∈ v.GetKeys → after.GetSize = v.GetSize - 1) ∧
      (key ∉ v.GetKeys → after = v) := by
  obtain ⟨hnodup, hmap, hback⟩ := hv
  cases hentry : entryOf v.keys key with
  | none =>
    have hmem : key ∉ v.GetKeys := by
      intro h
      obtain ⟨a, ha⟩ := (mem_GetKeys_iff v ⟨hnodup, hmap, hback⟩ key).1 h
      rw [hentry] at ha
      cases ha
    refine ⟨v, ?_, ⟨hnodup, hmap, hback⟩, ?_, rfl, fun h => absurd h hmem, fun _ => rfl⟩
    · rw [RemoveValue_absent v key hentry]
      simp only [catalog.GetValue, hentry]
    · symm
      rw [List.filter_eq_self]
      intro entry hentry2
      have : entry.key ≠ key := fun e => hmem (List.mem_map.2 ⟨entry, hentry2, e⟩)
      simpa using this
  | some address =>
    obtain ⟨haddress, old, hcell⟩ := hmap key address hentry
    refine ⟨{ v with associations := v.associations.erase address,
                     keys := v.keys.filter (fun entry => entry.1 ≠ key) },
      ?_, ⟨?_, ?_, ?_⟩, ?_, rfl, ?_, ?_⟩
    · rw [RemoveValue_present v key address _ hentry haddress hcell]
      simp only [catalog.GetValue, hentry, hcell]
    · exact hnodup.erase address
    · intro k a hk
      simp only [entryOf_filter_ne] at hk
      by_cases hsame : k = key
      · simp [hsame] at hk
      · rw [if_neg hsame] at hk
        obtain ⟨ha, x, hx⟩ := hmap k a hk
        refine ⟨?_, x, hx⟩
        have hne : a ≠ address := by
          intro e
          subst e
          rw [hcell] at hx
          cases hx
          exact hsame rfl
        exact (List.mem_erase_of_ne hne).2 ha
    · intro a ha
      have ha1 : a ∈ v.associations := List.mem_of_mem_erase ha
      have hne : a ≠ address := by
        intro e
        subst e
        exact (List.Nodup.not_mem_erase hnodup) ha
      obtain ⟨c, hc, hkeyc⟩ := hback a ha1
      refine ⟨c, hc, ?_⟩
      simp only [entryOf_filter_ne]
      have : ¬ c.key = key := by
        intro e
        rw [e, hentry] at hkeyc
        cases hkeyc
        exact hne rfl
      rw [if_neg this]
      exact hkeyc
    · show (v.associations.erase address).filterMap (fun a => v.cells[a]?) = _
      rw [List.Nodup.erase_eq_filter hnodup]
      have hgeneral : ∀ addresses : List Nat, (∀ a ∈ addresses, a ∈ v.associations) →
          (addresses.filter (fun a => a != address)).filterMap (fun a => v.cells[a]?)
            = (addresses.filterMap (fun a => v.cells[a]?)).filter
                (fun entry => entry.key ≠ key) := by
        intro addresses
        induction addresses with
        | nil => intro _; rfl
        | cons a rest ih =>
          intro hall
          obtain ⟨c, hc, hkeyc⟩ := hback a (hall a (List.mem_cons_self _ _))
          have hrest := ih (fun b hb => hall b (List.mem_cons_of_mem _ hb))
          by_cases hsame : a = address
          · subst hsame
            rw [hcell] at hc
            cases hc
            simp [List.filter_cons, hcell, hrest]
          · have hne : ¬ c.key = key := by
              intro e
              rw [e, hentry] at hkeyc
              cases hkeyc
              exact hsame rfl
            simp [List.filter_cons, hsame, hc, hrest, hne]
      exact hgeneral v.associations (fun _ h => h)
    · intro _
      show ((v.associations.erase address).length : Int) = (v.associations.length : Int) - 1
      rw [List.length_erase_of_mem haddress]
      have : 0 < v.associations.length := List.length_pos_of_mem haddress
      omega
    · intro hmem
      exact absurd ((mem_GetKeys_iff v ⟨hnodup, hmap, hback⟩ key).2 ⟨address, hentry⟩) hmem

end CatalogRemovals

section CatalogRemovalClaims

variable {K V : Type} [DecidableEq K] [Inhabited V]

/-- What `RemoveValues` does to a catalog in the state its methods keep. -/
theorem RemoveValues_refines (keys : List K) :
    ∀ v : catalog K V, v.WellFormed →
      ∃ after values, v.RemoveValues keys = some (after, values) ∧ after.WellFormed ∧
        values.length = keys.length ∧
        after.AsArray = v.AsArray.filter (fun entry => entry.key ∉ keys) ∧
        (keys.Nodup → values = keys.map v.GetValue) := by
  induction keys with
  | nil =>
    intro v hv
    exact ⟨v, [], rfl, hv, rfl, by simp, fun _ => rfl⟩
  | cons key rest ih =>
    intro v hv
    obtain ⟨v1, hremove, hwf1, harray1, _, _, _⟩ := RemoveValue_refines v hv key
    obtain ⟨v2, values, hrest, hwf2, hlength, harray2, hvalues⟩ := ih v1 hwf1
    refine ⟨v2, v.GetValue key :: values, ?_, hwf2, by simp [hlength], ?_, ?_⟩
    · simp only [catalog.RemoveValues, hremove, hrest]
    · rw [harray2, harray1, List.filter_filter]
      apply List.filter_congr
      intro entry _
      by_cases h1 : entry.key = key <;> by_cases h2 : entry.key ∈ rest <;> simp [h1, h2]
    · intro hnodup
      obtain ⟨hnot, hnodup2⟩ := List.nodup_cons.1 hnodup
      rw [hvalues hnodup2, List.map_cons]
      congr 1
      apply List.map_congr_left
      intro other hother
      have hne : other ≠ key := fun e => hnot (e ▸ hother)
      rw [GetValue_eq_valueOf v1 hwf1, harray1, valueOf_filter_ne, if_neg hne,
        GetValue_eq_valueOf v hv]

/-- C22: for a catalog in the state its methods keep, `RemoveValue` returns the
value of the key and leaves the associations with every other key in their
order: on a key the catalog holds the size decreases by one and the key then has
the zero value, on any other key nothing changes and the zero value is
returned; `RemoveValues` returns one value for each given key, in the order of
the given keys. -/
theorem RemoveValue_removes_association (v : catalog K V) (hv : v.WellFormed) (key : K)
    (keys : List K) :
    (∃ after, v.RemoveValue key = some (after, v.GetValue key) ∧ after.WellFormed ∧
      after.AsArray = v.AsArray.filter (fun entry => entry.key ≠ key) ∧
      after.GetValue key = default ∧
      (∀ other, other ≠ key → after.GetValue other = v.GetValue other) ∧
      (key ∈ v.GetKeys → after.GetSize = v.GetSize - 1) ∧
      (key ∉ v.GetKeys → after = v ∧ v.GetValue key = default)) ∧
    (∃ after values, v.RemoveValues keys = some (after, values) ∧ after.WellFormed ∧
      values.length = keys.length ∧
      after.AsArray = v.AsArray.filter (fun entry => entry.key ∉ keys) ∧
      (keys.Nodup → values = keys.map v.GetValue)) := by
  refine ⟨?_, RemoveValues_refines keys v hv⟩
  obtain ⟨after, hremove, hwf, harray, _, hsize, hsame⟩ := RemoveValue_refines v hv key
  have hzero : after.GetValue key = default := by
    rw [GetValue_eq_valueOf after hwf, harray, valueOf_filter_ne, if_pos rfl]
  refine ⟨after, hremove, hwf, harray, hzero, ?_, hsize, ?_⟩
  · intro other hne
    rw [GetValue_eq_valueOf after hwf, harray, valueOf_filter_ne, if_neg hne,
      GetValue_eq_valueOf v hv]
  · intro hmem
    have h := hsame hmem
    exact ⟨h, h ▸ hzero⟩

end CatalogRemovalClaims

section CatalogLibrary

theorem Catalog_WellFormed {K V : Type} [DecidableEq K] : (Catalog : catalog K V).WellFormed :=
  ⟨List.nodup_nil, fun _ _ h => by simp [Catalog, entryOf] at h,
    fun _ h => by simp [Catalog] at h⟩

variable {K V : Type} [DecidableEq K] [Inhabited V]

theorem SetValue_GetKeys (v : catalog K V) (hv : v.WellFormed) (key : K) (value : V) :
    (v.SetValue key value).1.GetKeys
      = if key ∈ v.GetKeys then v.GetKeys else v.GetKeys ++ [key] := by
  unfold catalog.GetKeys
  rw [SetValue_AsArray v hv]
  by_cases hmem : key ∈ v.AsArray.map association.key
  · rw [if_pos hmem, written_keys _ _ _ hmem]
  · rw [if_neg hmem]
    unfold written
    rw [if_neg hmem]
    simp

theorem SetValue_GetValue (v : catalog K V) (hv : v.WellFormed) (key : K) (value : V)
    (other : K) :
    (v.SetValue key value).1.GetValue other
      = if other = key then value else v.GetValue other := by
  rw [GetValue_eq_valueOf _ (SetValue_WellFormed v hv key value), SetValue_AsArray v hv]
  by_cases h : other = key
  · subst h
    rw [if_pos rfl, valueOf_written_same]
  · rw [if_neg h, valueOf_written_other _ _ _ _ h, GetValue_eq_valueOf v hv]

theorem GetValue_of_not_mem (v : catalog K V) (hv : v.WellFormed) (key : K)
    (hmem : key ∉ v.GetKeys) : v.GetValue key = default := by
  have hentry : entryOf v.keys key = none := by
    cases h : entryOf v.keys key with
    | none => rfl
    | some address => exact absurd ((mem_GetKeys_iff v hv key).2 ⟨address, h⟩) hmem
  simp only [catalog.GetValue, hentry]

/-- An association of a catalog in the state its methods keep is the key with the
value `GetValue` gives for it. -/
theorem mem_AsArray_iff_GetValue (v : catalog K V) (hv : v.WellFormed)
    (entry : association K V) :
    entry ∈ v.AsArray ↔ entry.key ∈ v.GetKeys ∧ v.GetValue entry.key = entry.value := by
  constructor
  · intro hmem
    refine ⟨List.mem_map_of_mem _ hmem, ?_⟩
    rw [GetValue_eq_valueOf v hv]
    unfold valueOf
    rw [find_of_mem_of_nodup v.AsArray (GetKeys_nodup v hv) entry hmem]
  · rintro ⟨hkey, hvalue⟩
    obtain ⟨other, hother, hsame⟩ := List.mem_map.1 hkey
    have h := find_of_mem_of_nodup v.AsArray (GetKeys_nodup v hv) other hother
    rw [GetValue_eq_valueOf v hv] at hvalue
    unfold valueOf at hvalue
    rw [← hsame, h] at hvalue
    have : other = entry := by
      cases other
      cases entry
      simp only [association.mk.injEq]
      exact ⟨hsame, hvalue⟩
    exact this ▸ hother

/-- What `AddAssociations` does to a catalog in the state its methods keep, for
associations with distinct keys. -/
theorem AddAssociations_refines (items : List (association K V)) :
    ∀ v : catalog K V, v.WellFormed → (items.map association.key).Nodup →
      (v.AddAssociations items).WellFormed ∧
        (v.AddAssociations items).GetKeys
          = v.GetKeys ++ (items.map association.key).filter (fun key => key ∉ v.GetKeys) ∧
        (∀ key, (v.AddAssociations items).GetValue key
          = if key ∈ items.map association.key then valueOf items key else v.GetValue key) := by
  induction items with
  | nil =>
    intro v hv _
    exact ⟨hv, by simp [catalog.AddAssociations], fun key => by simp [catalog.AddAssociations]⟩
  | cons item rest ih =>
    intro v hv hnodup
    obtain ⟨hnot, hnodup2⟩ := List.nodup_cons.1 hnodup
    have hwf1 := SetValue_WellFormed v hv item.key item.value
    obtain ⟨hwf, hkeys, hvalues⟩ := ih (v.SetValue item.key item.value).1 hwf1 hnodup2
    have hstep : v.AddAssociations (item :: rest)
        = (v.SetValue item.key item.value).1.AddAssociations rest := rfl
    rw [hstep]
    refine ⟨hwf, ?_, ?_⟩
    · rw [hkeys, SetValue_GetKeys v hv]
      by_cases hmem : item.key ∈ v.GetKeys
      · rw [if_pos hmem]
        simp [List.filter_cons, hmem]
      · rw [if_neg hmem]
        have hfilter : List.filter (fun key => decide (key ∉ v.GetKeys ++ [item.key]))
            (List.map association.key rest)
            = List.filter (fun key => decide (key ∉ v.GetKeys)) (List.map association.key rest) := by
          apply List.filter_congr
          intro key hkey
          have : key ≠ item.key := fun e => hnot (e ▸ hkey)
          simp [this]
        rw [hfilter]
        simp [List.filter_cons, hmem]
    · intro key
      rw [hvalues, SetValue_GetValue v hv]
      by_cases hsame : key = item.key
      · subst hsame
        rw [if_neg hnot, if_pos rfl]
        simp [valueOf]
      · have hne : ¬ item.key = key := fun e => hsame e.symm
        by_cases hmem : key ∈ rest.map association.key
        · have hmem2 : key ∈ List.map association.key (item :: rest) :=
            List.mem_cons_of_mem _ hmem
          rw [if_pos hmem, if_pos hmem2]
          simp [valueOf, List.find?_cons, hne]
        · have hmem2 : key ∉ List.map association.key (item :: rest) := by
            simp only [List.map_cons, List.mem_cons, not_or]
            exact ⟨hsame, hmem⟩
          rw [if_neg hmem, if_neg hsame, if_neg hmem2]

end CatalogLibrary

section HeapLemmas

variable {α : Type}

theorem mutate_fresh (heap : List α) (object : α) (method : α → α) :
    mutate (heap ++ [object]) heap.length (fun r => some (method r))
      = some (heap ++ [method object]) := by
  simp [mutate]

theorem getElem?_append_of_some (heap : List α) (address : Nat) (object other : α)
    (h : heap[address]? = some object) : (heap ++ [other])[address]? = some object := by
  rw [List.getElem?_append_left (address_lt_of_cell _ _ _ h)]
  exact h

end HeapLemmas

section MergeClaims

variable {K V : Type} [DecidableEq K] [Inhabited V]

/-- C23 (the claim as amended): for two catalogs in the state their methods keep,
`Merge` returns a new catalog whose keys are the keys of the first in their
order followed by the keys of the second that the first does not hold, in their
order; a key of the second has the value it has in the second, any other key the
value it has in the first, so the result holds every association of the second
and every association of the first whose key the second does not hold; the two
catalogs given are as they were. -/
theorem Merge_last_write_wins (heap : List (catalog K V)) (first second : Nat)
    (a b : catalog K V) (ha : heap[first]? = some a) (hb : heap[second]? = some b)
    (hwa : a.WellFormed) (hwb : b.WellFormed) :
    ∃ result, catalogs.Merge heap first second = some (heap ++ [result], heap.length) ∧
      result.WellFormed ∧
      result.GetKeys = a.GetKeys ++ b.GetKeys.filter (fun key => key ∉ a.GetKeys) ∧
      (∀ key, result.GetValue key
        = if key ∈ b.GetKeys then b.GetValue key else a.GetValue key) ∧
      (∀ entry, entry ∈ result.AsArray ↔
        entry ∈ b.AsArray ∨ (entry ∈ a.AsArray ∧ entry.key ∉ b.GetKeys)) ∧
      (heap ++ [result])[first]? = some a ∧ (heap ++ [result])[second]? = some b ∧
      heap[heap.length]? = none := by
  obtain ⟨hw1, hk1, hv1⟩ := AddAssociations_refines a.AsArray (Catalog : catalog K V)
    Catalog_WellFormed (GetKeys_nodup a hwa)
  obtain ⟨hw2, hk2, hv2⟩ := AddAssociations_refines b.AsArray
    ((Catalog : catalog K V).AddAssociations a.AsArray) hw1 (GetKeys_nodup b hwb)
  have hkeys1 : ((Catalog : catalog K V).AddAssociations a.AsArray).GetKeys = a.GetKeys := by
    rw [hk1]
    simp [catalog.GetKeys, Catalog, catalog.AsArray]
  have hvalues1 : ∀ key, ((Catalog : catalog K V).AddAssociations a.AsArray).GetValue key
      = a.GetValue key := by
    intro key
    rw [hv1]
    by_cases hmem : key ∈ a.AsArray.map association.key
    · rw [if_pos hmem, GetValue_eq_valueOf a hwa]
    · rw [if_neg hmem, GetValue_of_not_mem a hwa key hmem]
      rfl
  have hvalues : ∀ key,
      (((Catalog : catalog K V).AddAssociations a.AsArray).AddAssociations b.AsArray).GetValue key
        = if key ∈ b.GetKeys then b.GetValue key else a.GetValue key := by
    intro key
    rw [hv2, hvalues1, GetValue_eq_valueOf b hwb]
    rfl
  have hkeys :
      (((Catalog : catalog K V).AddAssociations a.AsArray).AddAssociations b.AsArray).GetKeys
        = a.GetKeys ++ b.GetKeys.filter (fun key => key ∉ a.GetKeys) := by
    rw [hk2, hkeys1]
    rfl
  refine ⟨((Catalog : catalog K V).AddAssociations a.AsArray).AddAssociations b.AsArray,
    ?_, hw2, hkeys, hvalues, ?_, getElem?_append_of_some _ _ _ _ ha,
    getElem?_append_of_some _ _ _ _ hb, by simp⟩
  · unfold catalogs.Merge
    simp only [getElem?_append_of_some _ _ _ _ ha, mutate_fresh,
      getElem?_append_of_some _ _ _ _ hb]
  · intro entry
    rw [mem_AsArray_iff_GetValue _ hw2, hkeys, hvalues, mem_AsArray_iff_GetValue b hwb,
      mem_AsArray_iff_GetValue a hwa]
    by_cases hmem : entry.key ∈ b.GetKeys
    · simp only [hmem, if_true, List.mem_append, List.mem_filter, true_and, not_true_eq_false,
        and_false, or_false, decide_not, Bool.not_eq_true', decide_eq_false_iff_not]
      constructor
      · exact fun h => h.2
      · exact fun h => ⟨Classical.em _, h⟩
    · simp [hmem]

end MergeClaims

section ExtractClaims

variable {K V : Type} [DecidableEq K] [Inhabited V]

theorem AddAssociations_WellFormed (items : List (association K V)) :
    ∀ v : catalog K V, v.WellFormed → (v.AddAssociations items).WellFormed := by
  induction items with
  | nil => exact fun _ hv => hv
  | cons item rest ih =>
    intro v hv
    exact ih _ (SetValue_WellFormed v hv item.key item.value)

theorem catalogOf_WellFormed (items : List (association K V)) : (catalogOf items).WellFormed :=
  AddAssociations_WellFormed items _ Catalog_WellFormed

/-- The catalog `Merge` returns for a first catalog with `bar` as 2 and a second
with `bar` as 5 holds `bar` as 5 only: the association of the first catalog is
not in it. -/
theorem Merge_drops_first_value :
    catalogs.Merge [catalogOf [(⟨"bar", 2⟩ : association String Int)], catalogOf [⟨"bar", 5⟩]] 0 1
        = some ([catalogOf [⟨"bar", 2⟩], catalogOf [⟨"bar", 5⟩], catalogOf [⟨"bar", 5⟩]], 2) ∧
      (catalogOf [(⟨"bar", 5⟩ : association String Int)]).AsArray = [⟨"bar", 5⟩] ∧
      (⟨"bar", 2⟩ : association String Int) ∈ (catalogOf [⟨"bar", 2⟩]).AsArray ∧
      (⟨"bar", 2⟩ : association String Int) ∉ (catalogOf [⟨"bar", 5⟩]).AsArray := by
  refine ⟨by decide, by decide, by decide, by decide⟩

/-- The catalogs of the tests: `foo`, `bar` merged with `bar`, `baz` gives the keys
`foo`, `bar`, `baz`, and the two catalogs are as they were. -/
theorem Merge_last_write_wins_witness :
    ∃ result,
      catalogs.Merge
          [catalogOf [(⟨"foo", 1⟩ : association String Int), ⟨"bar", 2⟩],
            catalogOf [⟨"bar", 2⟩, ⟨"baz", 3⟩]] 0 1
        = some ([catalogOf [⟨"foo", 1⟩, ⟨"bar", 2⟩], catalogOf [⟨"bar", 2⟩, ⟨"baz", 3⟩]]
            ++ [result], 2) ∧
      result.GetKeys = ["foo", "bar", "baz"] := by
  obtain ⟨result, hmerge, _, hkeys, _⟩ := Merge_last_write_wins
    [catalogOf [(⟨"foo", 1⟩ : association String Int), ⟨"bar", 2⟩],
      catalogOf [⟨"bar", 2⟩, ⟨"baz", 3⟩]] 0 1 _ _ rfl rfl
    (catalogOf_WellFormed _) (catalogOf_WellFormed _)
  exact ⟨result, hmerge, hkeys.trans (by decide)⟩

/-- The loop of `Extract` on a new result catalog. -/
theorem extractLoop_fresh (heap : List (catalog K V)) (source : Nat) (c : catalog K V)
    (hc : heap[source]? = some c) (keys : List K) :
    ∀ r : catalog K V, catalogs.extractLoop (heap ++ [r]) source heap.length keys
      = some (heap ++ [keys.foldl (fun r key => (r.SetValue key (c.GetValue key)).1) r]) := by
  induction keys with
  | nil => exact fun _ => rfl
  | cons key rest ih =>
    intro r
    simp only [catalogs.extractLoop, getElem?_append_of_some _ _ _ _ hc, mutate_fresh,
      List.foldl_cons]
    exact ih _

/-- The catalog the loop of `Extract` leaves: every given key is a key of it, with
the value the catalog given has for it. -/
theorem extract_fold (c : catalog K V) (keys : List K) :
    ∀ r : catalog K V, r.WellFormed →
      (keys.foldl (fun r key => (r.SetValue key (c.GetValue key)).1) r).WellFormed ∧
        (∀ key, key ∈ keys →
          key ∈ (keys.foldl (fun r key => (r.SetValue key (c.GetValue key)).1) r).GetKeys ∧
          (keys.foldl (fun r key => (r.SetValue key (c.GetValue key)).1) r).GetValue key
            = c.GetValue key) ∧
        (∀ key, key ∉ keys →
          (key ∈ r.GetKeys →
            key ∈ (keys.foldl (fun r key => (r.SetValue key (c.GetValue key)).1) r).GetKeys) ∧
          (keys.foldl (fun r key => (r.SetValue key (c.GetValue key)).1) r).GetValue key
            = r.GetValue key) := by
  induction keys with
  | nil =>
    intro r hr
    exact ⟨hr, fun _ h => absurd h (List.not_mem_nil _), fun _ _ => ⟨fun h => h, rfl⟩⟩
  | cons head rest ih =>
    intro r hr
    have hw1 := SetValue_WellFormed r hr head (c.GetValue head)
    obtain ⟨hw, hin, hout⟩ := ih _ hw1
    have hkeys1 := SetValue_GetKeys r hr head (c.GetValue head)
    have hvalue1 := SetValue_GetValue r hr head (c.GetValue head)
    have hhead1 : head ∈ (r.SetValue head (c.GetValue head)).1.GetKeys := by
      rw [hkeys1]
      split_ifs with h
      · exact h
      · simp
    refine ⟨hw, ?_, ?_⟩
    · intro key hkey
      by_cases hrest : key ∈ rest
      · exact hin key hrest
      · have hsame : key = head := by
          rcases List.mem_cons.1 hkey with h | h
          · exact h
          · exact absurd h hrest
        subst hsame
        refine ⟨(hout key hrest).1 hhead1, ?_⟩
        rw [List.foldl_cons, (hout key hrest).2, hvalue1, if_pos rfl]
    · intro key hkey
      have hne : key ≠ head := fun e => hkey (e ▸ List.mem_cons_self _ _)
      have hrest : key ∉ rest := fun h => hkey (List.mem_cons_of_mem _ h)
      refine ⟨?_, ?_⟩
      · intro hmem
        apply (hout key hrest).1
        rw [hkeys1]
        split_ifs
        · exact hmem
        · exact List.mem_append_left _ hmem
      · rw [List.foldl_cons, (hout key hrest).2, hvalue1, if_neg hne]

/-- C24 (the code departs from the claim): for a given key that the catalog does
not hold, the catalog `Extract` returns holds the association of this key with
the zero value, which is no association of the catalog given. -/
theorem Extract_adds_absent_key (heap : List (catalog K V)) (source : Nat) (c : catalog K V)
    (hc : heap[source]? = some c) (hw : c.WellFormed) (keys : List K) (key : K)
    (hkey : key ∈ keys) (habsent : key ∉ c.GetKeys) :
    ∃ result, catalogs.Extract heap source keys = some (heap ++ [result], heap.length) ∧
      (⟨key, default⟩ : association K V) ∈ result.AsArray ∧
      (⟨key, default⟩ : association K V) ∉ c.AsArray := by
  obtain ⟨hwf, hin, _⟩ := extract_fold c keys (Catalog : catalog K V) Catalog_WellFormed
  refine ⟨keys.foldl (fun r key => (r.SetValue key (c.GetValue key)).1) Catalog, ?_, ?_, ?_⟩
  · unfold catalogs.Extract
    simp only [extractLoop_fresh heap source c hc keys]
  · rw [mem_AsArray_iff_GetValue _ hwf]
    exact ⟨(hin key hkey).1, (hin key hkey).2.trans (GetValue_of_not_mem c hw key habsent)⟩
  · intro hmem
    exact habsent (List.mem_map_of_mem association.key hmem)

/-- For the catalog that holds `foo` as 1 and the given key `qux`, the result holds
`qux` with the value 0. -/
theorem Extract_adds_absent_key_witness :
    catalogs.Extract [catalogOf [(⟨"foo", 1⟩ : association String Int)]] 0 ["qux"]
        = some ([catalogOf [⟨"foo", 1⟩], catalogOf [⟨"qux", 0⟩]], 1) ∧
      (catalogOf [(⟨"qux", 0⟩ : association String Int)]).AsArray = [⟨"qux", 0⟩] ∧
      ∃ result,
        catalogs.Extract [catalogOf [(⟨"foo", 1⟩ : association String Int)]] 0 ["qux"]
          = some ([catalogOf [⟨"foo", 1⟩]] ++ [result], 1) ∧
        (⟨"qux", default⟩ : association String Int) ∈ result.AsArray ∧
        (⟨"qux", default⟩ : association String Int) ∉ (catalogOf [⟨"foo", 1⟩]).AsArray :=
  ⟨by decide, by decide,
    Extract_adds_absent_key [catalogOf [(⟨"foo", 1⟩ : association String Int)]] 0 _ rfl
      (catalogOf_WellFormed _) ["qux"] "qux" (by decide) (by decide)⟩

/-- The catalog of the tests with `foo` as 1, `bar` as 5 and `baz` as 3: removing
`foo` and `bar` returns 1 and 5 and leaves `baz`, and removing `baz` returns 3. -/
theorem RemoveValue_removes_association_witness :
    (catalogOf [(⟨"foo", 1⟩ : association String Int), ⟨"bar", 5⟩, ⟨"baz", 3⟩]).WellFormed ∧
      ((catalogOf [(⟨"foo", 1⟩ : association String Int), ⟨"bar", 5⟩, ⟨"baz", 3⟩]).RemoveValues
          ["foo", "bar"]).map (fun r => (r.1.GetKeys, r.2)) = some (["baz"], [1, 5]) ∧
      ((catalogOf [(⟨"foo", 1⟩ : association String Int), ⟨"bar", 5⟩, ⟨"baz", 3⟩]).RemoveValue
          "baz").map (fun r => (r.1.GetKeys, r.2)) = some (["foo", "bar"], 3) ∧
      ∃ after values,
        (catalogOf [(⟨"foo", 1⟩ : association String Int), ⟨"bar", 5⟩, ⟨"baz", 3⟩]).RemoveValues
          ["foo", "bar"] = some (after, values) ∧
        after.WellFormed ∧ values.length = 2 :=
  ⟨catalogOf_WellFormed _, by decide, by decide,
    match (RemoveValue_removes_association
      (catalogOf [(⟨"foo", 1⟩ : association String Int), ⟨"bar", 5⟩, ⟨"baz", 3⟩])
      (catalogOf_WellFormed _) "baz" ["foo", "bar"]).2 with
    | ⟨after, values, h1, h2, h3, _⟩ => ⟨after, values, h1, h2, h3⟩⟩

end ExtractClaims

section Rankings

variable {T : Type} {rank : T → T → Int}

theorem IsRanking.self (hr : IsRanking rank) (x : T) : rank x x = 0 := by
  rcases hr.values x x with h | h | h
  · have := (hr.flip x x).1 h
    omega
  · exact h
  · have := (hr.flip x x).2 h
    omega

theorem IsRanking.symm (hr : IsRanking rank) (x y : T) (h : rank x y = 0) : rank y x = 0 := by
  rcases hr.values y x with h1 | h1 | h1
  · have := (hr.flip y x).1 h1
    omega
  · exact h1
  · have := (hr.flip x y).2 h1
    omega

theorem IsRanking.below_of_below_of_not_above (hr : IsRanking rank) (a b c : T)
    (h1 : rank a b = -1) (h2 : rank b c ≠ 1) : rank a c = -1 := by
  have h3 : rank a c ≠ 1 := hr.trans a b c (by omega) h2
  rcases hr.values a c with h | h | h
  · exact h
  · have h4 : rank c a ≠ 1 := by
      have := hr.symm a c h
      omega
    have h5 := hr.trans b c a h2 h4
    have h6 := (hr.flip a b).1 h1
    exact absurd h6 h5
  · exact absurd h h3

theorem IsRanking.below_of_not_above_of_below (hr : IsRanking rank) (a b c : T)
    (h1 : rank a b ≠ 1) (h2 : rank b c = -1) : rank a c = -1 := by
  have h3 : rank a c ≠ 1 := hr.trans a b c h1 (by omega)
  rcases hr.values a c with h | h | h
  · exact h
  · have h4 : rank c a ≠ 1 := by
      have := hr.symm a c h
      omega
    have h5 := hr.trans c a b h4 h1
    have h6 := (hr.flip b c).1 h2
    exact absurd h6 h5
  · exact absurd h h3

theorem IsRanking.above_iff (hr : IsRanking rank) (x y : T) : rank x y = 1 ↔ rank y x = -1 :=
  (hr.flip y x).symm

theorem rankIntegers_natural : IsNatural rankIntegers := by
  refine ⟨⟨?_, ?_, ?_⟩, ?_⟩
  · intro x y
    unfold rankIntegers
    split_ifs <;> simp
  · intro x y
    unfold rankIntegers
    constructor <;> intro h <;> split_ifs at h ⊢ <;> first | rfl | omega
  · intro x y z h1 h2
    unfold rankIntegers at h1 h2 ⊢
    split_ifs at h1 h2 ⊢ <;> omega
  · intro x y h
    unfold rankIntegers at h
    split_ifs at h <;> omega

end Rankings

section Search

variable {T : Type}

theorem sorted_getElem? (v : set T) (hs : v.Sorted) (i j : Nat) (c d : T) (hij : i < j)
    (hc : v.items[i]? = some c) (hd : v.items[j]? = some d) : v.rank c d = -1 := by
  obtain ⟨hi, rfl⟩ := List.getElem?_eq_some.1 hc
  obtain ⟨hj, rfl⟩ := List.getElem?_eq_some.1 hd
  exact (List.pairwise_iff_getElem.1 hs) i j hi hj hij

/-- The loop of `search` on a sorted set, from a state in which the items before
`first` rank below the item and the items after `last` rank above it. -/
theorem searchLoop_spec (v : set T) (hr : IsRanking v.rank) (hs : v.Sorted) (item : T) :
    ∀ (fuel : Nat) (first last size : Int),
      size ≤ fuel → 1 ≤ first → last ≤ v.items.length → size = last - first + 1 → 0 ≤ size →
      (∀ (i : Nat) (c : T), (i : Int) < first - 1 → v.items[i]? = some c → v.rank item c = 1) →
      (∀ (i : Nat) (c : T), last ≤ (i : Int) → v.items[i]? = some c → v.rank item c = -1) →
      ∃ slot found, v.searchLoop item fuel first last size = some (slot, found) ∧
        0 ≤ slot ∧ slot ≤ v.items.length ∧
        (found = true →
          1 ≤ slot ∧ ∃ c, v.items[(slot - 1).toNat]? = some c ∧ v.rank item c = 0) ∧
        (found = false →
          (∀ (i : Nat) (c : T), (i : Int) < slot → v.items[i]? = some c → v.rank item c = 1) ∧
          (∀ (i : Nat) (c : T), slot ≤ (i : Int) → v.items[i]? = some c →
            v.rank item c = -1)) := by
  intro fuel
  induction fuel with
  | zero =>
    intro first last size hfuel hfirst hlast hsize hnonneg hbelow habove
    have hzero : size = 0 := by omega
    refine ⟨last, false, by simp [set.searchLoop, hzero], by omega, hlast, by simp, ?_⟩
    intro _
    exact ⟨fun i c hi => hbelow i c (by omega), habove⟩
  | succ fuel ih =>
    intro first last size hfuel hfirst hlast hsize hnonneg hbelow habove
    by_cases hpos : 0 < size
    · have hmiddle1 : first ≤ first + size / 2 := by omega
      have hmiddle2 : first + size / 2 ≤ last := by omega
      have hindex : (first + size / 2 - 1).toNat < v.items.length := by omega
      have hget : v.GetItem (first + size / 2)
          = some (v.items[(first + size / 2 - 1).toNat]) := by
        unfold set.GetItem list.GetItem
        rw [if_pos (by omega), List.get?_eq_getElem?, List.getElem?_eq_getElem hindex]
      have hcandidate : v.items[(first + size / 2 - 1).toNat]?
          = some (v.items[(first + size / 2 - 1).toNat]) := List.getElem?_eq_getElem hindex
      simp only [set.searchLoop, hpos, if_true, hget]
      rcases hr.values item (v.items[(first + size / 2 - 1).toNat]) with h | h | h
      · rw [if_pos h]
        apply ih
        · omega
        · exact hfirst
        · omega
        · omega
        · omega
        · exact hbelow
        · intro i c hi hc
          by_cases hsame : i = (first + size / 2 - 1).toNat
          · subst hsame
            rw [hcandidate] at hc
            cases hc
            exact h
          · have := sorted_getElem? v hs _ i _ c (by omega) hcandidate hc
            exact hr.below_of_below_of_not_above _ _ _ h (by omega)
      · rw [if_neg (by omega), if_pos h]
        refine ⟨_, true, rfl, by omega, by omega, fun _ => ⟨by omega, _, ?_, h⟩, by simp⟩
        exact hcandidate
      · rw [if_neg (by omega), if_neg (by omega), if_pos h]
        apply ih
        · omega
        · omega
        · exact hlast
        · omega
        · omega
        · intro i c hi hc
          by_cases hsame : i = (first + size / 2 - 1).toNat
          · subst hsame
            rw [hcandidate] at hc
            cases hc
            exact h
          · have h1 := sorted_getElem? v hs i _ c _ (by omega) hc hcandidate
            have h2 : v.rank (v.items[(first + size / 2 - 1).toNat]) item = -1 :=
              (hr.above_iff _ _).1 h
            have h3 := hr.below_of_below_of_not_above _ _ _ h1 (by omega : v.rank _ item ≠ 1)
            exact (hr.above_iff _ _).2 h3
        · exact habove
    · have hzero : size = 0 := by omega
      refine ⟨last, false, by simp [set.searchLoop, hzero], by omega, hlast, by simp, ?_⟩
      intro _
      exact ⟨fun i c hi => hbelow i c (by omega), habove⟩

end Search

section SearchBudget

variable {T : Type}

/-- The iterations `search` gives its loop are enough: when the ranking function
returns -1, 0 or 1 only, the loop started on `size` candidates between `first`
and `last` returns the same with every budget of at least `size` iterations. -/
theorem searchLoop_fuel_enough (v : set T)
    (hvalues : ∀ x y, v.rank x y = -1 ∨ v.rank x y = 0 ∨ v.rank x y = 1) (item : T) :
    ∀ (fuel more : Nat) (first last size : Int),
      size ≤ fuel → 1 ≤ first → last ≤ v.items.length → size = last - first + 1 →
      v.searchLoop item (fuel + more) first last size = v.searchLoop item fuel first last size ∧
        ∃ result, v.searchLoop item fuel first last size = some result := by
  intro fuel
  induction fuel with
  | zero =>
    intro more first last size hfuel _ _ _
    have hnot : ¬ 0 < size := by omega
    cases more with
    | zero => exact ⟨rfl, (last, false), by simp [set.searchLoop, hnot]⟩
    | succ more =>
      exact ⟨by simp [set.searchLoop, hnot], (last, false), by simp [set.searchLoop, hnot]⟩
  | succ fuel ih =>
    intro more first last size hfuel hfirst hlast hsize
    have hsucc : fuel + 1 + more = (fuel + more) + 1 := by omega
    rw [hsucc]
    by_cases hpos : 0 < size
    · have hindex : (first + size / 2 - 1).toNat < v.items.length := by omega
      have hget : v.GetItem (first + size / 2)
          = some (v.items[(first + size / 2 - 1).toNat]) := by
        unfold set.GetItem list.GetItem
        rw [if_pos (by omega), List.get?_eq_getElem?, List.getElem?_eq_getElem hindex]
      simp only [set.searchLoop, hpos, if_true, hget]
      rcases hvalues item (v.items[(first + size / 2 - 1).toNat]) with h | h | h
      · rw [if_pos h, if_pos h]
        exact ih more first _ _ (by omega) hfirst (by omega) (by omega)
      · rw [if_neg (by omega), if_pos h, if_neg (by omega), if_pos h]
        exact ⟨rfl, _, rfl⟩
      · rw [if_neg (by omega), if_neg (by omega), if_pos h, if_neg (by omega),
          if_neg (by omega), if_pos h]
        exact ih more _ last _ (by omega) (by omega) hlast (by omega)
    · simp only [set.searchLoop, hpos, if_false]
      exact ⟨trivial, _, rfl⟩

end SearchBudget

section SearchClaims

variable {T : Type}

/-- What `search` returns on a sorted set: with `found` the index of an item that
ranks equal, and otherwise the slot after the items that rank below and before
the items that rank above. -/
theorem search_spec (v : set T) (hr : IsRanking v.rank) (hs : v.Sorted) (item : T) :
    ∃ slot found, v.search item = some (slot, found) ∧ 0 ≤ slot ∧ slot ≤ v.items.length ∧
      (found = true →
        1 ≤ slot ∧ ∃ c, v.items[(slot - 1).toNat]? = some c ∧ v.rank item c = 0) ∧
      (found = false →
        (∀ c ∈ v.items.take slot.toNat, v.rank item c = 1) ∧
        (∀ c ∈ v.items.drop slot.toNat, v.rank item c = -1)) := by
  obtain ⟨slot, found, hsearch, h0, h1, hfound, hnot⟩ :=
    searchLoop_spec v hr hs item v.items.length 1 v.GetSize v.GetSize
      (by simp [set.GetSize]) (le_refl _) (by simp [set.GetSize]) (by omega)
      (by simp [set.GetSize])
      (fun i c hi _ => by omega)
      (fun i c hi hc => by
        have := address_lt_of_cell _ _ _ hc
        simp only [set.GetSize] at hi
        omega)
  refine ⟨slot, found, hsearch, h0, h1, hfound, ?_⟩
  intro hfalse
  obtain ⟨hbelow, habove⟩ := hnot hfalse
  constructor
  · intro c hc
    obtain ⟨i, hi⟩ := List.mem_iff_getElem?.1 hc
    have hlt : i < slot.toNat := by
      have := address_lt_of_cell _ _ _ hi
      simp only [List.length_take] at this
      omega
    rw [List.getElem?_take_of_lt hlt] at hi
    exact hbelow i c (by omega) hi
  · intro c hc
    obtain ⟨i, hi⟩ := List.mem_iff_getElem?.1 hc
    rw [List.getElem?_drop] at hi
    exact habove (slot.toNat + i) c (by omega) hi

/-- On a sorted set `found` tells whether some item ranks equal to the given
item. -/
theorem search_found_iff (v : set T) (hr : IsRanking v.rank) (hs : v.Sorted) (item : T) :
    ∃ slot found, v.search item = some (slot, found) ∧ (found = true ↔ v.Holds item) := by
  obtain ⟨slot, found, hsearch, h0, h1, hfound, hnot⟩ := search_spec v hr hs item
  refine ⟨slot, found, hsearch, ?_⟩
  constructor
  · intro h
    obtain ⟨_, c, hc, hrank⟩ := hfound h
    exact ⟨c, List.mem_iff_getElem?.2 ⟨_, hc⟩, hrank⟩
  · rintro ⟨c, hc, hrank⟩
    cases hf : found with
    | true => rfl
    | false =>
      obtain ⟨hbelow, habove⟩ := hnot hf
      rw [← List.take_append_drop slot.toNat v.items] at hc
      rcases List.mem_append.1 hc with h | h
      · have := hbelow c h
        omega
      · have := habove c h
        omega

theorem ContainsItem_iff (v : set T) (hr : IsRanking v.rank) (hs : v.Sorted) (item : T) :
    ∃ found, v.ContainsItem item = some found ∧ (found = true ↔ v.Holds item) := by
  obtain ⟨slot, found, hsearch, hiff⟩ := search_found_iff v hr hs item
  exact ⟨found, by simp only [set.ContainsItem, hsearch], hiff⟩

/-- C25: for a set whose items are strictly increasing under its ranking function
(a total order with the values -1, 0 and 1), `ContainsItem` returns, and returns
true exactly when some item of the set ranks equal to the given item;
`ContainsAny` returns true exactly when this is so for some of the given items
and `ContainsAll` exactly when it is so for all of them. -/
theorem ContainsItem_correct (v : set T) (hr : IsRanking v.rank) (hs : v.Sorted) (item : T)
    (items : List T) :
    (∃ found, v.ContainsItem item = some found ∧ (found = true ↔ v.Holds item)) ∧
      (∃ found, v.ContainsAny items = some found ∧
        (found = true ↔ ∃ x ∈ items, v.Holds x)) ∧
      (∃ found, v.ContainsAll items = some found ∧
        (found = true ↔ ∀ x ∈ items, v.Holds x)) := by
  refine ⟨ContainsItem_iff v hr hs item, ?_, ?_⟩
  · induction items with
    | nil => exact ⟨false, rfl, by simp⟩
    | cons head rest ih =>
      obtain ⟨found, hfound, hiff⟩ := ContainsItem_iff v hr hs head
      obtain ⟨others, hothers, hiff2⟩ := ih
      cases found with
      | true =>
        refine ⟨true, by simp only [set.ContainsAny, hfound], ?_⟩
        simp only [true_iff]
        exact ⟨head, List.mem_cons_self _ _, hiff.1 rfl⟩
      | false =>
        refine ⟨others, by simp only [set.ContainsAny, hfound, hothers], ?_⟩
        have hnot : ¬ v.Holds head := fun h => by simpa using hiff.2 h
        rw [hiff2]
        simp [hnot]
  · induction items with
    | nil => exact ⟨true, rfl, by simp⟩
    | cons head rest ih =>
      obtain ⟨found, hfound, hiff⟩ := ContainsItem_iff v hr hs head
      obtain ⟨others, hothers, hiff2⟩ := ih
      cases found with
      | true =>
        refine ⟨others, by simp only [set.ContainsAll, hfound, hothers], ?_⟩
        rw [hiff2]
        simp [hiff.1 rfl]
      | false =>
        refine ⟨false, by simp only [set.ContainsAll, hfound], ?_⟩
        have hnot : ¬ v.Holds head := fun h => by simpa using hiff.2 h
        simp [hnot]

end SearchClaims

section SetChanges

variable {T : Type}

theorem sorted_insert (v : set T) (hr : IsRanking v.rank) (hs : v.Sorted) (item : T) (k : Nat)
    (hbelow : ∀ c ∈ v.items.take k, v.rank item c = 1)
    (habove : ∀ c ∈ v.items.drop k, v.rank item c = -1) :
    (v.items.take k ++ item :: v.items.drop k).Pairwise (fun x y => v.rank x y = -1) := by
  have hsplit : (v.items.take k ++ v.items.drop k).Pairwise (fun x y => v.rank x y = -1) := by
    rw [List.take_append_drop]
    exact hs
  rw [List.pairwise_append] at hsplit ⊢
  obtain ⟨h1, h2, h3⟩ := hsplit
  refine ⟨h1, List.pairwise_cons.2 ⟨habove, h2⟩, ?_⟩
  intro a ha b hb
  rcases List.mem_cons.1 hb with h | h
  · rw [h]
    exact (hr.above_iff _ _).1 (hbelow a ha)
  · exact h3 a ha b h

/-- What `AddItem` does to a sorted set. -/
theorem AddItem_spec (v : set T) (hr : IsRanking v.rank) (hs : v.Sorted) (item : T) :
    ∃ after, v.AddItem item = some after ∧ after.rank = v.rank ∧ after.Sorted ∧
      (∀ c, c ∈ after.items ↔ c ∈ v.items ∨ (c = item ∧ ¬ v.Holds item)) ∧
      (v.Holds item → after = v) ∧
      (¬ v.Holds item → ∃ slot, v.search item = some (slot, false) ∧
        slot = v.items.countP (fun c => decide (v.rank c item = -1)) ∧
        after.items = v.items.take slot.toNat ++ item :: v.items.drop slot.toNat) := by
  obtain ⟨slot, found, hsearch, h0, h1, hfound, hnot⟩ := search_spec v hr hs item
  obtain ⟨_, _, hsearch2, hiff⟩ := search_found_iff v hr hs item
  rw [hsearch] at hsearch2
  cases hsearch2
  cases found with
  | true =>
    have hholds := hiff.1 rfl
    refine ⟨v, by simp only [set.AddItem, hsearch]; rfl, rfl, hs, ?_, fun _ => rfl,
      fun h => absurd hholds h⟩
    intro c
    constructor
    · exact fun h => Or.inl h
    · rintro (h | ⟨_, h⟩)
      · exact h
      · exact absurd hholds h
  | false =>
    have hholds : ¬ v.Holds item := fun h => by simpa using hiff.2 h
    obtain ⟨hbelow, habove⟩ := hnot rfl
    have hinsert : list.InsertItem v.items slot item
        = some (v.items.take slot.toNat ++ item :: v.items.drop slot.toNat) := by
      unfold list.InsertItem
      rw [if_pos ⟨h0, h1⟩]
    refine ⟨{ v with items := v.items.take slot.toNat ++ item :: v.items.drop slot.toNat },
      by simp only [set.AddItem, hsearch, hinsert]; rfl, rfl,
      sorted_insert v hr hs item slot.toNat hbelow habove, ?_, fun h => absurd h hholds, ?_⟩
    · intro c
      show c ∈ v.items.take slot.toNat ++ item :: v.items.drop slot.toNat ↔ _
      have hmem : c ∈ v.items ↔ c ∈ v.items.take slot.toNat ∨ c ∈ v.items.drop slot.toNat := by
        rw [← List.mem_append, List.take_append_drop]
      rw [List.mem_append, List.mem_cons, hmem]
      constructor
      · rintro (h | h | h)
        · exact Or.inl (Or.inl h)
        · exact Or.inr ⟨h, hholds⟩
        · exact Or.inl (Or.inr h)
      · rintro ((h | h) | ⟨h, _⟩)
        · exact Or.inl h
        · exact Or.inr (Or.inr h)
        · exact Or.inr (Or.inl h)
    · intro _
      refine ⟨slot, hsearch, ?_, rfl⟩
      have hcount : v.items.countP (fun c => decide (v.rank c item = -1))
          = (v.items.take slot.toNat).countP (fun c => decide (v.rank c item = -1))
            + (v.items.drop slot.toNat).countP (fun c => decide (v.rank c item = -1)) := by
        rw [← List.countP_append, List.take_append_drop]
      have htake : (v.items.take slot.toNat).countP (fun c => decide (v.rank c item = -1))
          = (v.items.take slot.toNat).length := by
        rw [List.countP_eq_length]
        intro c hc
        simpa using (hr.above_iff _ _).1 (hbelow c hc)
      have hdrop : (v.items.drop slot.toNat).countP (fun c => decide (v.rank c item = -1))
          = 0 := by
        rw [List.countP_eq_zero]
        intro c hc
        have h2 := habove c hc
        have h3 := (hr.flip item c).1 h2
        simp only [decide_eq_true_eq]
        omega
      rw [hcount, htake, hdrop, List.length_take]
      omega

/-- What `RemoveItem` does to a sorted set. -/
theorem RemoveItem_spec (v : set T) (hr : IsRanking v.rank) (hs : v.Sorted) (item : T) :
    ∃ after, v.RemoveItem item = some after ∧ after.rank = v.rank ∧ after.Sorted ∧
      (∀ c, c ∈ after.items ↔ c ∈ v.items ∧ v.rank item c ≠ 0) := by
  obtain ⟨slot, found, hsearch, h0, h1, hfound, hnot⟩ := search_spec v hr hs item
  obtain ⟨_, _, hsearch2, hiff⟩ := search_found_iff v hr hs item
  rw [hsearch] at hsearch2
  cases hsearch2
  cases found with
  | false =>
    have hholds : ¬ v.Holds item := fun h => by simpa using hiff.2 h
    refine ⟨v, by simp only [set.RemoveItem, hsearch]; rfl, rfl, hs, ?_⟩
    intro c
    constructor
    · exact fun h => ⟨h, fun h0 => hholds ⟨c, h, h0⟩⟩
    · exact fun h => h.1
  | true =>
    obtain ⟨hslot, c0, hc0, hrank0⟩ := hfound rfl
    have hremove : list.RemoveItem v.items slot = some (v.items.eraseIdx (slot - 1).toNat) := by
      unfold list.RemoveItem
      rw [if_pos ⟨hslot, h1⟩]
    refine ⟨{ v with items := v.items.eraseIdx (slot - 1).toNat },
      by simp only [set.RemoveItem, hsearch, hremove]; rfl, rfl,
      List.Pairwise.sublist (List.eraseIdx_sublist _ _) hs, ?_⟩
    intro c
    show c ∈ v.items.eraseIdx (slot - 1).toNat ↔ _
    rw [List.mem_eraseIdx_iff_getElem?]
    constructor
    · rintro ⟨i, hne, hc⟩
      refine ⟨List.mem_iff_getElem?.2 ⟨i, hc⟩, ?_⟩
      intro hzero
      have hc0item : v.rank c0 item = 0 := hr.symm _ _ hrank0
      rcases Nat.lt_or_gt_of_ne hne with hlt | hgt
      · have h1 := sorted_getElem? v hs i _ c c0 hlt hc hc0
        have h2 := hr.below_of_below_of_not_above c c0 item h1 (by omega)
        have h3 := (hr.flip c item).1 h2
        omega
      · have h1 := sorted_getElem? v hs _ i c0 c hgt hc0 hc
        have h2 := hr.below_of_not_above_of_below item c0 c (by omega) h1
        omega
    · rintro ⟨hmem, hne⟩
      obtain ⟨i, hi⟩ := List.mem_iff_getElem?.1 hmem
      refine ⟨i, ?_, hi⟩
      intro hsame
      subst hsame
      rw [hc0] at hi
      cases hi
      exact hne hrank0

end SetChanges

section SetMembership

variable {T : Type}

theorem IsRanking.equal_trans {rank : T → T → Int} (hr : IsRanking rank) (a b c : T)
    (h1 : rank a b = 0) (h2 : rank b c = 0) : rank a c = 0 := by
  have h3 : rank a c ≠ 1 := hr.trans a b c (by omega) (by omega)
  have h4 : rank c a ≠ 1 :=
    hr.trans c b a (by have := hr.symm _ _ h2; omega) (by have := hr.symm _ _ h1; omega)
  rcases hr.values a c with h | h | h
  · exact absurd ((hr.flip a c).1 h) h4
  · exact h
  · exact absurd h h3

theorem Holds_AddItem (v after : set T) (hr : IsRanking v.rank) (item : T)
    (hrank : after.rank = v.rank)
    (hmem : ∀ c, c ∈ after.items ↔ c ∈ v.items ∨ (c = item ∧ ¬ v.Holds item)) (x : T) :
    after.Holds x ↔ v.Holds x ∨ v.rank x item = 0 := by
  unfold set.Holds
  rw [hrank]
  constructor
  · rintro ⟨c, hc, hzero⟩
    rcases (hmem c).1 hc with h | ⟨h, _⟩
    · exact Or.inl ⟨c, h, hzero⟩
    · exact Or.inr (h ▸ hzero)
  · rintro (⟨c, hc, hzero⟩ | hzero)
    · exact ⟨c, (hmem c).2 (Or.inl hc), hzero⟩
    · by_cases hholds : v.Holds item
      · obtain ⟨d, hd, hzero2⟩ := hholds
        exact ⟨d, (hmem d).2 (Or.inl hd), hr.equal_trans _ _ _ hzero hzero2⟩
      · exact ⟨item, (hmem item).2 (Or.inr ⟨rfl, hholds⟩), hzero⟩

theorem Holds_RemoveItem (v after : set T) (hr : IsRanking v.rank) (item : T)
    (hrank : after.rank = v.rank)
    (hmem : ∀ c, c ∈ after.items ↔ c ∈ v.items ∧ v.rank item c ≠ 0) (x : T) :
    after.Holds x ↔ v.Holds x ∧ v.rank x item ≠ 0 := by
  unfold set.Holds
  rw [hrank]
  constructor
  · rintro ⟨c, hc, hzero⟩
    obtain ⟨h1, h2⟩ := (hmem c).1 hc
    refine ⟨⟨c, h1, hzero⟩, ?_⟩
    intro h3
    exact h2 (hr.equal_trans _ _ _ (hr.symm _ _ h3) hzero)
  · rintro ⟨⟨c, hc, hzero⟩, hne⟩
    refine ⟨c, (hmem c).2 ⟨hc, ?_⟩, hzero⟩
    intro h3
    exact hne (hr.equal_trans _ _ _ hzero (hr.symm _ _ h3))

/-- What `AddItems` does to a sorted set. -/
theorem AddItems_spec (items : List T) :
    ∀ v : set T, IsRanking v.rank → v.Sorted →
      ∃ after, v.AddItems items = some after ∧ after.rank = v.rank ∧ after.Sorted ∧
        (∀ x, after.Holds x ↔ v.Holds x ∨ ∃ item ∈ items, v.rank x item = 0) ∧
        (∀ c, c ∈ after.items → c ∈ v.items ∨ c ∈ items) ∧
        (∀ c, c ∈ v.items → c ∈ after.items) := by
  induction items with
  | nil =>
    intro v _ hs
    exact ⟨v, rfl, rfl, hs, by simp, fun c h => Or.inl h, fun c h => h⟩
  | cons head rest ih =>
    intro v hr hs
    obtain ⟨v1, hadd, hrank1, hs1, hmem1, _, _⟩ := AddItem_spec v hr hs head
    obtain ⟨after, hrest, hrank, hsorted, hholds, hfrom, hkeep⟩ := ih v1 (hrank1 ▸ hr) hs1
    refine ⟨after, by simp only [set.AddItems, hadd, hrest], hrank.trans hrank1, hsorted,
      ?_, ?_, ?_⟩
    · intro x
      rw [hholds, Holds_AddItem v v1 hr head hrank1 hmem1, hrank1]
      simp only [List.mem_cons, exists_eq_or_imp]
      tauto
    · intro c hc
      rcases hfrom c hc with h | h
      · rcases (hmem1 c).1 h with h2 | ⟨h2, _⟩
        · exact Or.inl h2
        · exact Or.inr (h2 ▸ List.mem_cons_self _ _)
      · exact Or.inr (List.mem_cons_of_mem _ h)
    · intro c hc
      exact hkeep c ((hmem1 c).2 (Or.inl hc))

/-- What `RemoveItems` does to a sorted set. -/
theorem RemoveItems_spec (items : List T) :
    ∀ v : set T, IsRanking v.rank → v.Sorted →
      ∃ after, v.RemoveItems items = some after ∧ after.rank = v.rank ∧ after.Sorted ∧
        (∀ x, after.Holds x ↔ v.Holds x ∧ ∀ item ∈ items, v.rank x item ≠ 0) ∧
        (∀ c, c ∈ after.items ↔ c ∈ v.items ∧ ∀ item ∈ items, v.rank item c ≠ 0) := by
  induction items with
  | nil =>
    intro v _ hs
    exact ⟨v, rfl, rfl, hs, by simp, by simp⟩
  | cons head rest ih =>
    intro v hr hs
    obtain ⟨v1, hremove, hrank1, hs1, hmem1⟩ := RemoveItem_spec v hr hs head
    obtain ⟨after, hrest, hrank, hsorted, hholds, hmem⟩ := ih v1 (hrank1 ▸ hr) hs1
    refine ⟨after, by simp only [set.RemoveItems, hremove, hrest], hrank.trans hrank1, hsorted,
      ?_, ?_⟩
    · intro x
      rw [hholds, Holds_RemoveItem v v1 hr head hrank1 hmem1, hrank1]
      simp only [List.mem_cons, forall_eq_or_imp]
      tauto
    · intro c
      rw [hmem, hmem1, hrank1]
      simp only [List.mem_cons, forall_eq_or_imp]
      tauto

end SetMembership

section SetInvariant

variable {T : Type}

theorem changes_spec (calls : List (Change T)) :
    ∀ v : set T, IsRanking v.rank → v.Sorted →
      ∃ after, v.changes calls = some after ∧ after.rank = v.rank ∧ after.Sorted := by
  induction calls with
  | nil => exact fun v _ hs => ⟨v, rfl, rfl, hs⟩
  | cons call rest ih =>
    intro v hr hs
    have hstep : ∃ v1, v.change call = some v1 ∧ v1.rank = v.rank ∧ v1.Sorted := by
      cases call with
      | AddItem item =>
        obtain ⟨v1, h1, h2, h3, _⟩ := AddItem_spec v hr hs item
        exact ⟨v1, h1, h2, h3⟩
      | AddItems items =>
        obtain ⟨v1, h1, h2, h3, _⟩ := AddItems_spec items v hr hs
        exact ⟨v1, h1, h2, h3⟩
      | RemoveItem item =>
        obtain ⟨v1, h1, h2, h3, _⟩ := RemoveItem_spec v hr hs item
        exact ⟨v1, h1, h2, h3⟩
      | RemoveItems items =>
        obtain ⟨v1, h1, h2, h3, _⟩ := RemoveItems_spec items v hr hs
        exact ⟨v1, h1, h2, h3⟩
      | RemoveAll => exact ⟨v.RemoveAll, rfl, rfl, List.Pairwise.nil⟩
    obtain ⟨v1, hchange, hrank1, hs1⟩ := hstep
    obtain ⟨after, hrest, hrank, hsorted⟩ := ih v1 (hrank1 ▸ hr) hs1
    exact ⟨after, by simp only [set.changes, hchange, hrest], hrank.trans hrank1, hsorted⟩

/-- C26: starting from a new empty set whose ranking function is a total order with
the values -1, 0 and 1, every sequence of `AddItem`, `AddItems`, `RemoveItem`,
`RemoveItems` and `RemoveAll` returns and leaves the items strictly increasing
under the ranking function, so that no two of them rank equal; on such a set
`AddItem` of an item that some item ranks equal to changes nothing, and `AddItem`
of any other item puts it into the slot `search` returns, which is the number of
items that rank below it. -/
theorem set_stays_sorted (RankValues : T → T → Int) (given : Option (T → T → Int))
    (hr : IsRanking (SetWithRanker RankValues given).rank) (calls : List (Change T)) :
    ∃ v, (SetWithRanker RankValues given).changes calls = some v ∧
      v.rank = (SetWithRanker RankValues given).rank ∧ v.Sorted ∧
      (∀ (i j : Nat) (c d : T), i ≠ j → v.items[i]? = some c → v.items[j]? = some d →
        v.rank c d ≠ 0) ∧
      (∀ item,
        (v.Holds item → v.AddItem item = some v) ∧
        (¬ v.Holds item → ∃ slot, v.search item = some (slot, false) ∧
          slot = v.items.countP (fun c => decide (v.rank c item = -1)) ∧
          v.AddItem item
            = some { v with
                items := v.items.take slot.toNat ++ item :: v.items.drop slot.toNat })) := by
  obtain ⟨v, hcalls, hrank, hs⟩ := changes_spec calls (SetWithRanker RankValues given) hr
    List.Pairwise.nil
  have hrv : IsRanking v.rank := hrank ▸ hr
  refine ⟨v, hcalls, hrank, hs, ?_, ?_⟩
  · intro i j c d hne hc hd
    rcases Nat.lt_or_gt_of_ne hne with h | h
    · have := sorted_getElem? v hs i j c d h hc hd
      omega
    · have h1 := sorted_getElem? v hs j i d c h hd hc
      have h2 := (hrv.flip d c).1 h1
      omega
  · intro item
    obtain ⟨after, hadd, _, _, _, hsame, hnew⟩ := AddItem_spec v hrv hs item
    constructor
    · intro hholds
      rw [hadd, hsame hholds]
    · intro hholds
      obtain ⟨slot, hsearch, hcount, hitems⟩ := hnew hholds
      refine ⟨slot, hsearch, hcount, ?_⟩
      simp only [set.AddItem, hsearch, Bool.not_false, if_true]
      unfold list.InsertItem
      have h0 : 0 ≤ slot := by omega
      have h1 : slot ≤ v.items.length := by
        rw [hcount]
        exact_mod_cast List.countP_le_length _
      rw [if_pos ⟨h0, h1⟩]

/-- The set of integers after adding 5, 1 and 3, adding 3 again, removing 1 and
adding 4 holds 3, 4 and 5 in this order. -/
theorem set_stays_sorted_witness :
    IsRanking (SetWithRanker rankIntegers none).rank ∧
      ((SetWithRanker rankIntegers none).changes
          [Change.AddItems [5, 1, 3], Change.AddItem 3, Change.RemoveItem 1,
            Change.AddItem 4]).map set.items = some [3, 4, 5] ∧
      ∃ v, (SetWithRanker rankIntegers none).changes
          [Change.AddItems [5, 1, 3], Change.AddItem 3, Change.RemoveItem 1, Change.AddItem 4]
          = some v ∧ v.Sorted := by
  obtain ⟨v, h1, _, h3, _⟩ := set_stays_sorted rankIntegers none rankIntegers_natural.1
    [Change.AddItems [5, 1, 3], Change.AddItem 3, Change.RemoveItem 1, Change.AddItem 4]
  exact ⟨rankIntegers_natural.1, by decide, v, h1, h3⟩

/-- The set 1, 3, 5 of integers: 3 is contained and 4 is not. -/
theorem ContainsItem_correct_witness :
    IsRanking (⟨[1, 3, 5], rankIntegers⟩ : set Int).rank ∧
      (⟨[1, 3, 5], rankIntegers⟩ : set Int).Sorted ∧
      (⟨[1, 3, 5], rankIntegers⟩ : set Int).ContainsItem 3 = some true ∧
      (⟨[1, 3, 5], rankIntegers⟩ : set Int).ContainsItem 4 = some false ∧
      ∃ found, (⟨[1, 3, 5], rankIntegers⟩ : set Int).ContainsAll [1, 4] = some found ∧
        (found = true ↔ ∀ x ∈ [1, 4], (⟨[1, 3, 5], rankIntegers⟩ : set Int).Holds x) :=
  ⟨rankIntegers_natural.1, by unfold set.Sorted; decide, by decide, by decide,
    (ContainsItem_correct ⟨[1, 3, 5], rankIntegers⟩ rankIntegers_natural.1
      (by unfold set.Sorted; decide) 3 [1, 4]).2.2⟩

end SetInvariant

section SetLibrary

variable {T : Type}

theorem mutate_fresh_option {α : Type} (heap : List α) (object : α) (method : α → Option α) :
    mutate (heap ++ [object]) heap.length method
      = (method object).map (fun changed => heap ++ [changed]) := by
  simp [mutate]

theorem Set_sorted (RankValues : T → T → Int) : (Set RankValues).Sorted :=
  List.Pairwise.nil

theorem Set_Holds (RankValues : T → T → Int) (x : T) : ¬ (Set RankValues).Holds x := by
  rintro ⟨c, hc, _⟩
  simp [Set, SetWithRanker] at hc

theorem ContainsItem_true_iff (v : set T) (hr : IsRanking v.rank) (hs : v.Sorted) (item : T) :
    v.ContainsItem item = some true ↔ v.Holds item := by
  obtain ⟨found, hfound, hiff⟩ := ContainsItem_iff v hr hs item
  rw [hfound]
  constructor
  · intro h
    exact hiff.1 (by simpa using h)
  · intro h
    rw [hiff.2 h]

/-- The run of `Or`: the result is the new set after the two additions. -/
theorem Or_run (RankValues : T → T → Int) (hr : IsRanking RankValues) (heap : List (set T))
    (first second : Nat) (a b : set T) (ha : heap[first]? = some a)
    (hb : heap[second]? = some b) :
    ∃ r, sets.Or RankValues heap first second = some (heap ++ [r], heap.length) ∧
      r.rank = RankValues ∧ r.Sorted ∧
      (∀ x, r.Holds x ↔ (∃ c ∈ a.items, RankValues x c = 0) ∨ ∃ c ∈ b.items, RankValues x c = 0) ∧
      (∀ c, c ∈ r.items → c ∈ a.items ∨ c ∈ b.items) := by
  obtain ⟨r1, hadd1, hrank1, hs1, hholds1, hfrom1, _⟩ :=
    AddItems_spec a.items (Set RankValues) hr (Set_sorted RankValues)
  obtain ⟨r, hadd2, hrank2, hs2, hholds2, hfrom2, _⟩ :=
    AddItems_spec b.items r1 (hrank1 ▸ hr) hs1
  refine ⟨r, ?_, hrank2.trans hrank1, hs2, ?_, ?_⟩
  · unfold sets.Or
    simp only [getElem?_append_of_some _ _ _ _ ha, mutate_fresh_option, set.AsArray, hadd1,
      Option.map_some', getElem?_append_of_some _ _ _ _ hb, hadd2]
  · intro x
    rw [hholds2, hholds1, hrank1]
    have : ¬ (Set RankValues).Holds x := Set_Holds RankValues x
    have hrank : (Set RankValues).rank = RankValues := rfl
    simp only [hrank, this, false_or]
  · intro c hc
    rcases hfrom2 c hc with h | h
    · rcases hfrom1 c h with h2 | h2
      · simp [Set, SetWithRanker] at h2
      · exact Or.inl h2
    · exact Or.inr h

/-- The run of `Sans`: the result is the new set after the additions and the
removals. -/
theorem Sans_run (RankValues : T → T → Int) (hr : IsRanking RankValues) (heap : List (set T))
    (first second : Nat) (a b : set T) (ha : heap[first]? = some a)
    (hb : heap[second]? = some b) :
    ∃ r, sets.Sans RankValues heap first second = some (heap ++ [r], heap.length) ∧
      r.rank = RankValues ∧ r.Sorted ∧
      (∀ x, r.Holds x ↔
        (∃ c ∈ a.items, RankValues x c = 0) ∧ ¬ ∃ c ∈ b.items, RankValues x c = 0) ∧
      (∀ c, c ∈ r.items → c ∈ a.items ∧ ∀ d ∈ b.items, RankValues d c ≠ 0) := by
  obtain ⟨r1, hadd1, hrank1, hs1, hholds1, hfrom1, _⟩ :=
    AddItems_spec a.items (Set RankValues) hr (Set_sorted RankValues)
  obtain ⟨r, hremove, hrank2, hs2, hholds2, hmem2⟩ :=
    RemoveItems_spec b.items r1 (hrank1 ▸ hr) hs1
  have hrank : (Set RankValues).rank = RankValues := rfl
  refine ⟨r, ?_, hrank2.trans hrank1, hs2, ?_, ?_⟩
  · unfold sets.Sans
    simp only [getElem?_append_of_some _ _ _ _ ha, mutate_fresh_option, set.AsArray, hadd1,
      Option.map_some', getElem?_append_of_some _ _ _ _ hb, hremove]
  · intro x
    rw [hholds2, hholds1, hrank1, hrank]
    have : ¬ (Set RankValues).Holds x := Set_Holds RankValues x
    simp only [this, false_or, not_exists, not_and]
  · intro c hc
    obtain ⟨h1, h2⟩ := (hmem2 c).1 hc
    rw [hrank1, hrank] at h2
    refine ⟨?_, h2⟩
    rcases hfrom1 c h1 with h3 | h3
    · simp [Set, SetWithRanker] at h3
    · exact h3

/-- The loop of `And` on a new result set. -/
theorem andLoop_run (heap : List (set T)) (second : Nat) (b : set T)
    (hb : heap[second]? = some b) (hrb : IsRanking b.rank) (hsb : b.Sorted) (items : List T) :
    ∀ r : set T, IsRanking r.rank → r.Sorted →
      ∃ after, sets.andLoop (heap ++ [r]) second heap.length items = some (heap ++ [after]) ∧
        after.rank = r.rank ∧ after.Sorted ∧
        (∀ x, after.Holds x ↔ r.Holds x ∨ ∃ c ∈ items, b.Holds c ∧ r.rank x c = 0) := by
  induction items with
  | nil =>
    intro r _ hs
    exact ⟨r, rfl, rfl, hs, by simp⟩
  | cons head rest ih =>
    intro r hr hs
    obtain ⟨found, hfound, hiff⟩ := ContainsItem_iff b hrb hsb head
    cases found with
    | true =>
      obtain ⟨r1, hadd, hrank1, hs1, hmem1, _, _⟩ := AddItem_spec r hr hs head
      obtain ⟨after, hloop, hrank, hsorted, hholds⟩ := ih r1 (hrank1 ▸ hr) hs1
      refine ⟨after, ?_, hrank.trans hrank1, hsorted, ?_⟩
      · simp only [sets.andLoop, getElem?_append_of_some _ _ _ _ hb, hfound,
          mutate_fresh_option, hadd, Option.map_some', hloop]
      · intro x
        rw [hholds, Holds_AddItem r r1 hr head hrank1 hmem1, hrank1]
        have := hiff.1 rfl
        simp only [List.mem_cons, exists_eq_or_imp, this, true_and]
        tauto
    | false =>
      obtain ⟨after, hloop, hrank, hsorted, hholds⟩ := ih r hr hs
      refine ⟨after, ?_, hrank, hsorted, ?_⟩
      · simp only [sets.andLoop, getElem?_append_of_some _ _ _ _ hb, hfound, hloop]
      · intro x
        rw [hholds]
        have : ¬ b.Holds head := fun h => by simpa using hiff.2 h
        simp only [List.mem_cons, exists_eq_or_imp, this, false_and, false_or]

/-- The run of `And`: the result is the new set after the loop. -/
theorem And_run (RankValues : T → T → Int) (hr : IsRanking RankValues) (heap : List (set T))
    (first second : Nat) (a b : set T) (ha : heap[first]? = some a)
    (hb : heap[second]? = some b) (hrb : IsRanking b.rank) (hsb : b.Sorted) :
    ∃ r, sets.And RankValues heap first second = some (heap ++ [r], heap.length) ∧
      r.rank = RankValues ∧ r.Sorted ∧
      (∀ x, r.Holds x ↔ ∃ c ∈ a.items, b.Holds c ∧ RankValues x c = 0) := by
  obtain ⟨r, hloop, hrank, hs, hholds⟩ :=
    andLoop_run heap second b hb hrb hsb a.items (Set RankValues) hr (Set_sorted RankValues)
  refine ⟨r, ?_, hrank, hs, ?_⟩
  · unfold sets.And
    simp only [getElem?_append_of_some _ _ _ _ ha, hloop]
  · intro x
    rw [hholds]
    have : ¬ (Set RankValues).Holds x := Set_Holds RankValues x
    have hrank0 : (Set RankValues).rank = RankValues := rfl
    simp only [this, false_or, hrank0]

end SetLibrary

section SetAlgebraClaims

variable {T : Type}

theorem Holds_congr (v : set T) (hr : IsRanking v.rank) (x c : T) (h : v.rank x c = 0) :
    v.Holds c ↔ v.Holds x := by
  constructor
  · rintro ⟨d, hd, hzero⟩
    exact ⟨d, hd, hr.equal_trans _ _ _ h hzero⟩
  · rintro ⟨d, hd, hzero⟩
    exact ⟨d, hd, hr.equal_trans _ _ _ (hr.symm _ _ h) hzero⟩

/-- The run of `Xor`: the two differences and their union are three new sets. -/
theorem Xor_run (RankValues : T → T → Int) (hr : IsRanking RankValues) (heap : List (set T))
    (first second : Nat) (a b : set T) (ha : heap[first]? = some a)
    (hb : heap[second]? = some b) :
    ∃ s1 s2 r,
      sets.Sans RankValues heap first second = some (heap ++ [s1], heap.length) ∧
      sets.Sans RankValues (heap ++ [s1]) second first
        = some (heap ++ [s1] ++ [s2], heap.length + 1) ∧
      sets.Or RankValues (heap ++ [s1] ++ [s2]) heap.length (heap.length + 1)
        = some (heap ++ [s1] ++ [s2] ++ [r], heap.length + 2) ∧
      sets.Xor RankValues heap first second
        = some (heap ++ [s1] ++ [s2] ++ [r], heap.length + 2) ∧
      r.rank = RankValues ∧ r.Sorted ∧
      (∀ x, r.Holds x ↔
        ((∃ c ∈ a.items, RankValues x c = 0) ∧ ¬ ∃ c ∈ b.items, RankValues x c = 0) ∨
        ((∃ c ∈ b.items, RankValues x c = 0) ∧ ¬ ∃ c ∈ a.items, RankValues x c = 0)) := by
  obtain ⟨s1, hsans1, hrank1, hs1, hholds1, _⟩ := Sans_run RankValues hr heap first second a b ha hb
  obtain ⟨s2, hsans2, hrank2, hs2, hholds2, _⟩ := Sans_run RankValues hr (heap ++ [s1]) second first
    b a (getElem?_append_of_some _ _ _ _ hb) (getElem?_append_of_some _ _ _ _ ha)
  have hleft : (heap ++ [s1] ++ [s2])[heap.length]? = some s1 :=
    getElem?_append_of_some _ _ _ _ (by simp)
  have hright : (heap ++ [s1] ++ [s2])[heap.length + 1]? = some s2 := by
    have hlen : (heap ++ [s1]).length = heap.length + 1 := by simp
    rw [← hlen, List.getElem?_append_right (le_refl _)]
    simp
  obtain ⟨r, hor, hrank, hs, hholds, _⟩ := Or_run RankValues hr (heap ++ [s1] ++ [s2])
    heap.length (heap.length + 1) s1 s2 hleft hright
  have hlen1 : (heap ++ [s1]).length = heap.length + 1 := by simp
  have hlen2 : (heap ++ [s1] ++ [s2]).length = heap.length + 2 := by simp
  rw [hlen1] at hsans2
  rw [hlen2] at hor
  refine ⟨s1, s2, r, hsans1, hsans2, hor, ?_, hrank, hs, ?_⟩
  · simp only [sets.Xor, hsans1, hsans2, hor]
  · intro x
    rw [hholds]
    have h1 : (∃ c ∈ s1.items, RankValues x c = 0) ↔ s1.Holds x := by
      unfold set.Holds
      rw [hrank1]
    have h2 : (∃ c ∈ s2.items, RankValues x c = 0) ↔ s2.Holds x := by
      unfold set.Holds
      rw [hrank2]
    rw [h1, h2, hholds1, hholds2]

/-- C27: for two sorted sets that use the natural ranking, a total order with the
values -1, 0 and 1: each of `And`, `Or`, `Sans` and `Xor` returns a new set, and
an item is contained in the result of `And` exactly when both sets contain it,
in that of `Or` exactly when one of them contains it, in that of `Sans` exactly
when the first contains it and the second does not, and in that of `Xor`, which
is `Or` of the two results of `Sans`, exactly when one of the sets contains it
and the other does not. -/
theorem set_operations_are_algebraic (RankValues : T → T → Int) (hr : IsRanking RankValues)
    (heap : List (set T)) (first second : Nat) (a b : set T) (ha : heap[first]? = some a)
    (hb : heap[second]? = some b) (hra : a.rank = RankValues) (hrb : b.rank = RankValues)
    (hsa : a.Sorted) (hsb : b.Sorted) :
    (∃ r, sets.And RankValues heap first second = some (heap ++ [r], heap.length) ∧
      ∀ x, r.ContainsItem x = some true ↔
        a.ContainsItem x = some true ∧ b.ContainsItem x = some true) ∧
    (∃ r, sets.Or RankValues heap first second = some (heap ++ [r], heap.length) ∧
      ∀ x, r.ContainsItem x = some true ↔
        a.ContainsItem x = some true ∨ b.ContainsItem x = some true) ∧
    (∃ r, sets.Sans RankValues heap first second = some (heap ++ [r], heap.length) ∧
      ∀ x, r.ContainsItem x = some true ↔
        a.ContainsItem x = some true ∧ ¬ b.ContainsItem x = some true) ∧
    (∃ s1 s2 r,
      sets.Sans RankValues heap first second = some (heap ++ [s1], heap.length) ∧
      sets.Sans RankValues (heap ++ [s1]) second first
        = some (heap ++ [s1] ++ [s2], heap.length + 1) ∧
      sets.Or RankValues (heap ++ [s1] ++ [s2]) heap.length (heap.length + 1)
        = some (heap ++ [s1] ++ [s2] ++ [r], heap.length + 2) ∧
      sets.Xor RankValues heap first second
        = some (heap ++ [s1] ++ [s2] ++ [r], heap.length + 2) ∧
      ∀ x, r.ContainsItem x = some true ↔
        (a.ContainsItem x = some true ∧ ¬ b.ContainsItem x = some true) ∨
        (b.ContainsItem x = some true ∧ ¬ a.ContainsItem x = some true)) := by
  have hca : ∀ x, a.ContainsItem x = some true ↔ ∃ c ∈ a.items, RankValues x c = 0 := by
    intro x
    rw [ContainsItem_true_iff a (hra ▸ hr) hsa]
    unfold set.Holds
    rw [hra]
  have hcb : ∀ x, b.ContainsItem x = some true ↔ ∃ c ∈ b.items, RankValues x c = 0 := by
    intro x
    rw [ContainsItem_true_iff b (hrb ▸ hr) hsb]
    unfold set.Holds
    rw [hrb]
  refine ⟨?_, ?_, ?_, ?_⟩
  · obtain ⟨r, hrun, hrank, hs, hholds⟩ :=
      And_run RankValues hr heap first second a b ha hb (hrb ▸ hr) hsb
    refine ⟨r, hrun, ?_⟩
    intro x
    rw [ContainsItem_true_iff r (hrank ▸ hr) hs, hholds, hca, hcb]
    constructor
    · rintro ⟨c, hc, hbc, hzero⟩
      refine ⟨⟨c, hc, hzero⟩, ?_⟩
      obtain ⟨d, hd, hzero2⟩ := (Holds_congr b (hrb ▸ hr) x c (hrb ▸ hzero)).1 hbc
      exact ⟨d, hd, hrb ▸ hzero2⟩
    · rintro ⟨⟨c, hc, hzero⟩, d, hd, hzero2⟩
      refine ⟨c, hc, ?_, hzero⟩
      exact (Holds_congr b (hrb ▸ hr) x c (hrb ▸ hzero)).2 ⟨d, hd, hrb ▸ hzero2⟩
  · obtain ⟨r, hrun, hrank, hs, hholds, _⟩ := Or_run RankValues hr heap first second a b ha hb
    refine ⟨r, hrun, ?_⟩
    intro x
    rw [ContainsItem_true_iff r (hrank ▸ hr) hs, hholds, hca, hcb]
  · obtain ⟨r, hrun, hrank, hs, hholds, _⟩ := Sans_run RankValues hr heap first second a b ha hb
    refine ⟨r, hrun, ?_⟩
    intro x
    rw [ContainsItem_true_iff r (hrank ▸ hr) hs, hholds, hca, hcb]
  · obtain ⟨s1, s2, r, h1, h2, h3, h4, hrank, hs, hholds⟩ :=
      Xor_run RankValues hr heap first second a b ha hb
    refine ⟨s1, s2, r, h1, h2, h3, h4, ?_⟩
    intro x
    rw [ContainsItem_true_iff r (hrank ▸ hr) hs, hholds, hca, hcb]

end SetAlgebraClaims

section SetLawClaims

variable {T : Type}

/-- Two lists that are strictly increasing under a ranking and have the same
members are equal. -/
theorem sorted_ext (rank : T → T → Int) (hr : IsRanking rank) (l1 l2 : List T)
    (h1 : l1.Pairwise (fun x y => rank x y = -1)) (h2 : l2.Pairwise (fun x y => rank x y = -1))
    (hmem : ∀ c, c ∈ l1 ↔ c ∈ l2) : l1 = l2 := by
  have hne : ∀ x y, rank x y = -1 → x ≠ y := by
    intro x y h e
    subst e
    have := hr.self x
    omega
  have hn1 : l1.Nodup := h1.imp (fun {x y} h => hne x y h)
  have hn2 : l2.Nodup := h2.imp (fun {x y} h => hne x y h)
  haveI : IsAntisymm T (fun x y => rank x y = -1) :=
    ⟨fun x y hxy hyx => by
      have := (hr.flip x y).1 hxy
      omega⟩
  exact List.eq_of_perm_of_sorted ((List.perm_ext_iff_of_nodup hn1 hn2).2 hmem) h1 h2

theorem Holds_iff_mem (v : set T) (hn : IsNatural v.rank) (x : T) : v.Holds x ↔ x ∈ v.items := by
  constructor
  · rintro ⟨c, hc, hzero⟩
    exact (hn.2 x c hzero) ▸ hc
  · intro h
    exact ⟨x, h, hn.1.self x⟩

/-- C28: when the natural ranking is a total order in which only equal items rank
equal, `Or` of two sets and `Or` of the same sets in the other order return new
sets that hold the same items in the same order. -/
theorem Or_commutative (RankValues : T → T → Int) (hn : IsNatural RankValues)
    (heap : List (set T)) (first second : Nat) (a b : set T) (ha : heap[first]? = some a)
    (hb : heap[second]? = some b) :
    ∃ r r', sets.Or RankValues heap first second = some (heap ++ [r], heap.length) ∧
      sets.Or RankValues heap second first = some (heap ++ [r'], heap.length) ∧
      r.items = r'.items ∧ ∀ c, c ∈ r.items ↔ c ∈ a.items ∨ c ∈ b.items := by
  obtain ⟨r, hrun, hrank, hs, hholds, _⟩ := Or_run RankValues hn.1 heap first second a b ha hb
  obtain ⟨r', hrun', hrank', hs', hholds', _⟩ :=
    Or_run RankValues hn.1 heap second first b a hb ha
  have hzero : ∀ (l : List T) (x : T), (∃ c ∈ l, RankValues x c = 0) ↔ x ∈ l := by
    intro l x
    constructor
    · rintro ⟨c, hc, h⟩
      exact (hn.2 x c h) ▸ hc
    · exact fun h => ⟨x, h, hn.1.self x⟩
  have hmem : ∀ c, c ∈ r.items ↔ c ∈ a.items ∨ c ∈ b.items := by
    intro c
    rw [← Holds_iff_mem r (hrank ▸ hn), hholds, hzero, hzero]
  have hmem' : ∀ c, c ∈ r'.items ↔ c ∈ b.items ∨ c ∈ a.items := by
    intro c
    rw [← Holds_iff_mem r' (hrank' ▸ hn), hholds', hzero, hzero]
  refine ⟨r, r', hrun, hrun', ?_, hmem⟩
  apply sorted_ext RankValues hn.1
  · have := hs
    unfold set.Sorted at this
    rwa [hrank] at this
  · have := hs'
    unfold set.Sorted at this
    rwa [hrank'] at this
  · intro c
    rw [hmem, hmem', or_comm]

/-- C29: when the natural ranking is a total order with the values -1, 0 and 1,
`Or` of two sets and then `Sans` of its result and the second set return new
sets, and every item of the last one is an item of the first set. -/
theorem Sans_Or_subset (RankValues : T → T → Int) (hr : IsRanking RankValues)
    (heap : List (set T)) (first second : Nat) (a b : set T) (ha : heap[first]? = some a)
    (hb : heap[second]? = some b) :
    ∃ o s, sets.Or RankValues heap first second = some (heap ++ [o], heap.length) ∧
      sets.Sans RankValues (heap ++ [o]) heap.length second
        = some (heap ++ [o] ++ [s], heap.length + 1) ∧
      ∀ c ∈ s.items, c ∈ a.items := by
  obtain ⟨o, hrun, _, _, _, hfrom⟩ := Or_run RankValues hr heap first second a b ha hb
  obtain ⟨s, hsans, _, _, _, hitems⟩ := Sans_run RankValues hr (heap ++ [o]) heap.length second
    o b (by simp) (getElem?_append_of_some _ _ _ _ hb)
  have hlen : (heap ++ [o]).length = heap.length + 1 := by simp
  rw [hlen] at hsans
  refine ⟨o, s, hrun, hsans, ?_⟩
  intro c hc
  obtain ⟨h1, h2⟩ := hitems c hc
  rcases hfrom c h1 with h | h
  · exact h
  · exact absurd (hr.self c) (h2 c h)

theorem mutate_fresh_some {α : Type} (heap heap' : List α) (object : α)
    (method : α → Option α)
    (h : mutate (heap ++ [object]) heap.length method = some heap') :
    ∃ changed, method object = some changed ∧ heap' = heap ++ [changed] := by
  rw [mutate_fresh_option] at h
  cases hm : method object with
  | none => simp [hm] at h
  | some changed =>
    rw [hm] at h
    exact ⟨changed, rfl, by simpa using h.symm⟩

theorem andLoop_frame (heap : List (set T)) (second : Nat) (items : List T) :
    ∀ (r : set T) (heap' : List (set T)),
      sets.andLoop (heap ++ [r]) second heap.length items = some heap' →
      ∃ r', heap' = heap ++ [r'] := by
  induction items with
  | nil =>
    intro r heap' h
    exact ⟨r, by simpa [sets.andLoop] using h.symm⟩
  | cons head rest ih =>
    intro r heap' h
    unfold sets.andLoop at h
    split at h
    · cases h
    · split at h
      · split at h
        · rename_i heap1 hm
          obtain ⟨changed, _, hheap1⟩ := mutate_fresh_some _ _ _ _ hm
          rw [hheap1] at h
          exact ih _ _ h
        · cases h
      · exact ih _ _ h
      · cases h

theorem And_frame (RankValues : T → T → Int) (heap heap' : List (set T))
    (first second result : Nat)
    (h : sets.And RankValues heap first second = some (heap', result)) :
    result = heap.length ∧ ∃ r, heap' = heap ++ [r] := by
  unfold sets.And at h
  simp only at h
  split at h
  · cases h
  · split at h
    · rename_i heap2 hloop
      obtain ⟨r, hr⟩ := andLoop_frame _ _ _ _ _ hloop
      simp only [Option.some.injEq, Prod.mk.injEq] at h
      exact ⟨h.2.symm, r, h.1 ▸ hr⟩
    · cases h

theorem Sans_frame (RankValues : T → T → Int) (heap heap' : List (set T))
    (first second result : Nat)
    (h : sets.Sans RankValues heap first second = some (heap', result)) :
    result = heap.length ∧ ∃ r, heap' = heap ++ [r] := by
  unfold sets.Sans at h
  simp only at h
  split at h
  · cases h
  · split at h
    · cases h
    · rename_i heap2 hm
      obtain ⟨r1, _, hheap2⟩ := mutate_fresh_some _ _ _ _ hm
      subst hheap2
      split at h
      · cases h
      · split at h
        · cases h
        · rename_i heap3 hm2
          obtain ⟨r, _, hheap3⟩ := mutate_fresh_some _ _ _ _ hm2
          simp only [Option.some.injEq, Prod.mk.injEq] at h
          exact ⟨h.2.symm, r, h.1 ▸ hheap3⟩

theorem Or_frame (RankValues : T → T → Int) (heap heap' : List (set T))
    (first second result : Nat)
    (h : sets.Or RankValues heap first second = some (heap', result)) :
    result = heap.length ∧ ∃ r, heap' = heap ++ [r] := by
  unfold sets.Or at h
  simp only at h
  split at h
  · cases h
  · split at h
    · cases h
    · rename_i heap2 hm
      obtain ⟨r1, _, hheap2⟩ := mutate_fresh_some _ _ _ _ hm
      subst hheap2
      split at h
      · cases h
      · split at h
        · cases h
        · rename_i heap3 hm2
          obtain ⟨r, _, hheap3⟩ := mutate_fresh_some _ _ _ _ hm2
          simp only [Option.some.injEq, Prod.mk.injEq] at h
          exact ⟨h.2.symm, r, h.1 ▸ hheap3⟩

theorem Xor_frame (RankValues : T → T → Int) (heap heap' : List (set T))
    (first second result : Nat)
    (h : sets.Xor RankValues heap first second = some (heap', result)) :
    result = heap.length + 2 ∧ ∃ s1 s2 r, heap' = heap ++ [s1, s2, r] := by
  unfold sets.Xor at h
  split at h
  · cases h
  · rename_i heap1 left h1
    obtain ⟨_, s1, hs1⟩ := Sans_frame _ _ _ _ _ _ h1
    split at h
    · cases h
    · rename_i heap2 right h2
      obtain ⟨_, s2, hs2⟩ := Sans_frame _ _ _ _ _ _ h2
      obtain ⟨hres, r, hr⟩ := Or_frame _ _ _ _ _ _ h
      subst hs1 hs2
      refine ⟨by simp [hres], s1, s2, r, by simp [hr]⟩

end SetLawClaims

section SetPurityClaims

variable {T : Type}

/-- C30: `And`, `Or`, `Sans` and `Xor` return a new set, at an address that held no
object before, and the objects at the addresses of the two sets given are as
they were: the objects after the call are the objects before it followed by the
new ones (one for `And`, `Or` and `Sans`, three for `Xor`, the two differences
and the result).  This holds whenever a call returns, and a call returns when
the natural ranking is a total order with the values -1, 0 and 1 (for `And`,
when the second set is sorted under such a ranking function as well). -/
theorem set_operations_are_pure (RankValues : T → T → Int) (hr : IsRanking RankValues)
    (heap : List (set T)) (first second : Nat) (a b : set T) (ha : heap[first]? = some a)
    (hb : heap[second]? = some b) (hrb : IsRanking b.rank) (hsb : b.Sorted) :
    (∃ r, sets.And RankValues heap first second = some (heap ++ [r], heap.length) ∧
      (heap ++ [r])[first]? = some a ∧ (heap ++ [r])[second]? = some b) ∧
    (∃ r, sets.Or RankValues heap first second = some (heap ++ [r], heap.length) ∧
      (heap ++ [r])[first]? = some a ∧ (heap ++ [r])[second]? = some b) ∧
    (∃ r, sets.Sans RankValues heap first second = some (heap ++ [r], heap.length) ∧
      (heap ++ [r])[first]? = some a ∧ (heap ++ [r])[second]? = some b) ∧
    (∃ s1 s2 r, sets.Xor RankValues heap first second
        = some (heap ++ [s1, s2, r], heap.length + 2) ∧
      (heap ++ [s1, s2, r])[first]? = some a ∧ (heap ++ [s1, s2, r])[second]? = some b) ∧
    heap[heap.length]? = none ∧
    (∀ heap' result,
      (sets.And RankValues heap first second = some (heap', result) ∨
        sets.Or RankValues heap first second = some (heap', result) ∨
        sets.Sans RankValues heap first second = some (heap', result) ∨
        sets.Xor RankValues heap first second = some (heap', result)) →
      heap.length ≤ result ∧ ∃ added, heap' = heap ++ added) := by
  have hkeep : ∀ (added : List (set T)) (address : Nat) (object : set T),
      heap[address]? = some object → (heap ++ added)[address]? = some object := by
    intro added address object h
    rw [List.getElem?_append_left (address_lt_of_cell _ _ _ h)]
    exact h
  refine ⟨?_, ?_, ?_, ?_, by simp, ?_⟩
  · obtain ⟨r, hrun, _⟩ := And_run RankValues hr heap first second a b ha hb hrb hsb
    exact ⟨r, hrun, hkeep _ _ _ ha, hkeep _ _ _ hb⟩
  · obtain ⟨r, hrun, _⟩ := Or_run RankValues hr heap first second a b ha hb
    exact ⟨r, hrun, hkeep _ _ _ ha, hkeep _ _ _ hb⟩
  · obtain ⟨r, hrun, _⟩ := Sans_run RankValues hr heap first second a b ha hb
    exact ⟨r, hrun, hkeep _ _ _ ha, hkeep _ _ _ hb⟩
  · obtain ⟨s1, s2, r, _, _, _, hrun, _⟩ := Xor_run RankValues hr heap first second a b ha hb
    refine ⟨s1, s2, r, ?_, hkeep _ _ _ ha, hkeep _ _ _ hb⟩
    rw [hrun]
    simp
  · intro heap' result h
    rcases h with h | h | h | h
    · obtain ⟨h1, r, h2⟩ := And_frame _ _ _ _ _ _ h
      exact ⟨by omega, [r], h2⟩
    · obtain ⟨h1, r, h2⟩ := Or_frame _ _ _ _ _ _ h
      exact ⟨by omega, [r], h2⟩
    · obtain ⟨h1, r, h2⟩ := Sans_frame _ _ _ _ _ _ h
      exact ⟨by omega, [r], h2⟩
    · obtain ⟨h1, s1, s2, r, h2⟩ := Xor_frame _ _ _ _ _ _ h
      exact ⟨by omega, [s1, s2, r], h2⟩

/-- The sets 1, 2, 3 and 3, 4 of integers: the four operations leave them as they
are and return the sets 3; 1, 2, 3, 4; 1, 2; and 1, 2, 4. -/
theorem set_operations_are_pure_witness :
    (sets.And rankIntegers [⟨[1, 2, 3], rankIntegers⟩, ⟨[3, 4], rankIntegers⟩] 0 1).map
        (fun r => (r.1.map set.items, r.2)) = some ([[1, 2, 3], [3, 4], [3]], 2) ∧
      (sets.Or rankIntegers [⟨[1, 2, 3], rankIntegers⟩, ⟨[3, 4], rankIntegers⟩] 0 1).map
        (fun r => (r.1.map set.items, r.2)) = some ([[1, 2, 3], [3, 4], [1, 2, 3, 4]], 2) ∧
      (sets.Sans rankIntegers [⟨[1, 2, 3], rankIntegers⟩, ⟨[3, 4], rankIntegers⟩] 0 1).map
        (fun r => (r.1.map set.items, r.2)) = some ([[1, 2, 3], [3, 4], [1, 2]], 2) ∧
      (sets.Xor rankIntegers [⟨[1, 2, 3], rankIntegers⟩, ⟨[3, 4], rankIntegers⟩] 0 1).map
        (fun r => (r.1.map set.items, r.2))
        = some ([[1, 2, 3], [3, 4], [1, 2], [4], [1, 2, 4]], 4) ∧
      ∃ r, sets.Or rankIntegers [⟨[1, 2, 3], rankIntegers⟩, ⟨[3, 4], rankIntegers⟩] 0 1
          = some ([⟨[1, 2, 3], rankIntegers⟩, ⟨[3, 4], rankIntegers⟩] ++ [r], 2) ∧
        ([⟨[1, 2, 3], rankIntegers⟩, ⟨[3, 4], rankIntegers⟩] ++ [r])[0]?
          = some ⟨[1, 2, 3], rankIntegers⟩ ∧
        ([⟨[1, 2, 3], rankIntegers⟩, ⟨[3, 4], rankIntegers⟩] ++ [r])[1]?
          = some ⟨[3, 4], rankIntegers⟩ :=
  ⟨by decide, by decide, by decide, by decide,
    (set_operations_are_pure rankIntegers rankIntegers_natural.1
      [⟨[1, 2, 3], rankIntegers⟩, ⟨[3, 4], rankIntegers⟩] 0 1 _ _ rfl rfl
      rankIntegers_natural.1 (by unfold set.Sorted; decide)).2.1⟩

/-- The sets 1, 2, 3 and 3, 4 of integers: the result of `And` contains 3, which
both sets contain, and the four operations return. -/
theorem set_operations_are_algebraic_witness :
    (⟨[1, 2, 3], rankIntegers⟩ : set Int).ContainsItem 3 = some true ∧
      (⟨[3, 4], rankIntegers⟩ : set Int).ContainsItem 3 = some true ∧
      ∃ r, sets.And rankIntegers [⟨[1, 2, 3], rankIntegers⟩, ⟨[3, 4], rankIntegers⟩] 0 1
          = some ([⟨[1, 2, 3], rankIntegers⟩, ⟨[3, 4], rankIntegers⟩] ++ [r], 2) ∧
        ∀ x, r.ContainsItem x = some true ↔
          (⟨[1, 2, 3], rankIntegers⟩ : set Int).ContainsItem x = some true ∧
          (⟨[3, 4], rankIntegers⟩ : set Int).ContainsItem x = some true :=
  ⟨by decide, by decide,
    (set_operations_are_algebraic rankIntegers rankIntegers_natural.1
      [⟨[1, 2, 3], rankIntegers⟩, ⟨[3, 4], rankIntegers⟩] 0 1 _ _ rfl rfl rfl rfl
      (by unfold set.Sorted; decide) (by unfold set.Sorted; decide)).1⟩

/-- The sets 1, 2, 3 and 3, 4 of integers: `Or` in both orders gives 1, 2, 3, 4. -/
theorem Or_commutative_witness :
    (sets.Or rankIntegers [⟨[1, 2, 3], rankIntegers⟩, ⟨[3, 4], rankIntegers⟩] 1 0).map
        (fun r => (r.1.map set.items, r.2)) = some ([[1, 2, 3], [3, 4], [1, 2, 3, 4]], 2) ∧
      ∃ r r', sets.Or rankIntegers [⟨[1, 2, 3], rankIntegers⟩, ⟨[3, 4], rankIntegers⟩] 0 1
          = some ([⟨[1, 2, 3], rankIntegers⟩, ⟨[3, 4], rankIntegers⟩] ++ [r], 2) ∧
        sets.Or rankIntegers [⟨[1, 2, 3], rankIntegers⟩, ⟨[3, 4], rankIntegers⟩] 1 0
          = some ([⟨[1, 2, 3], rankIntegers⟩, ⟨[3, 4], rankIntegers⟩] ++ [r'], 2) ∧
        r.items = r'.items :=
  ⟨by decide,
    match Or_commutative rankIntegers rankIntegers_natural
      [⟨[1, 2, 3], rankIntegers⟩, ⟨[3, 4], rankIntegers⟩] 0 1 _ _ rfl rfl with
    | ⟨r, r', h1, h2, h3, _⟩ => ⟨r, r', h1, h2, h3⟩⟩

/-- The sets 1, 2, 3 and 3, 4 of integers: `Sans` of their `Or` and the second set
is 1, 2. -/
theorem Sans_Or_subset_witness :
    (sets.Sans rankIntegers
        [⟨[1, 2, 3], rankIntegers⟩, ⟨[3, 4], rankIntegers⟩, ⟨[1, 2, 3, 4], rankIntegers⟩] 2 1).map
        (fun r => (r.1.map set.items, r.2))
        = some ([[1, 2, 3], [3, 4], [1, 2, 3, 4], [1, 2]], 3) ∧
      ∃ o s, sets.Or rankIntegers [⟨[1, 2, 3], rankIntegers⟩, ⟨[3, 4], rankIntegers⟩] 0 1
          = some ([⟨[1, 2, 3], rankIntegers⟩, ⟨[3, 4], rankIntegers⟩] ++ [o], 2) ∧
        sets.Sans rankIntegers ([⟨[1, 2, 3], rankIntegers⟩, ⟨[3, 4], rankIntegers⟩] ++ [o]) 2 1
          = some ([⟨[1, 2, 3], rankIntegers⟩, ⟨[3, 4], rankIntegers⟩] ++ [o] ++ [s], 2 + 1) ∧
        ∀ c ∈ s.items, c ∈ (⟨[1, 2, 3], rankIntegers⟩ : set Int).items :=
  ⟨by decide,
    Sans_Or_subset rankIntegers rankIntegers_natural.1
      [⟨[1, 2, 3], rankIntegers⟩, ⟨[3, 4], rankIntegers⟩] 0 1 _ _ rfl rfl⟩

end SetPurityClaims

section VersionClaims

theorem GetNextVersion_cons (c : Nat) (cs : List Nat) (k : Nat) :
    Versions.GetNextVersion (c :: cs) (k + 2)
      = (Versions.GetNextVersion cs (k + 1)).map (fun next => c :: next) := by
  simp only [Versions.GetNextVersion, Nat.add_one_ne_zero, if_false, Nat.add_sub_cancel,
    show k + 2 - 1 = k + 1 from rfl, List.getElem?_cons_succ, List.take_succ_cons]
  cases cs[k]? <;> rfl

theorem IsValidNextVersion_advanced (current : List Nat) :
    ∀ level, 1 ≤ level → ∃ next, Versions.GetNextVersion current level = some next ∧
      Versions.IsValidNextVersion current next = true ∧
      Versions.IsValidNextVersion next current = false := by
  induction current with
  | nil =>
    intro level hlevel
    refine ⟨[1], ?_, rfl, rfl⟩
    have : level ≠ 0 := by omega
    simp [Versions.GetNextVersion, this]
  | cons c cs ih =>
    intro level hlevel
    match level, hlevel with
    | 1, _ =>
      refine ⟨[c + 1], by simp [Versions.GetNextVersion], ?_, ?_⟩
      · simp [Versions.IsValidNextVersion]
      · simp only [Versions.IsValidNextVersion]
        have h1 : ¬ c + 1 = c := by omega
        have h2 : (c == c + 1 + 1) = false := by
          rw [beq_eq_false_iff_ne]
          omega
        rw [if_neg h1, h2]
        rfl
    | k + 2, _ =>
      obtain ⟨next, hnext, h1, h2⟩ := ih (k + 1) (by omega)
      refine ⟨c :: next, by rw [GetNextVersion_cons, hnext]; rfl, ?_, ?_⟩
      · simpa [Versions.IsValidNextVersion] using h1
      · simpa [Versions.IsValidNextVersion] using h2

theorem IsValidNextVersion_self (current : List Nat) :
    Versions.IsValidNextVersion current current = false := by
  induction current with
  | nil => rfl
  | cons c cs ih => simpa [Versions.IsValidNextVersion] using ih

theorem IsValidNextVersion_position (current : List Nat) :
    ∀ next, Versions.IsValidNextVersion current next = true →
      ∃ level, 1 ≤ level ∧ Versions.GetNextVersion current level = some next := by
  induction current with
  | nil =>
    intro next h
    have : next = [1] := by simpa [Versions.IsValidNextVersion] using h
    subst this
    exact ⟨1, le_refl _, rfl⟩
  | cons c cs ih =>
    intro next h
    cases next with
    | nil => simp [Versions.IsValidNextVersion] at h
    | cons n ns =>
      by_cases hsame : c = n
      · subst hsame
        have h1 : Versions.IsValidNextVersion cs ns = true := by
          simpa [Versions.IsValidNextVersion] using h
        obtain ⟨level, hlevel, hnext⟩ := ih ns h1
        obtain ⟨k, rfl⟩ : ∃ k, level = k + 1 := ⟨level - 1, by omega⟩
        exact ⟨k + 2, by omega, by rw [GetNextVersion_cons, hnext]; rfl⟩
      · have h1 : n = c + 1 ∧ ns = [] := by
          simpa [Versions.IsValidNextVersion, hsame] using h
        obtain ⟨rfl, rfl⟩ := h1
        exact ⟨1, le_refl _, by simp [Versions.GetNextVersion]⟩

/-- C31 (the version library of the specification): advancing a version at a
position from 1 to its size gives the ordinals before the position followed by
the ordinal at the position plus one, and advancing it at any later position
gives the version with the ordinal 1 appended; `v1` at 2 and at 3 gives `v1.1`,
`v1.2.3` at 4 gives `v1.2.3.1`, at 2 gives `v1.3` and at 1 gives `v2`; the
version advanced at a position from 1 is a valid next version of the version,
the version is no valid next version of the advanced one nor of itself; and the
valid next versions are the versions advanced at a position. -/
theorem GetNextVersion_law (current : List Nat) (level : Nat) (hlevel : 1 ≤ level) :
    (level ≤ current.length →
      ∃ ordinal, current[level - 1]? = some ordinal ∧
        Versions.GetNextVersion current level
          = some (current.take (level - 1) ++ [ordinal + 1])) ∧
      (current.length < level →
        Versions.GetNextVersion current level = some (current ++ [1])) ∧
      (∃ next, Versions.GetNextVersion current level = some next ∧
        Versions.IsValidNextVersion current next = true ∧
        Versions.IsValidNextVersion next current = false) ∧
      Versions.IsValidNextVersion current current = false ∧
      (∀ next, Versions.IsValidNextVersion current next = true ↔
        ∃ position, 1 ≤ position ∧ Versions.GetNextVersion current position = some next) ∧
      Versions.GetNextVersion [1] 2 = some [1, 1] ∧
      Versions.GetNextVersion [1] 3 = some [1, 1] ∧
      Versions.GetNextVersion [1, 2, 3] 4 = some [1, 2, 3, 1] ∧
      Versions.GetNextVersion [1, 2, 3] 2 = some [1, 3] ∧
      Versions.GetNextVersion [1, 2, 3] 1 = some [2] := by
  have hne : level ≠ 0 := by omega
  refine ⟨?_, ?_, IsValidNextVersion_advanced current level hlevel,
    IsValidNextVersion_self current, ?_, by decide, by decide, by decide, by decide, by decide⟩
  · intro hle
    have hlt : level - 1 < current.length := by omega
    refine ⟨current[level - 1], List.getElem?_eq_getElem hlt, ?_⟩
    simp only [Versions.GetNextVersion, hne, if_false, List.getElem?_eq_getElem hlt]
  · intro hlt
    have hnone : current[level - 1]? = none := List.getElem?_eq_none (by omega)
    simp only [Versions.GetNextVersion, hne, if_false, hnone]
  · intro next
    constructor
    · exact IsValidNextVersion_position current next
    · rintro ⟨position, hposition, hnext⟩
      obtain ⟨other, hother, hvalid, _⟩ := IsValidNextVersion_advanced current position hposition
      rw [hnext] at hother
      cases hother
      exact hvalid

/-- The versions of the tests: `v2.3` advanced at 2 is `v2.4`, a valid next version
of `v2.3`, and `v2.3` is no valid next version of `v2.4`. -/
theorem GetNextVersion_law_witness :
    Versions.GetNextVersion [2, 3] 2 = some [2, 4] ∧
      Versions.IsValidNextVersion [2, 3] [2, 4] = true ∧
      Versions.IsValidNextVersion [2, 4] [2, 3] = false ∧
      ∃ ordinal, [2, 3][2 - 1]? = some ordinal ∧
        Versions.GetNextVersion [2, 3] 2 = some ([2, 3].take (2 - 1) ++ [ordinal + 1]) :=
  ⟨by decide, by decide, by decide, (GetNextVersion_law [2, 3] 2 (by decide)).1 (by decide)⟩

end VersionClaims

section MomentClaims

/-- C40: over the integers of 64 bits, with the arithmetic modulo `2^64` of Go:
`Later` undoes `Earlier` and `Earlier` undoes `Later` for the same duration, the
duration from a moment to the moment later by `d` and from the moment earlier by
`d` to the moment is `d`, the duration between any two moments is the negation of
the duration between them in the other order, and the duration from a moment to
itself is zero; every result is an integer of 64 bits. -/
theorem moments_consistent (m d a b : Int) (hm : isInt m) (hd : isInt d) :
    moments.Later (moments.Earlier m d) d = m ∧
      moments.Earlier (moments.Later m d) d = m ∧
      moments.Duration m (moments.Later m d) = d ∧
      moments.Duration (moments.Earlier m d) m = d ∧
      moments.Duration a b = wrap (-(moments.Duration b a)) ∧
      moments.Duration m m = 0 ∧
      isInt (moments.Duration a b) ∧ isInt (moments.Earlier m d) ∧
      isInt (moments.Later m d) := by
  unfold isInt at *
  unfold moments.Later moments.Earlier moments.Duration wrap
  refine ⟨?_, ?_, ?_, ?_, ?_, ?_, ?_, ?_, ?_⟩ <;> omega

/-- The latest moment and the duration of one millisecond: the moment later by it
is the earliest moment, and the moment earlier than that by it is the latest
moment again. -/
theorem moments_consistent_witness :
    moments.Later 9223372036854775807 1 = -9223372036854775808 ∧
      moments.Later (moments.Earlier 9223372036854775807 1) 1 = 9223372036854775807 ∧
      moments.Earlier (moments.Later 9223372036854775807 1) 1 = 9223372036854775807 :=
  ⟨by decide,
    (moments_consistent 9223372036854775807 1 0 0 (by unfold isInt; decide)
      (by unfold isInt; decide)).1,
    (moments_consistent 9223372036854775807 1 0 0 (by unfold isInt; decide)
      (by unfold isInt; decide)).2.1⟩

end MomentClaims

section SearchCost

variable {T : Type}

/-- The loop of `search` started on a window of fewer than `2 ^ fuel` candidates
returns within `fuel` iterations. -/
theorem searchLoop_log_enough (v : set T)
    (hvalues : ∀ x y, v.rank x y = -1 ∨ v.rank x y = 0 ∨ v.rank x y = 1) (item : T) :
    ∀ (fuel more : Nat) (first last size : Int),
      size < 2 ^ fuel → 1 ≤ first → last ≤ v.items.length → size = last - first + 1 →
      v.searchLoop item (fuel + more) first last size = v.searchLoop item fuel first last size := by
  intro fuel
  induction fuel with
  | zero =>
    intro more first last size hfuel _ _ _
    have hnot : ¬ 0 < size := by
      simp only [pow_zero] at hfuel
      omega
    cases more with
    | zero => rfl
    | succ more => simp [set.searchLoop, hnot]
  | succ fuel ih =>
    intro more first last size hfuel hfirst hlast hsize
    have hsucc : fuel + 1 + more = (fuel + more) + 1 := by omega
    have hpow : (2 : Int) ^ (fuel + 1) = 2 * 2 ^ fuel := by ring
    rw [hsucc]
    by_cases hpos : 0 < size
    · have hindex : (first + size / 2 - 1).toNat < v.items.length := by omega
      have hget : v.GetItem (first + size / 2)
          = some (v.items[(first + size / 2 - 1).toNat]) := by
        unfold set.GetItem list.GetItem
        rw [if_pos (by omega), List.get?_eq_getElem?, List.getElem?_eq_getElem hindex]
      simp only [set.searchLoop, hpos, if_true, hget]
      rcases hvalues item (v.items[(first + size / 2 - 1).toNat]) with h | h | h
      · rw [if_pos h, if_pos h]
        exact ih more first _ _ (by omega) hfirst (by omega) (by omega)
      · rw [if_neg (by omega), if_pos h, if_neg (by omega), if_pos h]
      · rw [if_neg (by omega), if_neg (by omega), if_pos h, if_neg (by omega),
          if_neg (by omega), if_pos h]
        exact ih more _ last _ (by omega) (by omega) hlast (by omega)
    · simp only [set.searchLoop, hpos, if_false]

/-- The iterations of the loop of `search` started on a window of fewer than
`2 ^ bound` candidates: the window is `first..last`, the probed index lies in it,
each window is at most half of the one before, and there are at most `bound`
iterations. -/
theorem searchProbes_spec (v : set T)
    (hvalues : ∀ x y, v.rank x y = -1 ∨ v.rank x y = 0 ∨ v.rank x y = 1) (item : T) :
    ∀ (fuel bound : Nat) (first last size : Int),
      size < 2 ^ bound → 1 ≤ first → last ≤ v.items.length → size = last - first + 1 →
      (∀ probe ∈ v.searchProbes item fuel first last size,
        probe.2.2.1 = probe.2.1 - probe.1 + 1 ∧ probe.1 ≤ probe.2.2.2 ∧
          probe.2.2.2 ≤ probe.2.1 ∧ 1 ≤ probe.2.2.2 ∧ probe.2.2.2 ≤ v.items.length) ∧
        (v.searchProbes item fuel first last size).length ≤ bound ∧
        (∀ probe ∈ (v.searchProbes item fuel first last size).head?, probe.2.2.1 = size) ∧
        (v.searchProbes item fuel first last size).Chain'
          (fun probe next => 2 * next.2.2.1 ≤ probe.2.2.1) := by
  intro fuel
  induction fuel with
  | zero =>
    intro bound first last size _ _ _ _
    simp [set.searchProbes]
  | succ fuel ih =>
    intro bound first last size hbound hfirst hlast hsize
    by_cases hpos : 0 < size
    · obtain ⟨b, rfl⟩ : ∃ b, bound = b + 1 := by
        cases bound with
        | zero =>
          simp only [pow_zero] at hbound
          omega
        | succ b => exact ⟨b, rfl⟩
      have hpow : (2 : Int) ^ (b + 1) = 2 * 2 ^ b := by ring
      have hindex : (first + size / 2 - 1).toNat < v.items.length := by omega
      have hget : v.GetItem (first + size / 2)
          = some (v.items[(first + size / 2 - 1).toNat]) := by
        unfold set.GetItem list.GetItem
        rw [if_pos (by omega), List.get?_eq_getElem?, List.getElem?_eq_getElem hindex]
      have hstep : ∀ (first1 last1 size1 : Int), size1 < 2 ^ b → 1 ≤ first1 →
          last1 ≤ v.items.length → size1 = last1 - first1 + 1 → 2 * size1 ≤ size →
          (∀ probe ∈ (first, last, size, first + size / 2) ::
              v.searchProbes item fuel first1 last1 size1,
            probe.2.2.1 = probe.2.1 - probe.1 + 1 ∧ probe.1 ≤ probe.2.2.2 ∧
              probe.2.2.2 ≤ probe.2.1 ∧ 1 ≤ probe.2.2.2 ∧ probe.2.2.2 ≤ v.items.length) ∧
            ((first, last, size, first + size / 2) ::
              v.searchProbes item fuel first1 last1 size1).length ≤ b + 1 ∧
            (∀ probe ∈ ((first, last, size, first + size / 2) ::
              v.searchProbes item fuel first1 last1 size1).head?, probe.2.2.1 = size) ∧
            ((first, last, size, first + size / 2) ::
              v.searchProbes item fuel first1 last1 size1).Chain'
              (fun probe next => 2 * next.2.2.1 ≤ probe.2.2.1) := by
        intro first1 last1 size1 h1 h2 h3 h4 h5
        obtain ⟨hall, hlen, hhead, hchain⟩ := ih b first1 last1 size1 h1 h2 h3 h4
        refine ⟨?_, ?_, ?_, ?_⟩
        · intro probe hprobe
          rcases List.mem_cons.1 hprobe with h | h
          · subst h
            refine ⟨hsize, ?_, ?_, ?_, ?_⟩ <;> simp only <;> omega
          · exact hall probe h
        · simp only [List.length_cons]
          omega
        · simp
        · rw [List.chain'_cons']
          refine ⟨?_, hchain⟩
          intro next hnext
          rw [hhead next hnext]
          exact h5
      have hsingle : (∀ probe ∈ [(first, last, size, first + size / 2)],
            probe.2.2.1 = probe.2.1 - probe.1 + 1 ∧ probe.1 ≤ probe.2.2.2 ∧
              probe.2.2.2 ≤ probe.2.1 ∧ 1 ≤ probe.2.2.2 ∧ probe.2.2.2 ≤ v.items.length) ∧
            [(first, last, size, first + size / 2)].length ≤ b + 1 ∧
            (∀ probe ∈ [(first, last, size, first + size / 2)].head?, probe.2.2.1 = size) ∧
            [(first, last, size, first + size / 2)].Chain'
              (fun probe next => 2 * next.2.2.1 ≤ probe.2.2.1) := by
        refine ⟨?_, by simp, by simp, by simp⟩
        intro probe hprobe
        have : probe = (first, last, size, first + size / 2) := by simpa using hprobe
        subst this
        refine ⟨hsize, ?_, ?_, ?_, ?_⟩ <;> simp only <;> omega
      simp only [set.searchProbes, hpos, if_true, hget]
      rcases hvalues item (v.items[(first + size / 2 - 1).toNat]) with h | h | h
      · rw [if_pos h]
        exact hstep first _ _ (by omega) hfirst (by omega) (by omega) (by omega)
      · rw [if_neg (by omega), if_pos h]
        exact hsingle
      · rw [if_neg (by omega), if_neg (by omega), if_pos h]
        exact hstep _ last _ (by omega) (by omega) hlast (by omega) (by omega)
    · simp [set.searchProbes, hpos]

end SearchCost

section SearchCostClaims

variable {T : Type}

/-- C34: for a ranking function that returns -1, 0 or 1 only, `search` returns; at
every iteration of its loop `size = last - first + 1` and the probed index lies
between `first` and `last`, hence between 1 and the size of the set; the window
of an iteration is at most half of the window of the iteration before; and the
loop makes at most `⌊log2 n⌋ + 1` iterations on a set of `n` items: a budget of
so many iterations gives the result of `search`. -/
theorem search_is_logarithmic (v : set T)
    (hvalues : ∀ x y, v.rank x y = -1 ∨ v.rank x y = 0 ∨ v.rank x y = 1) (item : T) :
    (∃ result, v.search item = some result) ∧
      v.searchLoop item (Nat.log 2 v.items.length + 1) 1 v.GetSize v.GetSize = v.search item ∧
      (∀ probe ∈ v.searchProbes item v.items.length 1 v.GetSize v.GetSize,
        probe.2.2.1 = probe.2.1 - probe.1 + 1 ∧ probe.1 ≤ probe.2.2.2 ∧
          probe.2.2.2 ≤ probe.2.1 ∧ 1 ≤ probe.2.2.2 ∧ probe.2.2.2 ≤ v.items.length) ∧
      (v.searchProbes item v.items.length 1 v.GetSize v.GetSize).length
        ≤ Nat.log 2 v.items.length + 1 ∧
      (v.searchProbes item v.items.length 1 v.GetSize v.GetSize).Chain'
        (fun probe next => 2 * next.2.2.1 ≤ probe.2.2.1) := by
  have hlog : (v.GetSize : Int) < 2 ^ (Nat.log 2 v.items.length + 1) := by
    have h := Nat.lt_pow_succ_log_self (by decide : 1 < 2) v.items.length
    unfold set.GetSize
    exact_mod_cast h
  have hsize : v.GetSize = v.GetSize - 1 + 1 := by omega
  have hlength : v.GetSize ≤ (v.items.length : Int) := le_refl _
  obtain ⟨hall, hcount, _, hchain⟩ := searchProbes_spec v hvalues item v.items.length
    (Nat.log 2 v.items.length + 1) 1 v.GetSize v.GetSize hlog (le_refl _) hlength hsize
  refine ⟨?_, ?_, hall, hcount, hchain⟩
  · exact (searchLoop_fuel_enough v hvalues item v.items.length 0 1 v.GetSize v.GetSize
      hlength (le_refl _) hlength hsize).2
  · have h1 := searchLoop_log_enough v hvalues item (Nat.log 2 v.items.length + 1)
      v.items.length 1 v.GetSize v.GetSize hlog (le_refl _) hlength hsize
    have h2 := (searchLoop_fuel_enough v hvalues item v.items.length
      (Nat.log 2 v.items.length + 1) 1 v.GetSize v.GetSize
      hlength (le_refl _) hlength hsize).1
    rw [← h1, Nat.add_comm, h2]
    rfl

/-- The set 1, 3, 5, 7, 9 of integers and the item 7: the loop probes the indices
3, 5 and 4, three iterations, and `⌊log2 5⌋ + 1` is 3. -/
theorem search_is_logarithmic_witness :
    (⟨[1, 3, 5, 7, 9], rankIntegers⟩ : set Int).searchProbes 7 5 1 5 5
        = [(1, 5, 5, 3), (4, 5, 2, 5), (4, 4, 1, 4)] ∧
      (⟨[1, 3, 5, 7, 9], rankIntegers⟩ : set Int).search 7 = some (4, true) ∧
      Nat.log 2 5 + 1 = 3 ∧
      ((⟨[1, 3, 5, 7, 9], rankIntegers⟩ : set Int).searchProbes 7
          (⟨[1, 3, 5, 7, 9], rankIntegers⟩ : set Int).items.length 1
          (⟨[1, 3, 5, 7, 9], rankIntegers⟩ : set Int).GetSize
          (⟨[1, 3, 5, 7, 9], rankIntegers⟩ : set Int).GetSize).length
        ≤ Nat.log 2 (⟨[1, 3, 5, 7, 9], rankIntegers⟩ : set Int).items.length + 1 :=
  ⟨by decide, by decide, by norm_num [Nat.log],
    (search_is_logarithmic ⟨[1, 3, 5, 7, 9], rankIntegers⟩ rankIntegers_natural.1.values
      7).2.2.2.1⟩

end SearchCostClaims

section InversionClaims

variable {Component : Type}

/-- C32: the constructor `Inversion` raises a `panic` exactly when the operator
lies outside `INVERSE..CONJUGATE` or the expression is nil; otherwise
`GetOperator` and `GetExpression` of the new object return the operator and the
expression given; a `SetOperator` or `SetExpression` that raises a `panic`
leaves both fields as they were; and the expression node that the productions
build with `Inversion` is built exactly when the constructor raises none. -/
theorem Inversion_validates (code : Operator → Int) (operator : Operator)
    (expression : Option (Expression Component)) :
    ((inversionExpression.Inversion code operator expression).2 ≠ none ↔
        (code operator < code INVERSE ∨ code operator > code CONJUGATE) ∨ expression = none) ∧
      ((inversionExpression.Inversion code operator expression).2 = none →
        (inversionExpression.Inversion code operator expression).1.GetOperator = some operator ∧
        (inversionExpression.Inversion code operator expression).1.GetExpression
          = expression) ∧
      (∀ (v : inversionExpression Component) (other : Operator),
        (inversionExpression.SetOperator code v other).2 ≠ none →
        (inversionExpression.SetOperator code v other).1 = v) ∧
      (∀ (v : inversionExpression Component) (other : Option (Expression Component)),
        (inversionExpression.SetExpression v other).2 ≠ none →
        (inversionExpression.SetExpression v other).1 = v) ∧
      (∀ (v : inversionExpression Component) (other : Operator),
        (inversionExpression.SetOperator code v other).2 = none →
        (inversionExpression.SetOperator code v other).1.GetOperator = some other ∧
        (inversionExpression.SetOperator code v other).1.GetExpression = v.GetExpression) ∧
      (∀ (v : inversionExpression Component) (other : Option (Expression Component)),
        (inversionExpression.SetExpression v other).2 = none →
        (inversionExpression.SetExpression v other).1.GetExpression = other ∧
        (inversionExpression.SetExpression v other).1.GetOperator = v.GetOperator) ∧
      ((inversionExpression.Inversion code operator expression).2 = none ↔
        ∃ e, expression = some e ∧
          Inversion code operator expression = Except.ok (Expression.inversion operator e)) := by
  refine ⟨?_, ?_, ?_, ?_, ?_, ?_, ?_⟩
  · unfold inversionExpression.Inversion inversionExpression.SetOperator
      inversionExpression.SetExpression
    by_cases hrange : code operator < code INVERSE ∨ code operator > code CONJUGATE
    · simp [hrange]
    · cases expression <;> simp [hrange]
  · unfold inversionExpression.Inversion inversionExpression.SetOperator
      inversionExpression.SetExpression inversionExpression.GetOperator
      inversionExpression.GetExpression
    by_cases hrange : code operator < code INVERSE ∨ code operator > code CONJUGATE
    · simp [hrange]
    · cases expression <;> simp [hrange]
  · intro v other
    unfold inversionExpression.SetOperator
    split_ifs <;> simp
  · intro v other
    unfold inversionExpression.SetExpression
    cases other <;> simp
  · intro v other
    unfold inversionExpression.SetOperator inversionExpression.GetOperator
      inversionExpression.GetExpression
    split_ifs <;> simp
  · intro v other
    unfold inversionExpression.SetExpression inversionExpression.GetOperator
      inversionExpression.GetExpression
    cases other <;> simp
  · unfold inversionExpression.Inversion inversionExpression.SetOperator
      inversionExpression.SetExpression Inversion
    by_cases hrange : code operator < code INVERSE ∨ code operator > code CONJUGATE
    · simp [hrange]
    · cases expression <;> simp [hrange]

end InversionClaims

section RecursionClaims

/-- For the tokens of `NOT 1` and for the empty token stream no budget, here 1000
nested calls, suffices for `parseExpression` to return. -/
theorem parseExpression_unbounded_recursion_witness :
    parseExpression literalCollaborators 1000 (startOf [keyword "NOT", number "1"])
        = Outcome.outOfFuel ∧
      parseExpression literalCollaborators 1000 (startOf []) = Outcome.outOfFuel :=
  ⟨parseExpression_unbounded_recursion literalCollaborators 1000
      (startOf [keyword "NOT", number "1"]) (keyword "NOT") rfl (by decide) (by decide),
    parseExpression_unbounded_recursion literalCollaborators 1000 (startOf [])
      (nextToken (startOf [])).1 rfl (by decide) (by decide)⟩

end RecursionClaims

section OperatorTableClaims

theorem operatorText_of_operatorOf (text : String) (operator : Operator)
    (h : operatorOf text = some operator) : operatorText operator = some text := by
  unfold operatorOf at h
  split at h <;> first | (cases h; rfl) | cases h

theorem operatorOf_of_operatorText (operator : Operator) (text : String)
    (h : operatorText operator = some text) : operatorOf text = some operator := by
  cases operator <;> first | (cases h; rfl) | cases h

/-- C35: the table of `parseOperator` and the table of `formatOperator` are
inverse to each other: the operator of a delimiter text is rendered as that
text, the text of an operator is read as that operator, an operator is rendered
exactly when some text is read as it, and no two operators are rendered by the
same text; so `formatOperator` of the operator that `parseOperator` returns emits
the text of the token read. -/
theorem operator_tables_inverse :
    (∀ text operator, operatorOf text = some operator ↔ operatorText operator = some text) ∧
      (∀ operator, (∃ text, operatorText operator = some text) ↔
        ∃ text, operatorOf text = some operator) ∧
      (∀ first second text, operatorText first = some text → operatorText second = some text →
        first = second) ∧
      (∀ (v w : Parser) (operator : Operator) (token : Token) (state : String),
        parseOperator v = Outcome.ok operator token w →
        formatOperator operator state = Except.ok (state ++ token.value)) ∧
      (∀ (operator : Operator) (text : String) (tokens : List Token),
        formatOperator operator "" = Except.ok text →
        parseOperator (startOf (delimiter text :: tokens))
          = Outcome.ok operator (delimiter text) ⟨delimiter text :: tokens, 1⟩) := by
  refine ⟨?_, ?_, ?_, ?_, ?_⟩
  · intro text operator
    exact ⟨operatorText_of_operatorOf text operator, operatorOf_of_operatorText operator text⟩
  · intro operator
    constructor
    · rintro ⟨text, h⟩
      exact ⟨text, operatorOf_of_operatorText operator text h⟩
    · rintro ⟨text, h⟩
      exact ⟨text, operatorText_of_operatorOf text operator h⟩
  · intro first second text h1 h2
    have h3 := operatorOf_of_operatorText first text h1
    have h4 := operatorOf_of_operatorText second text h2
    rw [h3] at h4
    exact Option.some.inj h4
  · intro v w operator token state h
    unfold parseOperator at h
    simp only at h
    split at h
    · cases h
    · split at h
      · rename_i found hfound
        simp only [Outcome.ok.injEq] at h
        obtain ⟨h1, h2, _⟩ := h
        subst h1 h2
        simp only [formatOperator, operatorText_of_operatorOf _ _ hfound]
      · cases h
  · intro operator text tokens h
    have htext : operatorText operator = some text := by
      unfold formatOperator at h
      cases hop : operatorText operator with
      | none => simp [hop] at h
      | some found =>
        simp only [hop, Except.ok.injEq] at h
        rw [← h]
        simp
    exact parseOperator_of_operator (startOf (delimiter text :: tokens)) text operator rfl
      (operatorOf_of_operatorText operator text htext)

end OperatorTableClaims

section ExtentClaims

variable {Primitive : Type}

/-- The range that `buildRange` returns for the bracket pair of an extent has this
extent. -/
theorem buildRange_extent (g : Scalars Primitive) (extent : Extent) (first last : Primitive)
    (token t : Token) (v w : Parser) (range : Range Primitive)
    (h : buildRange g (brackets extent).1 (brackets extent).2 first last token v
      = Outcome.ok range t w) :
    range.GetExtent = extent := by
  cases extent <;>
    · simp only [buildRange, brackets] at h
      simp only [String.reduceEq, and_self, and_false, false_and, if_true, if_false,
        reduceCtorEq] at h
      repeat' split at h
      all_goals first
        | (simp only [Outcome.ok.injEq] at h
           obtain ⟨h1, _, _⟩ := h
           subst h1
           rfl)
        | simp at h

/-- C36: the bracket pair that `formatInterval` emits for an extent is read back by
`parseRange` as this extent: when the left bracket read is the left bracket of
the extent, the right bracket read is its right bracket and `parseRange` returns
a range, the range has this extent; `formatSpectrum` and `formatContinuum` emit
what `formatInterval` emits; the pairs are `[` `]` for `INCLUSIVE`, `(` `]` for
`RIGHT`, `[` `)` for `LEFT` and `(` `)` for `EXCLUSIVE`; and a square bracket
stands on the sides whose endpoint the extent includes, which are the sides
whose endpoint an interval with `first < last` contains. -/
theorem extent_brackets_roundtrip (g : Scalars Primitive) (r : Renderers Primitive)
    (extent : Extent) (v v1 v2 v3 v4 v5 w : Parser) (dots : String)
    (t0 t1 t2 t3 t4 t : Token) (first last : Primitive) (range : Range Primitive)
    (hleft : (parseDelimiter "[" v).orElse (parseDelimiter "(")
      = Outcome.ok (brackets extent).1 t0 v1)
    (hfirst : parseEndpoint g v1 = Outcome.ok first t1 v2)
    (hdots : parseDelimiter ".." v2 = Outcome.ok dots t2 v3)
    (hlast : parseEndpoint g v3 = Outcome.ok last t3 v4)
    (hright : (parseDelimiter "]" v4).orElse (parseDelimiter ")")
      = Outcome.ok (brackets extent).2 t4 v5)
    (hrange : parseRange g v = Outcome.ok range t w) :
    range.GetExtent = extent ∧
      (∀ (a b : Primitive) (e : Extent) (state : String),
        formatSpectrum r a e b state = formatInterval r a e b state ∧
        formatContinuum r a e b state = formatInterval r a e b state) ∧
      (brackets INCLUSIVE = ("[", "]") ∧ brackets RIGHT = ("(", "]") ∧
        brackets LEFT = ("[", ")") ∧ brackets EXCLUSIVE = ("(", ")")) ∧
      (∀ s : Interval,
        ((brackets s.extent).1 = "[" ↔ s.firstMember = s.first) ∧
        ((brackets s.extent).2 = "]" ↔ s.lastMember = s.last) ∧
        (s.first < s.last →
          ((brackets s.extent).1 = "[" ↔ s.ContainsValue s.first = true) ∧
          ((brackets s.extent).2 = "]" ↔ s.ContainsValue s.last = true))) := by
  refine ⟨?_, fun _ _ _ _ => ⟨rfl, rfl⟩, ⟨rfl, rfl, rfl, rfl⟩, ?_⟩
  · simp only [parseRange, hleft, Outcome.andThen, hfirst, hdots, hlast, hright] at hrange
    exact buildRange_extent g extent first last t4 t v5 w range hrange
  · intro s
    obtain ⟨first, extent, last⟩ := s
    cases extent <;>
      simp [brackets, Interval.firstMember, Interval.lastMember, Interval.ContainsValue] <;>
      omega

/-- On the tokens of `(1..5]` the range read has the extent `RIGHT`, whose bracket
pair is `(` `]`, and the interval `3 RIGHT 7` contains 7 and not 3. -/
theorem extent_brackets_roundtrip_witness :
    parseRange literalScalars
        (startOf [delimiter "(", number "1", delimiter "..", number "5", delimiter "]"])
        = Outcome.ok (Range.continuum (number "1") RIGHT (number "5")) (delimiter "]")
            ⟨[delimiter "(", number "1", delimiter "..", number "5", delimiter "]"], 5⟩ ∧
      (Range.continuum (number "1") RIGHT (number "5")).GetExtent = RIGHT ∧
      (Interval.mk 3 RIGHT 7).ContainsValue 7 = true ∧
      (Interval.mk 3 RIGHT 7).ContainsValue 3 = false :=
  ⟨rfl,
    (extent_brackets_roundtrip literalScalars literalRenderers RIGHT
      (startOf [delimiter "(", number "1", delimiter "..", number "5", delimiter "]"])
      ⟨_, 1⟩ ⟨_, 2⟩ ⟨_, 3⟩ ⟨_, 4⟩ ⟨_, 5⟩ ⟨_, 5⟩ ".." (delimiter "(") (number "1")
      (delimiter "..") (number "5") (delimiter "]") (delimiter "]") (number "1") (number "5")
      (Range.continuum (number "1") RIGHT (number "5")) rfl rfl rfl rfl rfl rfl).1,
    by decide, by decide⟩

end ExtentClaims

section CatalogIndexLemmas

variable {K V : Type} [DecidableEq K]

theorem entryOf_eq_none_iff (keys : List (K × Nat)) (key : K) :
    entryOf keys key = none ↔ key ∉ keys.map Prod.fst := by
  induction keys with
  | nil => simp [entryOf]
  | cons entry rest ih =>
    obtain ⟨k, a⟩ := entry
    by_cases h : key = k
    · simp [entryOf, h]
    · simp [entryOf, h, ih]

theorem entryOf_of_mem (keys : List (K × Nat)) (hnodup : (keys.map Prod.fst).Nodup) (key : K)
    (address : Nat) (hmem : (key, address) ∈ keys) : entryOf keys key = some address := by
  induction keys with
  | nil => simp at hmem
  | cons entry rest ih =>
    obtain ⟨k, a⟩ := entry
    simp only [List.map_cons, List.nodup_cons] at hnodup
    rcases List.mem_cons.1 hmem with h | h
    · cases h
      simp [entryOf]
    · have hne : ¬ key = k := by
        intro e
        subst e
        exact hnodup.1 (List.mem_map.2 ⟨(key, address), h, rfl⟩)
      simp only [entryOf, hne, if_false]
      exact ih hnodup.2 h

theorem entryOf_mem_of_some (keys : List (K × Nat)) (key : K) (address : Nat)
    (hentry : entryOf keys key = some address) : (key, address) ∈ keys := by
  induction keys with
  | nil => simp [entryOf] at hentry
  | cons entry rest ih =>
    obtain ⟨k, a⟩ := entry
    by_cases h : key = k
    · subst h
      have : a = address := by simpa [entryOf] using hentry
      subst this
      exact List.mem_cons_self _ _
    · simp only [entryOf, h, if_false] at hentry
      exact List.mem_cons_of_mem _ (ih hentry)

theorem filter_ne_length (keys : List (K × Nat)) (hnodup : (keys.map Prod.fst).Nodup) (key : K)
    (address : Nat) (hentry : entryOf keys key = some address) :
    (keys.filter (fun entry => entry.1 ≠ key)).length + 1 = keys.length := by
  induction keys with
  | nil => simp [entryOf] at hentry
  | cons entry rest ih =>
    obtain ⟨k, a⟩ := entry
    simp only [List.map_cons, List.nodup_cons] at hnodup
    by_cases h : key = k
    · subst h
      have hself : List.filter (fun entry => !decide (entry.1 = key)) rest = rest := by
        rw [List.filter_eq_self]
        intro e he
        have : e.1 ≠ key := fun eq => hnodup.1 (List.mem_map.2 ⟨e, he, eq⟩)
        simpa using this
      simp [List.filter_cons, hself]
    · have hk : ¬ k = key := fun e => h e.symm
      simp only [entryOf, h, if_false] at hentry
      have := ih hnodup.2 hentry
      simp only [ne_eq, decide_not] at this
      simp [List.filter_cons, hk, this]

theorem filter_ne_nodup (keys : List (K × Nat)) (hnodup : (keys.map Prod.fst).Nodup) (key : K) :
    ((keys.filter (fun entry => entry.1 ≠ key)).map Prod.fst).Nodup :=
  List.Nodup.sublist (List.Sublist.map _ (List.filter_sublist _)) hnodup

theorem erase_eq_filter_map (keys : List (K × Nat)) (hnodup : (keys.map Prod.fst).Nodup)
    (hsnd : (keys.map Prod.snd).Nodup) (key : K) (address : Nat)
    (hentry : entryOf keys key = some address) :
    (keys.map Prod.snd).erase address
      = (keys.filter (fun entry => entry.1 ≠ key)).map Prod.snd := by
  induction keys with
  | nil => simp [entryOf] at hentry
  | cons entry rest ih =>
    obtain ⟨k, a⟩ := entry
    simp only [List.map_cons, List.nodup_cons] at hnodup hsnd
    by_cases h : key = k
    · subst h
      have ha : a = address := by simpa [entryOf] using hentry
      subst ha
      have hself : List.filter (fun entry => !decide (entry.1 = key)) rest = rest := by
        rw [List.filter_eq_self]
        intro e he
        have : e.1 ≠ key := fun eq => hnodup.1 (List.mem_map.2 ⟨e, he, eq⟩)
        simpa using this
      simp [List.filter_cons, hself]
    · have hk : ¬ k = key := fun e => h e.symm
      simp only [entryOf, h, if_false] at hentry
      have hmem : address ∈ rest.map Prod.snd := by
        have := entryOf_mem_of_some rest key address hentry
        exact List.mem_map.2 ⟨(key, address), this, rfl⟩
      have hne : ¬ a = address := fun e => hsnd.1 (e ▸ hmem)
      have hbeq : (a == address) = false := by simpa using hne
      have hrest := ih hnodup.2 hsnd.2 hentry
      simp only [ne_eq, decide_not] at hrest
      simp [List.erase_cons, hbeq, List.filter_cons, hk, hrest]

theorem WellFormed_of_perm (v : catalog K V) (hv : v.WellFormed) (addresses : List Nat)
    (hperm : addresses.Perm v.associations) :
    ({ v with associations := addresses } : catalog K V).WellFormed := by
  obtain ⟨hnodup, hmap, hback⟩ := hv
  unfold catalog.WellFormed
  refine ⟨hperm.nodup_iff.2 hnodup, ?_, ?_⟩
  · intro key address h
    obtain ⟨hm, hc⟩ := hmap key address h
    exact ⟨hperm.mem_iff.2 hm, hc⟩
  · intro address h
    exact hback address (hperm.mem_iff.1 h)

theorem Kept_of_perm (v : catalog K V) (ordered : Bool) (hv : v.Kept ordered)
    (addresses : List Nat) (hperm : addresses.Perm v.associations) :
    ({ v with associations := addresses } : catalog K V).Kept false := by
  unfold catalog.Kept catalog.Agrees at hv ⊢
  obtain ⟨⟨hwf, hnodup, hlen⟩, -⟩ := hv
  refine ⟨⟨WellFormed_of_perm v hwf addresses hperm, hnodup, ?_⟩, ?_⟩
  · dsimp only
    rw [hlen, hperm.length_eq]
  · intro h
    cases h

theorem Catalog_Kept : (Catalog : catalog K V).Kept true := by
  unfold catalog.Kept catalog.Agrees
  exact ⟨⟨Catalog_WellFormed, List.nodup_nil, rfl⟩, fun _ => rfl⟩

theorem RemoveAll_Kept (v : catalog K V) (ordered : Bool) : v.RemoveAll.Kept ordered := by
  unfold catalog.Kept catalog.Agrees catalog.WellFormed catalog.RemoveAll
  refine ⟨⟨⟨List.nodup_nil, ?_, ?_⟩, List.nodup_nil, rfl⟩, fun _ => rfl⟩
  · intro key address h
    simp [entryOf] at h
  · intro address h
    simp at h

end CatalogIndexLemmas

section CatalogIndexClaims

variable {K V : Type} [DecidableEq K] [Inhabited V]

theorem filterMap_cells_length {α : Type} (cells : List α) (addresses : List Nat)
    (h : ∀ address ∈ addresses, ∃ cell, cells[address]? = some cell) :
    (addresses.filterMap (fun address => cells[address]?)).length = addresses.length := by
  induction addresses with
  | nil => rfl
  | cons address rest ih =>
    obtain ⟨cell, hcell⟩ := h address (List.mem_cons_self _ _)
    have hrest := ih (fun a ha => h a (List.mem_cons_of_mem _ ha))
    simp [List.filterMap_cons, hcell, hrest]

theorem keys_of_entries {A B : Type} (cells : List (association A B)) (entries : List (A × Nat))
    (h : ∀ entry ∈ entries, ∃ value, cells[entry.2]? = some ⟨entry.1, value⟩) :
    ((entries.map Prod.snd).filterMap (fun address => cells[address]?)).map association.key
      = entries.map Prod.fst := by
  induction entries with
  | nil => rfl
  | cons entry rest ih =>
    obtain ⟨value, hcell⟩ := h entry (List.mem_cons_self _ _)
    have hrest := ih (fun e he => h e (List.mem_cons_of_mem _ he))
    simp only [List.map_cons, List.filterMap_cons, hcell]
    rw [hrest]

theorem SetValue_Kept (v : catalog K V) (ordered : Bool) (hv : v.Kept ordered) (key : K)
    (value : V) : (v.SetValue key value).1.Kept ordered := by
  unfold catalog.Kept catalog.Agrees at hv ⊢
  obtain ⟨⟨hwf, hnodup, hlen⟩, hord⟩ := hv
  have hafter := SetValue_WellFormed v hwf key value
  cases hentry : entryOf v.keys key with
  | some address =>
    obtain ⟨-, old, hcell⟩ := hwf.2.1 key address hentry
    rw [SetValue_present v key value address _ hentry hcell] at hafter ⊢
    exact ⟨⟨hafter, hnodup, hlen⟩, hord⟩
  | none =>
    rw [SetValue_absent v key value hentry] at hafter ⊢
    refine ⟨⟨hafter, ?_, ?_⟩, ?_⟩
    · dsimp only
      rw [List.map_append, List.nodup_append]
      refine ⟨hnodup, List.nodup_singleton _, ?_⟩
      intro x hx hx2
      have hxkey : x = key := by simpa using hx2
      subst hxkey
      exact (entryOf_eq_none_iff _ _).1 hentry hx
    · dsimp only
      simp [hlen]
    · intro h
      dsimp only
      rw [hord h]
      simp

theorem AddAssociations_Kept (ordered : Bool) (items : List (association K V)) :
    ∀ v : catalog K V, v.Kept ordered → (v.AddAssociations items).Kept ordered := by
  induction items with
  | nil => exact fun _ hv => hv
  | cons item rest ih =>
    intro v hv
    have hstep : (v.AddAssociation item).Kept ordered :=
      SetValue_Kept v ordered hv item.key item.value
    exact ih _ hstep

theorem RemoveValue_Kept (v : catalog K V) (ordered : Bool) (hv : v.Kept ordered) (key : K) :
    ∃ after value, v.RemoveValue key = some (after, value) ∧ after.Kept ordered := by
  cases hentry : entryOf v.keys key with
  | none => exact ⟨v, default, RemoveValue_absent v key hentry, hv⟩
  | some address =>
    unfold catalog.Kept catalog.Agrees at hv ⊢
    obtain ⟨⟨hwf, hnodup, hlen⟩, hord⟩ := hv
    obtain ⟨after, hremove, hafter, -⟩ := RemoveValue_refines v hwf key
    obtain ⟨hmem, old, hcell⟩ := hwf.2.1 key address hentry
    have hexplicit := RemoveValue_present v key address _ hentry hmem hcell
    have hsame := hremove.symm.trans hexplicit
    simp only [Option.some.injEq, Prod.mk.injEq] at hsame
    obtain ⟨hsame, -⟩ := hsame
    subst hsame
    refine ⟨_, _, hexplicit, ⟨hafter, filter_ne_nodup v.keys hnodup key, ?_⟩, ?_⟩
    · have h1 := filter_ne_length v.keys hnodup key address hentry
      have h2 := List.length_erase_of_mem hmem
      have h3 := List.length_pos_of_mem hmem
      dsimp only
      omega
    · intro h
      have horder := hord h
      dsimp only
      rw [horder]
      exact erase_eq_filter_map v.keys hnodup (horder ▸ hwf.1) key address hentry

theorem RemoveValues_Kept (ordered : Bool) (keys : List K) :
    ∀ v : catalog K V, v.Kept ordered →
      ∃ after values, v.RemoveValues keys = some (after, values) ∧ after.Kept ordered := by
  induction keys with
  | nil => exact fun v hv => ⟨v, [], rfl, hv⟩
  | cons key rest ih =>
    intro v hv
    obtain ⟨v1, value, h1, hv1⟩ := RemoveValue_Kept v ordered hv key
    obtain ⟨v2, values, h2, hv2⟩ := ih v1 hv1
    refine ⟨v2, value :: values, ?_, hv2⟩
    simp only [catalog.RemoveValues, h1, h2]

theorem update_Kept (RankValues : association K V → association K V → Int) (v : catalog K V)
    (ordered : Bool) (hv : v.Kept ordered) (call : Update K V) :
    ∃ after, v.update RankValues call = some after ∧
      after.Kept (ordered && call.keepsOrder) := by
  cases call with
  | SetValue key value =>
    refine ⟨_, rfl, ?_⟩
    simpa [Update.keepsOrder] using SetValue_Kept v ordered hv key value
  | AddAssociation item =>
    refine ⟨_, rfl, ?_⟩
    simpa [Update.keepsOrder] using SetValue_Kept v ordered hv item.key item.value
  | AddAssociations items =>
    refine ⟨_, rfl, ?_⟩
    simpa [Update.keepsOrder] using AddAssociations_Kept ordered items v hv
  | RemoveValue key =>
    obtain ⟨after, value, h, hafter⟩ := RemoveValue_Kept v ordered hv key
    refine ⟨after, ?_, ?_⟩
    · simp only [catalog.update, h]
    · simpa [Update.keepsOrder] using hafter
  | RemoveValues keys =>
    obtain ⟨after, values, h, hafter⟩ := RemoveValues_Kept ordered keys v hv
    refine ⟨after, ?_, ?_⟩
    · simp only [catalog.update, h]
    · simpa [Update.keepsOrder] using hafter
  | RemoveAll =>
    refine ⟨_, rfl, ?_⟩
    simpa [Update.keepsOrder] using RemoveAll_Kept v ordered
  | SortAssociations =>
    refine ⟨_, rfl, ?_⟩
    simpa [Update.keepsOrder] using
      Kept_of_perm v ordered hv _ (List.perm_insertionSort _ v.associations)
  | SortAssociationsWithRanker rank =>
    refine ⟨_, rfl, ?_⟩
    simpa [Update.keepsOrder] using
      Kept_of_perm v ordered hv _ (List.perm_insertionSort _ v.associations)
  | ReverseAssociations =>
    refine ⟨_, rfl, ?_⟩
    simpa [Update.keepsOrder] using
      Kept_of_perm v ordered hv _ (List.reverse_perm v.associations)

theorem updates_Kept (RankValues : association K V → association K V → Int)
    (calls : List (Update K V)) :
    ∀ (v : catalog K V) (ordered : Bool), v.Kept ordered →
      ∃ after, v.updates RankValues calls = some after ∧
        after.Kept (ordered && calls.all Update.keepsOrder) := by
  induction calls with
  | nil =>
    intro v ordered hv
    exact ⟨v, rfl, by simpa using hv⟩
  | cons call rest ih =>
    intro v ordered hv
    obtain ⟨v1, h1, hv1⟩ := update_Kept RankValues v ordered hv call
    obtain ⟨v2, h2, hv2⟩ := ih v1 _ hv1
    refine ⟨v2, ?_, ?_⟩
    · simp only [catalog.updates, h1, h2]
    · simpa [Bool.and_assoc] using hv2

/-- C37: starting from a new catalog, every sequence of calls of `SetValue`,
`AddAssociation`, `AddAssociations`, `RemoveValue`, `RemoveValues`, `RemoveAll`,
`SortAssociations`, `SortAssociationsWithRanker` and `ReverseAssociations` runs
through, and afterwards the index and the sequence agree: the index holds a key
exactly when one association of the sequence has the key, and no key is held by
two; the index gives for a key an association of the sequence that has this key;
no address of the sequence is dangling; `GetSize` is the number of keys of the
index; `GetKeys` are the keys of the associations in the order of the sequence,
and when no call has sorted or reversed, that is the order in which the index
got its keys. -/
theorem catalog_index_agrees (RankValues : association K V → association K V → Int)
    (calls : List (Update K V)) :
    ∃ v : catalog K V, (Catalog : catalog K V).updates RankValues calls = some v ∧
      (∀ key, (∃ address, entryOf v.keys key = some address) ↔ v.GetKeys.count key = 1) ∧
      (∀ key, v.GetKeys.count key ≤ 1) ∧
      (∀ key address, entryOf v.keys key = some address →
        address ∈ v.associations ∧ ∃ value, v.cells[address]? = some ⟨key, value⟩) ∧
      (v.keys.map Prod.fst).Nodup ∧
      v.AsArray.length = v.associations.length ∧
      v.GetSize = v.keys.length ∧
      v.GetKeys = v.AsArray.map association.key ∧
      (calls.all Update.keepsOrder = true → v.GetKeys = v.keys.map Prod.fst) := by
  obtain ⟨v, hrun, hv⟩ := updates_Kept RankValues calls (Catalog : catalog K V) true Catalog_Kept
  unfold catalog.Kept catalog.Agrees at hv
  obtain ⟨⟨hwf, hnodup, hlen⟩, hord⟩ := hv
  have hkeys := GetKeys_nodup v hwf
  refine ⟨v, hrun, ?_, ?_, hwf.2.1, hnodup, ?_, ?_, rfl, ?_⟩
  · intro key
    rw [← mem_GetKeys_iff v hwf key]
    constructor
    · exact fun h => List.count_eq_one_of_mem hkeys h
    · intro h
      exact List.count_pos_iff.1 (by omega)
  · exact fun key => List.nodup_iff_count_le_one.1 hkeys key
  · exact filterMap_cells_length v.cells v.associations
      (fun address h => (hwf.2.2 address h).imp (fun _ hc => hc.1))
  · unfold catalog.GetSize
    rw [hlen]
  · intro hall
    have horder := hord (by simpa using hall)
    unfold catalog.GetKeys catalog.AsArray
    rw [horder]
    apply keys_of_entries
    intro entry hentry
    exact (hwf.2.1 entry.1 entry.2 (entryOf_of_mem v.keys hnodup entry.1 entry.2 hentry)).2

end CatalogIndexClaims

section RuneClaims

variable {Primitive : Type}

/-- A literal production of the examples leaves the cursor in place when it
reports no match. -/
theorem parseLiteralOf_noMatch_cursor (type : TokenType) (u : Parser) (token : Token)
    (w : Parser) (h : parseLiteralOf type u = Outcome.noMatch token w) : w = u := by
  unfold parseLiteralOf at h
  simp only at h
  split at h
  · simp only [Outcome.noMatch.injEq] at h
    rw [← h.2]
    exact backupOne_nextToken u
  · cases h

/-- The production `parseReal` leaves the cursor in place when it reports no
match. -/
theorem parseReal_noMatch_cursor (g : Scalars Primitive) (u : Parser) (token : Token)
    (w : Parser) (h : parseReal g u = Outcome.noMatch token w) : w = u := by
  unfold parseReal at h
  simp only at h
  split at h
  · simp only [Outcome.noMatch.injEq] at h
    rw [← h.2]
    exact backupOne_nextToken u
  · repeat' split at h
    all_goals cases h

/-- Two orders of grammars with the same grammars up to one from which they give
the same results give the same results. -/
theorem firstMatch_congr_prefix (before : List (Parser → Outcome Primitive))
    (next : Parser → Outcome Primitive) (one other : List (Parser → Outcome Primitive))
    (h : ∀ u, firstMatch next one u = firstMatch next other u) :
    ∀ (first : Parser → Outcome Primitive) (v : Parser),
      firstMatch first (before ++ next :: one) v
        = firstMatch first (before ++ next :: other) v := by
  induction before with
  | nil =>
    intro first v
    simp only [List.nil_append, firstMatch]
    cases first v with
    | noMatch token v1 => exact h v1
    | ok x token v1 => rfl
    | fatal d => rfl
    | outOfFuel => rfl
  | cons head rest ih =>
    intro first v
    simp only [List.cons_append, firstMatch]
    cases first v with
    | noMatch token v1 => exact ih head v1
    | ok x token v1 => rfl
    | fatal d => rfl
    | outOfFuel => rfl

/-- C39: when the quote and the resource production leave the cursor in place on
no match (as `parseReal` does), the rune alternative of `parseEndpoint` is
unreachable: `parseEndpoint` is the first match over the literal grammars
without the rune grammar; wherever `parseRune` succeeds, `parseQuote` succeeds
on the same token; and where the quote alternative is reached in place and
matches, the quote is the endpoint returned. -/
theorem parseRune_unreachable (g : Scalars Primitive)
    (hquote : ∀ u token w, g.parseQuote u = Outcome.noMatch token w → w = u)
    (hresource : ∀ u token w, g.parseResource u = Outcome.noMatch token w → w = u)
    (v : Parser) :
    parseEndpoint g v = firstMatch g.parseAngle (grammarsWithoutRune g) v ∧
      (∀ u rune token w, parseRune g u = Outcome.ok rune token w →
        ∃ quote, g.parseQuote u = Outcome.ok quote token w) ∧
      (∀ quote token w,
        (∀ p ∈ [g.parseAngle, g.parseBinary, g.parseBoolean, g.parseDuration, g.parseMoment,
            g.parseMoniker, g.parsePattern, g.parsePercentage, g.parseProbability],
          ∃ t, p v = Outcome.noMatch t v) →
        g.parseQuote v = Outcome.ok quote token w →
        parseEndpoint g v = Outcome.ok quote token w) := by
  have hfirst : parseEndpoint g v = firstMatch g.parseAngle (grammarsAfterAngle g) v :=
    foldl_orElse_eq_firstMatch g.parseAngle (grammarsAfterAngle g) v
  refine ⟨?_, ?_, ?_⟩
  · rw [hfirst]
    have hcore : ∀ u,
        firstMatch g.parseQuote
            [parseReal g, g.parseResource, parseRune g, g.parseSymbol, g.parseTag,
              g.parseVersion] u
          = firstMatch g.parseQuote
            [parseReal g, g.parseResource, g.parseSymbol, g.parseTag, g.parseVersion] u := by
      intro u
      simp only [firstMatch]
      cases hq : g.parseQuote u with
      | ok x token v1 => rfl
      | fatal d => rfl
      | outOfFuel => rfl
      | noMatch t1 w1 =>
        have h1 := hquote u t1 w1 hq
        subst h1
        simp only
        cases hr : parseReal g w1 with
        | ok x token v1 => rfl
        | fatal d => rfl
        | outOfFuel => rfl
        | noMatch t2 w2 =>
          have h2 := parseReal_noMatch_cursor g w1 t2 w2 hr
          subst h2
          simp only
          cases hs : g.parseResource w2 with
          | ok x token v1 => rfl
          | fatal d => rfl
          | outOfFuel => rfl
          | noMatch t3 w3 =>
            have h3 := hresource w2 t3 w3 hs
            subst h3
            have hrune : parseRune g w3 = Outcome.noMatch t1 w3 := by
              simp only [parseRune, hq, Outcome.andThen]
            simp only [hrune]
    exact firstMatch_congr_prefix
      [g.parseBinary, g.parseBoolean, g.parseDuration, g.parseMoment, g.parseMoniker,
        g.parsePattern, g.parsePercentage, g.parseProbability]
      g.parseQuote _ _ hcore g.parseAngle v
  · intro u rune token w h
    unfold parseRune at h
    cases hq : g.parseQuote u with
    | ok quote t1 w1 =>
      rw [hq] at h
      simp only [Outcome.andThen] at h
      split at h
      · cases h
      · simp only [Outcome.ok.injEq] at h
        exact ⟨quote, by rw [h.2.1, h.2.2]⟩
    | noMatch t1 w1 =>
      rw [hq] at h
      cases h
    | fatal d =>
      rw [hq] at h
      cases h
    | outOfFuel =>
      rw [hq] at h
      cases h
  · intro quote token w hall hq
    simp only [List.mem_cons, List.mem_singleton, forall_eq_or_imp, List.not_mem_nil,
      false_implies, implies_true, and_true] at hall
    obtain ⟨⟨_, e1⟩, ⟨_, e2⟩, ⟨_, e3⟩, ⟨_, e4⟩, ⟨_, e5⟩, ⟨_, e6⟩, ⟨_, e7⟩, ⟨_, e8⟩,
      ⟨_, e9⟩⟩ := hall
    simp only [parseEndpoint, e1, e2, e3, e4, e5, e6, e7, e8, e9, hq, Outcome.orElse]

/-- On the token of the quote `"a"` the quote and the resource production of the
examples leave the cursor in place on no match, the rune production alone gives
the rune `a`, and the endpoint production gives the quote. -/
theorem parseRune_unreachable_witness :
    (∀ u token w, unquotedScalars.parseQuote u = Outcome.noMatch token w → w = u) ∧
      (∀ u token w, unquotedScalars.parseResource u = Outcome.noMatch token w → w = u) ∧
      parseRune unquotedScalars (startOf [literal TokenQuote quotedLetter])
        = Outcome.ok (unquotedScalars.rune 97) (literal TokenQuote quotedLetter)
            ⟨[literal TokenQuote quotedLetter], 1⟩ ∧
      parseEndpoint unquotedScalars (startOf [literal TokenQuote quotedLetter])
        = Outcome.ok (literal TokenQuote quotedLetter) (literal TokenQuote quotedLetter)
            ⟨[literal TokenQuote quotedLetter], 1⟩ ∧
      unquotedScalars.rune 97 ≠ literal TokenQuote quotedLetter ∧
      parseEndpoint unquotedScalars (startOf [literal TokenQuote quotedLetter])
        = firstMatch unquotedScalars.parseAngle (grammarsWithoutRune unquotedScalars)
            (startOf [literal TokenQuote quotedLetter]) :=
  ⟨fun u token w h => parseLiteralOf_noMatch_cursor TokenQuote u token w h,
    fun u token w h => parseLiteralOf_noMatch_cursor TokenResource u token w h,
    by decide, by decide, by decide,
    (parseRune_unreachable unquotedScalars
      (fun u token w h => parseLiteralOf_noMatch_cursor TokenQuote u token w h)
      (fun u token w h => parseLiteralOf_noMatch_cursor TokenResource u token w h)
      (startOf [literal TokenQuote quotedLetter])).1⟩

end RuneClaims

section BooleanEndpointClaims

variable {Primitive : Type}

/-- The text of a rune has one character. -/
theorem runeText_length (integer : Int) : (runeText integer).length = 1 := by
  unfold runeText
  simp only
  split <;> rfl

/-- The formatter of a rune of the examples does not give the text `true`. -/
theorem formatRune_ne_true (endpoint : Token) :
    formatRune literalRenderers endpoint "" ≠ Except.ok "true" := by
  intro h
  simp only [formatRune, literalRenderers, Except.ok.injEq, String.empty_append] at h
  have hlength := runeText_length (endpoint.value.toInt?.getD 0)
  rw [h] at hlength
  revert hlength
  decide

/-- C38 (the code departs from the claim): the type switch of `formatEndpoint`
has no case for a boolean.  An endpoint that implements none of the fifteen
interfaces other than `RuneLike` is rendered as a rune, as the quote of the code
point of its `AsInteger`, when it has the methods of `Discrete`, and is the
error "invalid endpoint" when it has not. -/
theorem formatEndpoint_has_no_boolean_case (r : Renderers Primitive) (endpoint : Primitive)
    (state : String)
    (hother : ∀ rule ∈ endpointRules r, rule.name ≠ "RuneLike" → rule.applies endpoint = false) :
    formatEndpoint r endpoint state
      = if r.isRuneLike endpoint = true then
          r.formatQuote (r.quoteFromString (runeText (r.asInteger endpoint))) state
        else Except.error "An invalid endpoint was passed to the formatter" := by
  simp only [endpointRules, List.mem_cons, List.mem_singleton, forall_eq_or_imp,
    List.not_mem_nil, false_implies, implies_true, and_true] at hother
  obtain ⟨h1, h2, h3, h4, h5, h6, h7, h8, h9, h10, h11, -, h13, h14, h15, h16⟩ := hother
  simp only [formatEndpoint, h1 (by decide), h2 (by decide), h3 (by decide), h4 (by decide),
    h5 (by decide), h6 (by decide), h7 (by decide), h8 (by decide), h9 (by decide),
    h10 (by decide), h11 (by decide), h13 (by decide), h14 (by decide), h15 (by decide),
    h16 (by decide), formatRune, Bool.false_eq_true, if_false]

/-- The boolean `true` is an endpoint that `parseEndpoint` returns; with the
renderers of the examples, in which a boolean has the methods of `Discrete`, it
is rendered by the formatter of a rune, which does not give `true`; with a
boolean type without these methods it is the error. -/
theorem formatEndpoint_has_no_boolean_case_witness :
    parseEndpoint literalScalars (startOf [literal TokenBoolean "true"])
        = Outcome.ok (literal TokenBoolean "true") (literal TokenBoolean "true")
            ⟨[literal TokenBoolean "true"], 1⟩ ∧
      (∀ rule ∈ endpointRules literalRenderers,
        rule.name ≠ "RuneLike" → rule.applies (literal TokenBoolean "true") = false) ∧
      formatEndpoint literalRenderers (literal TokenBoolean "true") ""
        = formatRune literalRenderers (literal TokenBoolean "true") "" ∧
      formatRune literalRenderers (literal TokenBoolean "true") "" ≠ Except.ok "true" ∧
      formatEndpoint strictRenderers (literal TokenBoolean "true") ""
        = Except.error "An invalid endpoint was passed to the formatter" :=
  ⟨by decide, by decide,
    (formatEndpoint_has_no_boolean_case literalRenderers (literal TokenBoolean "true") ""
      (by decide)).trans rfl,
    formatRune_ne_true _,
    (formatEndpoint_has_no_boolean_case strictRenderers (literal TokenBoolean "true") ""
      (by decide)).trans rfl⟩

end BooleanEndpointClaims

section CategoryLemmas

/-- With the constants numbered category by category, the tests of the six
productions other than `parseInversion` are the categories of the
specification: an operator of the table passes the test of a production exactly
when its text is in the category of the production. -/
theorem categoryCode_ranges (text : String) (operator : Operator)
    (h : operatorOf text = some operator) :
    (text ∈ categoryTexts Production.Invocation ↔
        ¬ (categoryCode operator < categoryCode DOT ∨
          categoryCode operator > categoryCode ARROW)) ∧
      (text ∈ categoryTexts Production.Chaining ↔ operator = AMPERSAND) ∧
      (text ∈ categoryTexts Production.Exponential ↔ operator = CARET) ∧
      (text ∈ categoryTexts Production.Arithmetic ↔
        ¬ (categoryCode operator < categoryCode PLUS ∨
          categoryCode operator > categoryCode MODULO)) ∧
      (text ∈ categoryTexts Production.Comparison ↔
        ¬ (categoryCode operator < categoryCode LESS ∨
          categoryCode operator > categoryCode MATCHES)) ∧
      (text ∈ categoryTexts Production.Logical ↔
        ¬ (categoryCode operator < categoryCode NOT ∨
          categoryCode operator > categoryCode XOR)) := by
  have ht := operatorText_of_operatorOf text operator h
  cases operator <;> simp only [operatorText, Option.some.injEq] at ht <;>
    first
    | (subst ht; decide)
    | cases ht

/-- With the constants numbered category by category, each of the six productions
other than `parseInversion` pushes an operator of the table outside its category
back and reports `ok = false` in place. -/
theorem other_productions_push_back (rec : Parser → Outcome (Expression Token)) (fuel : Nat)
    (first : Option (Expression Token)) (v : Parser) (text : String) (operator : Operator)
    (hnext : (nextToken v).1 = ⟨TokenDelimiter, text⟩)
    (hoperator : operatorOf text = some operator) :
    (text ∉ categoryTexts Production.Invocation →
        parseInvocation literalCollaborators rec fuel first v
          = Outcome.noMatch ⟨TokenDelimiter, text⟩ v) ∧
      (text ∉ categoryTexts Production.Chaining →
        parseChaining rec first v = Outcome.noMatch ⟨TokenDelimiter, text⟩ v) ∧
      (text ∉ categoryTexts Production.Exponential →
        parseExponential rec first v = Outcome.noMatch ⟨TokenDelimiter, text⟩ v) ∧
      (text ∉ categoryTexts Production.Arithmetic →
        parseArithmetic literalCollaborators rec first v
          = Outcome.noMatch ⟨TokenDelimiter, text⟩ v) ∧
      (text ∉ categoryTexts Production.Comparison →
        parseComparison literalCollaborators rec first v
          = Outcome.noMatch ⟨TokenDelimiter, text⟩ v) ∧
      (text ∉ categoryTexts Production.Logical →
        parseLogical literalCollaborators rec first v
          = Outcome.noMatch ⟨TokenDelimiter, text⟩ v) := by
  obtain ⟨h1, h2, h3, h4, h5, h6⟩ := categoryCode_ranges text operator hoperator
  obtain ⟨p1, p2, p3, p4, p5, p6, -⟩ :=
    failed_test_pushes_back literalCollaborators rec fuel first v text operator hnext hoperator
  refine ⟨fun h => p1 ?_, fun h => p2 ?_, fun h => p3 ?_, fun h => p4 ?_, fun h => p5 ?_,
    fun h => p6 ?_⟩
  · exact not_not.1 (fun hn => h (h1.2 hn))
  · exact fun hn => h (h2.2 hn)
  · exact fun hn => h (h3.2 hn)
  · exact not_not.1 (fun hn => h (h4.2 hn))
  · exact not_not.1 (fun hn => h (h5.2 hn))
  · exact not_not.1 (fun hn => h (h6.2 hn))

end CategoryLemmas

end Bali
